import Mathlib

/-!
Verification development for the AutoExaminer repository.

This file gives a shallow embedding, in Lean 4, of the answer-evaluation and
answer-key-parsing logic of the repository (src/Evaluator/answer_evaluator.py
and src/Evaluator/answer_key_extractor.py), and proves or refutes a list of
claims about that code.

Modelling conventions:
- Python strings are Lean `String`; character-level work happens on `String.data`.
- Python dicts are association lists `List (String × α)` in insertion order;
  `dictGet` is first-match lookup, `dictSet` is assign (overwrite in place if the
  key is present, append otherwise), matching CPython dict semantics.
- Python numbers (ints and floats produced by scoring) are modelled as `ℚ`;
  `pyRound` models round-half-to-even of Python round(x, n).
- The regular expressions the code uses are compiled by hand into character-list
  functions, following the exact matching semantics (anchors, greediness,
  leftmost search) of each pattern.
- Calls into external libraries (the Gemini model, `json.loads`, `re.search` on
  the model output) are modelled by an explicit outcome type `BatchResponse`:
  the collaborator call raising, no brace-delimited object being found, the
  JSON failing to parse, or a parsed object mapping question ids to entries
  whose fields may individually be missing or non-numeric.
-/

/-! ## Basic text utilities (Python string semantics) -/

/-- Python whitespace for `str.strip` and the regex class `\s` (ASCII range). -/
def isPyWs (c : Char) : Bool :=
  c = ' ' || c = '\t' || c = '\n' || c = '\x0d' || c = '\x0b' || c = '\x0c'

/-- Python `str.strip()` on a character list. -/
def pyStripL (l : List Char) : List Char :=
  List.reverse (List.dropWhile isPyWs (List.reverse (List.dropWhile isPyWs l)))

/-- Python `str.strip()`. -/
def pyStrip (s : String) : String := String.mk (pyStripL s.data)

/-- Python `str.lower()` (ASCII). -/
def pyLower (s : String) : String := String.mk (s.data.map Char.toLower)

/-- Python `"\n".join` of a list of strings. -/
def joinLines : List String → String
  | [] => ""
  | [s] => s
  | s :: rest => s ++ "\n" ++ joinLines rest

/-- Python `text.split("\n")` on a character list, accumulator form. -/
def splitNlAux : List Char → List Char → List String
  | [], acc => [String.mk acc.reverse]
  | c :: rest, acc =>
    if c = '\n' then String.mk acc.reverse :: splitNlAux rest []
    else splitNlAux rest (c :: acc)

/-- Python `text.split("\n")`. -/
def splitNl (s : String) : List String := splitNlAux s.data []

/-- Decide whether `pat` is a leading pattern of `l`. -/
def listStartsWith : List Char → List Char → Bool
  | [], _ => true
  | _ :: _, [] => false
  | a :: as, b :: bs => a = b && listStartsWith as bs

/-- Python substring containment `needle in hay` on character lists. -/
def listContainsSub (needle : List Char) : List Char → Bool
  | [] => needle.isEmpty
  | c :: rest => listStartsWith needle (c :: rest) || listContainsSub needle rest

/-- Python substring containment `needle in hay` on strings. -/
def strIn (needle hay : String) : Bool := listContainsSub needle.data hay.data

/-- Word characters of the regex class `\w` (ASCII): letters, digits, underscore. -/
def isWordChar (c : Char) : Bool :=
  (('a' ≤ c && c ≤ 'z') || ('A' ≤ c && c ≤ 'Z') || ('0' ≤ c && c ≤ '9') || c = '_')

/-- Maximal runs of word characters in a character list (accumulator holds the
current run reversed).  `re.findall` of a word-run pattern returns these runs. -/
def wordRunsAux : List Char → List Char → List (List Char)
  | [], acc => if acc.isEmpty then [] else [acc.reverse]
  | c :: rest, acc =>
    if isWordChar c then wordRunsAux rest (c :: acc)
    else if acc.isEmpty then wordRunsAux rest []
    else acc.reverse :: wordRunsAux rest []

/-- Maximal word-character runs of a string. -/
def wordRuns (s : String) : List (List Char) := wordRunsAux s.data []

/-- Split positions of the regex `[.;](?=\s|$)`: a dot or semicolon that is
followed by whitespace or the end of the string.  The delimiter is dropped and
the lookahead material stays with the next part, as `re.split` does with a
zero-width lookahead and no capture group. -/
def splitKPAux : List Char → List Char → List String
  | [], acc => [String.mk acc.reverse]
  | c :: rest, acc =>
    if (c = '.' || c = ';') && (rest.isEmpty || isPyWs (rest.headD ' ')) then
      String.mk acc.reverse :: splitKPAux rest []
    else splitKPAux rest (c :: acc)

/-- Parse an ASCII digit. -/
def digitVal (c : Char) : ℤ := (c.toNat : ℤ) - 48

/-- Value of a digit string (most significant digit first), as Python `int`. -/
def digitsToInt (l : List Char) : ℤ := l.foldl (fun a c => a * 10 + digitVal c) 0

/-! ## Rounding (Python round, half to even, on exact rationals) -/

/-- Round a rational to the nearest integer, ties to the even integer, as
Python round does on an exactly-representable value.  Written with integer
division on the numerator and denominator so that the kernel can evaluate it
(`q.num / q.den` is the floor of `q` since the denominator is positive). -/
def roundHalfEven (q : ℚ) : ℤ :=
  let f := q.num / (q.den : ℤ)
  let r := q.num - f * (q.den : ℤ)
  if 2 * r < (q.den : ℤ) then f
  else if (q.den : ℤ) < 2 * r then f + 1
  else if f % 2 = 0 then f else f + 1

/-- Python `round(q, n)` on exact rationals. -/
def pyRound (q : ℚ) (n : ℕ) : ℚ := (roundHalfEven (q * 10 ^ n) : ℚ) / 10 ^ n

/-! ## Association lists with Python dict semantics -/

/-- First-match lookup, Python `d[k]` / `k in d`. -/
def dictGet {α : Type} (l : List (String × α)) (k : String) : Option α :=
  match l with
  | [] => none
  | (k0, v) :: rest => if k0 = k then some v else dictGet rest k

/-- Python dict assignment `d[k] = v`: overwrite in place when the key exists,
append otherwise. -/
def dictSet {α : Type} (l : List (String × α)) (k : String) (v : α) :
    List (String × α) :=
  match l with
  | [] => [(k, v)]
  | (k0, v0) :: rest =>
    if k0 = k then (k0, v) :: rest else (k0, v0) :: dictSet rest k v

/-! ## MCQ option extraction

The evaluator extracts the selected option with
`re.search(r'[(\s]?([A-Da-d])[)\s\.]?', student_answer)`.  The search tries each
start position from the left; at a position the greedy optional class `[(\s]?`
first consumes a bracket or whitespace character if the following character is
an option letter, and otherwise the position itself must hold an option letter
(backtracking cannot succeed because the two classes are disjoint).  The two
trailing optional characters never constrain the match. -/

/-- Option letters `[A-Da-d]` of the MCQ extraction pattern. -/
def isOptionLetter (c : Char) : Bool :=
  c = 'A' || c = 'B' || c = 'C' || c = 'D' ||
  c = 'a' || c = 'b' || c = 'c' || c = 'd'

/-- Leading class `[(\s]` of the MCQ extraction pattern. -/
def isPreChar (c : Char) : Bool := c = '(' || isPyWs c

/-- Attempt of the MCQ pattern at one start position; returns capture group 1. -/
def mcqMatchAt : List Char → Option Char
  | [] => none
  | [c1] => if isOptionLetter c1 then some c1 else none
  | c1 :: c2 :: _ =>
    if isPreChar c1 then
      if isOptionLetter c2 then some c2 else none
    else if isOptionLetter c1 then some c1 else none

/-- Leftmost search of the MCQ pattern: capture group 1 of the first position
where the pattern matches, as `re.search`. -/
def mcqSearch : List Char → Option Char
  | [] => none
  | c :: rest =>
    match mcqMatchAt (c :: rest) with
    | some g => some g
    | none => mcqSearch rest

/-! ## Evaluator data model -/

/-- Answer-key data of one descriptive question or one composite sub-question:
the keys `marks`, `key_points` and (optionally) `answer_text` that
`_estimate_score` and the batch prompt read. -/
structure KeyData where
  marks : ℚ
  key_points : List String
  answer_text : Option String
  deriving DecidableEq

/-- One question of the structured answer key. -/
inductive QData where
  | mcq (answer : String) (marks : ℚ)
  | descriptive (kd : KeyData)
  | composite (marks : ℚ) (subquestions : List (String × KeyData))
  deriving DecidableEq

/-- Marks of the question as `evaluate_answers` reads them for an unattempted
question: the flat `marks` unless composite, else the sum of sub-marks. -/
def QData.maxMarks : QData → ℚ
  | .mcq _ m => m
  | .descriptive kd => kd.marks
  | .composite _ subs => (subs.map (fun p => p.2.marks)).sum

/-- Structured answer key: the `questions` dict and `metadata.total_marks`. -/
structure AnswerKey where
  questions : List (String × QData)
  total_marks : ℚ
  deriving DecidableEq

/-- The `_evaluate_mcq` method: deterministic MCQ scoring. -/
def evaluate_mcq (student_answer : String) (answer : String) (marks : ℚ) :
    ℚ × String :=
  match mcqSearch student_answer.data with
  | some g =>
    let student_option := String.mk [g.toUpper]
    if student_option = answer then (marks, "Correct answer.")
    else (0, "Incorrect answer. You selected " ++ student_option ++
             ", but the correct answer is " ++ answer ++ ".")
  | none =>
    (0, "Could not identify a clear option selection. The correct answer is "
        ++ answer ++ ".")

/-! ## Subquestion splitting of a student answer (`_parse_subquestions`)

Each line is stripped and matched against `^[(\s]*([a-z])[)\s\.](.*)$`: leading
brackets and whitespace, a lowercase letter, one separator character, and the
rest of the line.  The greedy leading class cannot give characters back to the
letter group because the classes are disjoint. -/

/-- Match of the subquestion-marker pattern on a stripped line: the letter and
the text after the separator. -/
def subMarkerMatch (l : List Char) : Option (Char × List Char) :=
  match l.dropWhile (fun c => c = '(' || isPyWs c) with
  | c1 :: c2 :: rest =>
    if ('a' ≤ c1 && c1 ≤ 'z') && (c2 = ')' || isPyWs c2 || c2 = '.') then
      some (c1, rest)
    else none
  | _ => none

/-- State of the `_parse_subquestions` loop: collected dict, current letter,
current text buffer. -/
structure SubParseState where
  subs : List (String × String)
  current : Option String
  text : List String

/-- One line of the `_parse_subquestions` loop. -/
def parseSubLine (st : SubParseState) (line : String) : SubParseState :=
  match subMarkerMatch (pyStrip line).data with
  | some (c, rest) =>
    let subs :=
      match st.current with
      | some s => if st.text ≠ [] then dictSet st.subs s (pyStrip (joinLines st.text)) else st.subs
      | none => st.subs
    { subs := subs
      current := some (String.mk [c.toLower])
      text := [pyStrip (String.mk rest)] }
  | none =>
    match st.current with
    | some _ => { st with text := st.text ++ [line] }
    | none => st

/-- The `_parse_subquestions` method. -/
def parse_subquestions (answer_text : String) : List (String × String) :=
  let st := (splitNl answer_text).foldl parseSubLine ⟨[], none, []⟩
  match st.current with
  | some s => if st.text ≠ [] then dictSet st.subs s (pyStrip (joinLines st.text)) else st.subs
  | none => st.subs

/-! ## Heuristic scoring (`_estimate_score`) -/

/-- Keywords of one key point: `re.findall(r'\b\w{4,}\b', point)` returns the
maximal word-character runs of length at least 4 (word boundaries force
maximality); the code then filters `len(word) > 3` (already implied) and
applies `strip().lower()` to each. -/
def keywordsOf (point : String) : List String :=
  ((wordRuns point).filter (fun r => 3 < r.length)).map
    (fun r => pyLower (pyStrip (String.mk r)))

/-- Number of keywords of the point found (as Python substring containment) in
the lower-cased student answer. -/
def keywordHits (ansLower : String) (point : String) : ℕ :=
  (keywordsOf point).countP (fun k => strIn k ansLower)

/-- The matched-point test of `_estimate_score` for one key point: the point
has at least one keyword and strictly more than half of its keywords occur in
the lower-cased student answer (`matches / len(keywords) > 0.5`). -/
def pointMatched (ansLower : String) (point : String) : Bool :=
  !(keywordsOf point).isEmpty &&
    (keywordsOf point).length < 2 * keywordHits ansLower point

/-- The accumulation loop of `_estimate_score` over the key points: points with
no keywords are skipped, a matched point increments the counter. -/
def matchedLoop (ansLower : String) : List String → ℕ
  | [] => 0
  | p :: rest =>
    let kws := keywordsOf p
    if kws.isEmpty then matchedLoop ansLower rest
    else if kws.length < 2 * (kws.countP (fun k => strIn k ansLower)) then
      1 + matchedLoop ansLower rest
    else matchedLoop ansLower rest

/-- Key points used by `_estimate_score`: the given `key_points` if non-empty,
else basic points split out of `answer_text` (stripped, lower-cased, non-empty
parts), else none. -/
def derivedKeyPoints (kd : KeyData) : List String :=
  if kd.key_points ≠ [] then kd.key_points
  else
    match kd.answer_text with
    | some t =>
      ((splitKPAux t.data []).map (fun p => pyLower (pyStrip p))).filter
        (fun p => (pyStrip p) ≠ "")
    | none => []

/-- The `_estimate_score` method: heuristic keyword-matching score. -/
def estimate_score (student_answer : String) (kd : KeyData) (max_score : ℚ) :
    ℚ × String :=
  let ansLower := pyLower student_answer
  let key_points := derivedKeyPoints kd
  let matched_points := matchedLoop ansLower key_points
  if key_points.isEmpty then
    (0, "Unable to evaluate answer due to missing reference points.")
  else
    let score := pyRound ((matched_points : ℚ) / (key_points.length : ℚ) * max_score) 1
    let feedback :=
      if matched_points = key_points.length then
        "Answer addresses all key points correctly."
      else if ((key_points.length : ℚ) / 2) < (matched_points : ℚ) then
        "Answer addresses many key points but is missing some important details."
      else
        "Answer is missing several key points or contains inaccuracies."
    (score, feedback)

/-- Result dictionary of `_estimate_score_with_result` and of the entries of a
batch evaluation: keys `score`, `max_score`, `feedback`, `answer_text`. -/
structure BRes where
  score : ℚ
  max_score : ℚ
  feedback : String
  answer_text : String
  deriving DecidableEq

/-- The `_estimate_score_with_result` method. -/
def estimate_score_with_result (student_answer : String) (kd : KeyData)
    (max_score : ℚ) : BRes :=
  let sf := estimate_score student_answer kd max_score
  ⟨sf.1, max_score, sf.2, student_answer⟩

/-! ## Batched descriptive evaluation (`_batch_evaluate_descriptive`)

The call into the grading collaborator and the subsequent
`re.search(r'({.*})', ...)` / `json.loads` steps are library calls; their
outcome is modelled by `BatchResponse`.  A parsed JSON object maps question ids
to entries whose `score` may be missing or not convertible by `float` (modelled
`none`) and whose `feedback` may be missing (modelled `none`); any such defect
raises inside the processing loop and is caught, as in the code, by the
surrounding handlers, which all fall back to individual heuristic scoring. -/

/-- One entry of the parsed JSON object returned by the collaborator. -/
structure RespEntry where
  score : Option ℚ
  feedback : Option String
  deriving DecidableEq

/-- Outcome of the collaborator call and of the JSON extraction steps. -/
inductive BatchResponse where
  | exn
  | noJson
  | badJson
  | parsed (evaluation : List (String × RespEntry))
  deriving DecidableEq

/-- One item submitted for batched evaluation ("descriptive_questions" entry):
`sub_letter = none` for a flat descriptive question, `some s` for a composite
sub-question; `partialFlag` records `sub_letter not in subquestion_answers`. -/
structure DescItem where
  q_num : String
  sub_letter : Option String
  student_answer : String
  answer_key_data : KeyData
  partialFlag : Bool
  deriving DecidableEq

/-- Question id used in the batch prompt and result keys. -/
def DescItem.qid (q : DescItem) : String :=
  match q.sub_letter with
  | some s => q.q_num ++ "_" ++ s
  | none => q.q_num

/-- The `_fallback_individual_evaluation` method. -/
def fallback_individual_evaluation (questions : List DescItem) :
    List (String × BRes) :=
  questions.foldl
    (fun results q =>
      dictSet results q.qid
        (estimate_score_with_result q.student_answer q.answer_key_data
          q.answer_key_data.marks))
    []

/-- Result computed for one item inside the processing loop over a
successfully parsed JSON object: clamp a present score with
`min(float(score), max_score)`, fall back per item when the id is absent; a
missing or non-numeric field raises (`none`), to be caught by the caller. -/
def parsedValue (evaluation : List (String × RespEntry)) (q : DescItem) :
    Option BRes :=
  let max_score := q.answer_key_data.marks
  match dictGet evaluation q.qid with
  | some e =>
    match e.score, e.feedback with
    | some s, some fb =>
      some ⟨min s max_score, max_score, fb, q.student_answer⟩
    | _, _ => none
  | none =>
    some (estimate_score_with_result q.student_answer q.answer_key_data
      max_score)

/-- Processing loop over a successfully parsed JSON object; the first raising
item (`parsedValue` returning `none`) aborts the whole loop. -/
def processParsed (evaluation : List (String × RespEntry))
    (questions : List DescItem) : Option (List (String × BRes)) :=
  questions.foldl
    (fun acc q =>
      match acc, parsedValue evaluation q with
      | some results, some v => some (dictSet results q.qid v)
      | _, _ => none)
    (some [])

/-- The `_batch_evaluate_descriptive` method, given the modelled outcome of the
collaborator call. -/
def batch_evaluate_descriptive (resp : BatchResponse)
    (questions : List DescItem) : List (String × BRes) :=
  if questions.isEmpty then []
  else
    match resp with
    | .exn => fallback_individual_evaluation questions
    | .noJson => fallback_individual_evaluation questions
    | .badJson => fallback_individual_evaluation questions
    | .parsed evaluation =>
      match processParsed evaluation questions with
      | some results => results
      | none => fallback_individual_evaluation questions

/-! ## Top-level evaluation (`evaluate_answers`) -/

/-- One sub-question entry of a composite result. -/
structure SubRes where
  score : ℚ
  max_score : ℚ
  feedback : String
  deriving DecidableEq

/-- One entry of `results["questions"]`.  `feedback = none` models the absence
of the `feedback` key (composite containers); `subquestions = none` models the
absence of the `subquestions` key (all non-composite entries). -/
structure QResult where
  score : ℚ
  max_score : ℚ
  feedback : Option String
  answer_text : String
  subquestions : Option (List (String × SubRes))
  deriving DecidableEq

/-- Full result of `evaluate_answers`. -/
structure EvalResults where
  questions : List (String × QResult)
  total_score : ℚ
  total_possible : ℚ
  percentage : ℚ
  deriving DecidableEq

/-- State after the first pass of `evaluate_answers` over the answer key:
unattempted entries already written, MCQ results and pending descriptive items
collected, MCQ scores already summed into the total. -/
structure Phase1State where
  resultsQ : List (String × QResult)
  mcq : List (String × QResult)
  items : List DescItem
  total : ℚ

/-- One answer-key question of the first pass of `evaluate_answers`. -/
def phase1Step (student_answers : List (String × String)) (st : Phase1State)
    (p : String × QData) : Phase1State :=
  let q_num := p.1
  let q_data := p.2
  match dictGet student_answers q_num with
  | none =>
    { st with resultsQ := (dictSet st.resultsQ q_num
        ⟨0, q_data.maxMarks, some "Question not attempted", "", none⟩) }
  | some student_answer =>
    match q_data with
    | .mcq answer marks =>
      let sf := evaluate_mcq student_answer answer marks
      { st with
          mcq := dictSet st.mcq q_num ⟨sf.1, marks, some sf.2, student_answer, none⟩
          total := st.total + sf.1 }
    | .descriptive kd =>
      { st with items := st.items ++ [⟨q_num, none, student_answer, kd, false⟩] }
    | .composite _ subs =>
      let subquestion_answers := parse_subquestions student_answer
      { st with items := st.items ++ subs.map (fun sp =>
          ⟨q_num, some sp.1,
           (dictGet subquestion_answers sp.1).getD student_answer, sp.2,
           (dictGet subquestion_answers sp.1).isNone⟩) }

/-- Python `"_" in q_num`. -/
def hasUnderscore (s : String) : Bool := s.data.contains '_'

/-- Python `s.split("_")` on a character list, accumulator form. -/
def pySplitUAux : List Char → List Char → List String
  | [], acc => [String.mk acc.reverse]
  | c :: rest, acc =>
    if c = '_' then String.mk acc.reverse :: pySplitUAux rest []
    else pySplitUAux rest (c :: acc)

/-- Python `s.split("_")`. -/
def pySplitUnderscore (s : String) : List String := pySplitUAux s.data []

/-- One batched result entry folded into the result dict, as the loop at the
end of `evaluate_answers`; `none` models an uncaught exception there
(unpacking a split with more than two parts, a missing student answer for a
composite container, or indexing a missing `subquestions` key). -/
def phase2Step (student_answers : List (String × String))
    (acc : Option (List (String × QResult) × ℚ)) (p : String × BRes) :
    Option (List (String × QResult) × ℚ) :=
  match acc with
  | none => none
  | some (resultsQ, total) =>
    let q_num := p.1
    let er := p.2
    if hasUnderscore q_num then
      match pySplitUnderscore q_num with
      | [main_q, sub_letter] =>
        let container :=
          match dictGet resultsQ main_q with
          | some e => some (e, resultsQ)
          | none =>
            match dictGet student_answers main_q with
            | some sa => some (⟨0, 0, none, sa, some []⟩,
                dictSet resultsQ main_q ⟨0, 0, none, sa, some []⟩)
            | none => none
        match container with
        | none => none
        | some (e, resultsQ1) =>
          match e.subquestions with
          | none => none
          | some sl =>
            let e2 : QResult :=
              { e with
                  subquestions := some (dictSet sl sub_letter ⟨er.score, er.max_score, er.feedback⟩)
                  score := e.score + er.score
                  max_score := e.max_score + er.max_score }
            some (dictSet resultsQ1 main_q e2, total + er.score)
      | _ => none
    else
      some (dictSet resultsQ q_num ⟨er.score, er.max_score, some er.feedback, er.answer_text, none⟩,
        total + er.score)

/-- The `evaluate_answers` method, given the modelled outcome of the
collaborator call.  Returns `none` when the Python code would raise. -/
def evaluate_answers (resp : BatchResponse)
    (student_answers : List (String × String)) (answer_key : AnswerKey) :
    Option EvalResults :=
  let st := answer_key.questions.foldl (phase1Step student_answers)
    ⟨[], [], [], 0⟩
  let descriptive_results := batch_evaluate_descriptive resp st.items
  match descriptive_results.foldl (phase2Step student_answers)
      (some (st.resultsQ, st.total)) with
  | none => none
  | some (resultsQ1, total) =>
    let resultsQ2 := st.mcq.foldl (fun acc p => dictSet acc p.1 p.2) resultsQ1
    let percentage :=
      if 0 < answer_key.total_marks then
        pyRound (total / answer_key.total_marks * 100) 2
      else 0
    some ⟨resultsQ2, total, answer_key.total_marks, percentage⟩

/-! ## Answer-key parsing (`_parse_answer_key` of AnswerKeyExtractor)

The three line patterns and the marks pattern are compiled by hand:
- `mcq_pattern   = ^(\d+)\.\s*([A-D])\s*\((.*)\)$` (greedy `.*` reaches the
  final closing bracket, which must end the line),
- `question_pattern = ^(\d+)\.(.*)$`,
- `subquestion_pattern = ^([a-z])\)(.*)|^([a-z]\))(.*)$` (the second
  alternative matches a subset of the first, so only the first fires),
- `marks_pattern = \((\d+)\)$|\((\d+)\s*marks?\)$` (both alternatives are
  anchored at the end of the string, so the search reduces to a suffix test;
  the alternatives are mutually exclusive). -/

/-- Longest digit run at the head of the list, and the remainder. -/
def spanDigits (l : List Char) : List Char × List Char :=
  (l.takeWhile (fun c => '0' ≤ c && c ≤ '9'),
   l.dropWhile (fun c => '0' ≤ c && c ≤ '9'))

/-- Match of `mcq_pattern` on a line: question number, option letter, and the
bracketed explanation (capture group 3, before stripping). -/
def mcqLineMatch (l : List Char) : Option (String × String × String) :=
  let (ds, r1) := spanDigits l
  if ds.isEmpty then none
  else
    match r1 with
    | '.' :: r2 =>
      match r2.dropWhile isPyWs with
      | c :: r4 =>
        if c = 'A' || c = 'B' || c = 'C' || c = 'D' then
          match r4.dropWhile isPyWs with
          | '(' :: r6 =>
            match r6.reverse with
            | ')' :: mid => some (String.mk ds, String.mk [c], String.mk mid.reverse)
            | _ => none
          | _ => none
        else none
      | [] => none
    | _ => none

/-- Match of `question_pattern` on a line: question number and the rest of the
line (capture group 2, before stripping). -/
def questionLineMatch (l : List Char) : Option (String × String) :=
  let (ds, r1) := spanDigits l
  if ds.isEmpty then none
  else
    match r1 with
    | '.' :: r2 => some (String.mk ds, String.mk r2)
    | _ => none

/-- Match of `subquestion_pattern` on a line: the letter and the rest. -/
def subLineMatch (l : List Char) : Option (Char × String) :=
  match l with
  | c1 :: ')' :: rest =>
    if 'a' ≤ c1 && c1 ≤ 'z' then some (c1, String.mk rest) else none
  | _ => none

/-- Match of `marks_pattern` as a suffix test, first alternative then second. -/
def marksSuffix (l : List Char) : Option ℤ :=
  match l.reverse with
  | ')' :: r =>
    let (ds, r2) := spanDigits r
    if !ds.isEmpty && r2.headD ' ' = '(' then some (digitsToInt ds.reverse)
    else
      let afterWord :=
        match r with
        | 's' :: 'k' :: 'r' :: 'a' :: 'm' :: r3 => some r3
        | 'k' :: 'r' :: 'a' :: 'm' :: r3 => some r3
        | _ => none
      match afterWord with
      | some r3 =>
        let r4 := r3.dropWhile isPyWs
        let (ds2, r5) := spanDigits r4
        if !ds2.isEmpty && r5.headD ' ' = '(' then some (digitsToInt ds2.reverse)
        else none
      | none => none
  | _ => none

/-- Marks read from a stripped rest-of-line, defaulting to 1. -/
def marksOf (s : String) : ℤ := (marksSuffix s.data).getD 1

/-- One sub-question entry of the parsed answer key. -/
structure PSub where
  marks : ℤ
  key_points : List String
  full_text : String
  answer_text : Option String
  deriving DecidableEq

/-- One question entry of the parsed answer key.  `answer` is only present for
MCQ entries; `subquestions = none` models the absence of that key. -/
structure PQuestion where
  qtype : String
  answer : Option String
  marks : ℤ
  key_points : List String
  full_text : String
  answer_text : Option String
  subquestions : Option (List (String × PSub))
  deriving DecidableEq

/-- State of the `_parse_answer_key` line loop. -/
structure PState where
  questions : List (String × PQuestion)
  total_questions : ℤ
  total_marks : ℤ
  current_question : Option String
  current_subquestion : Option String
  buffer : List String
  deriving DecidableEq

/-- Update the entry at a key if present (Python mutation of `d[k]`, which
raises on a missing key; that situation is unreachable in the parser loop, so
the model leaves the dict unchanged there). -/
def dictUpdate {α : Type} (l : List (String × α)) (k : String) (f : α → α) :
    List (String × α) :=
  match l with
  | [] => []
  | (k0, v0) :: rest =>
    if k0 = k then (k0, f v0) :: rest else (k0, v0) :: dictUpdate rest k f

/-- Buffer flush performed when a new question line starts or at the end of the
text: write the joined buffer into the answer text of the current subquestion
(when one is active and the entry is composite) or of the current question. -/
def flushBuffer (st : PState) : PState :=
  match st.current_question with
  | none => st
  | some cq =>
    if st.buffer ≠ [] then
      match dictGet st.questions cq with
      | none => st
      | some entry =>
        match st.current_subquestion with
        | some cs =>
          match entry.subquestions with
          | some _ =>
            { st with questions := dictUpdate st.questions cq (fun e =>
                { e with subquestions := (e.subquestions.map (fun sl =>
                    dictUpdate sl cs (fun sub =>
                      { sub with answer_text := some (joinLines st.buffer) }))) }) }
          | none => st
        | none =>
          { st with questions := dictUpdate st.questions cq (fun e =>
              { e with answer_text := some (joinLines st.buffer) }) }
    else st

/-- Variant of the flush used at the very end of the loop (lines 180-184 of the
source): when a subquestion is current but the entry has no `subquestions` key,
the answer text goes to the question itself. -/
def flushFinal (st : PState) : PState :=
  match st.current_question with
  | none => st
  | some cq =>
    if st.buffer ≠ [] then
      match dictGet st.questions cq with
      | none => st
      | some entry =>
        match st.current_subquestion, entry.subquestions with
        | some cs, some _ =>
          { st with questions := dictUpdate st.questions cq (fun e =>
              { e with subquestions := (e.subquestions.map (fun sl =>
                  dictUpdate sl cs (fun sub =>
                    { sub with answer_text := some (joinLines st.buffer) }))) }) }
        | _, _ =>
          { st with questions := dictUpdate st.questions cq (fun e =>
              { e with answer_text := some (joinLines st.buffer) }) }
    else st

/-- One (stripped, non-empty) line of the `_parse_answer_key` loop. -/
def parseLine (st : PState) (line : String) : PState :=
  match mcqLineMatch line.data with
  | some (q_num, answer, explRaw) =>
    let explanation := pyStrip explRaw
    let marks := marksOf explanation
    { questions := (dictSet st.questions q_num
        ⟨"mcq", some answer, marks, [], line, none, none⟩)
      total_questions := st.total_questions + 1
      total_marks := st.total_marks + marks
      current_question := some q_num
      current_subquestion := none
      buffer := [explanation] }
  | none =>
    match questionLineMatch line.data with
    | some (q_num, restRaw) =>
      let st := flushBuffer st
      let rest_of_line := pyStrip restRaw
      let marks := marksOf rest_of_line
      { questions := (dictSet st.questions q_num
          ⟨"descriptive", none, marks, [], line, none, none⟩)
        total_questions := st.total_questions + 1
        total_marks := st.total_marks + marks
        current_question := some q_num
        current_subquestion := none
        buffer := [rest_of_line] }
    | none =>
      match subLineMatch line.data, st.current_question with
      | some (subLetter, restRaw), some cq =>
        let st1 :=
          match st.current_subquestion with
          | some cs =>
            if st.buffer ≠ [] then
              { st with questions := dictUpdate st.questions cq (fun e =>
                  match e.subquestions with
                  | some sl => { e with subquestions := some (dictUpdate sl cs (fun sub =>
                      { sub with answer_text := some (joinLines st.buffer) })) }
                  | none => e) }
            else st
          | none => st
        let rest_of_line := pyStrip restRaw
        let marks := marksOf rest_of_line
        match dictGet st1.questions cq with
        | none => st1
        | some entry =>
          let entry1 :=
            match entry.subquestions with
            | none => { entry with subquestions := some [], qtype := "composite" }
            | some _ => entry
          let subs := entry1.subquestions.getD []
          let entry2 := { entry1 with
            subquestions := some (dictSet subs (String.mk [subLetter])
              ⟨marks, [], line, none⟩) }
          { questions := (dictSet st1.questions cq { entry2 with marks := 0 })
            total_questions := st1.total_questions
            total_marks := st1.total_marks + marks - entry.marks
            current_question := st1.current_question
            current_subquestion := some (String.mk [subLetter])
            buffer := [rest_of_line] }
      | _, _ =>
        match st.current_question with
        | some _ => { st with buffer := st.buffer ++ [line] }
        | none => st

/-- Key points split out of an answer text by `_extract_key_points`:
`[p.strip() for p in re.split(r'[.;](?=\s|$)', answer_text) if p.strip()]`. -/
def extractPoints (t : String) : List String :=
  ((splitKPAux t.data []).map pyStrip).filter (fun p => p ≠ "")

/-- The `_extract_key_points` pass over the parsed structure. -/
def extract_key_points (qs : List (String × PQuestion)) :
    List (String × PQuestion) :=
  qs.map (fun p =>
    let q := p.2
    if q.qtype = "mcq" then p
    else if q.qtype = "descriptive" then
      match q.answer_text with
      | some t => (p.1, { q with key_points := extractPoints t })
      | none => p
    else if q.qtype = "composite" then
      (p.1, { q with subquestions := q.subquestions.map (fun sl =>
        sl.map (fun sp =>
          match sp.2.answer_text with
          | some t => (sp.1, { sp.2 with key_points := extractPoints t })
          | none => sp)) })
    else p)

/-- Parsed answer key: the questions dict and the metadata counters. -/
structure ParsedKey where
  questions : List (String × PQuestion)
  total_questions : ℤ
  total_marks : ℤ
  deriving DecidableEq

/-- Line preparation of `_parse_answer_key`: split on newlines, strip, drop
empty lines. -/
def prepLines (text : String) : List String :=
  ((splitNl text).map pyStrip).filter (fun s => s ≠ "")

/-- The `_parse_answer_key` method. -/
def parse_answer_key (text : String) : ParsedKey :=
  let st := (prepLines text).foldl parseLine ⟨[], 0, 0, none, none, []⟩
  let st := flushFinal st
  ⟨extract_key_points st.questions, st.total_questions, st.total_marks⟩

/-- Leaf-level marks of one parsed question: the sum of sub-question marks for
a composite question, the flat marks otherwise. -/
def PQuestion.leafMarks (q : PQuestion) : ℤ :=
  if q.qtype = "composite" then
    ((q.subquestions.getD []).map (fun sp => sp.2.marks)).sum
  else q.marks

/-- Sum of leaf-level marks over a parsed questions dict. -/
def leafSum (qs : List (String × PQuestion)) : ℤ :=
  (qs.map (fun p => p.2.leafMarks)).sum

/-! ## General lemmas about the dictionary operations -/

theorem dictGet_eq_none {α : Type} {l : List (String × α)} {k : String} :
    dictGet l k = none ↔ k ∉ l.map Prod.fst := by
  induction l with
  | nil => simp [dictGet]
  | cons p rest ih =>
    obtain ⟨k0, v⟩ := p
    by_cases h : k0 = k
    · subst h; simp [dictGet]
    · simp [dictGet, h, ih, Ne.symm h]

theorem dictGet_mem {α : Type} {l : List (String × α)} {k : String} {v : α}
    (h : dictGet l k = some v) : (k, v) ∈ l := by
  induction l with
  | nil => simp [dictGet] at h
  | cons p rest ih =>
    obtain ⟨k0, v0⟩ := p
    by_cases hk : k0 = k
    · subst hk
      simp [dictGet] at h
      simp [h]
    · simp [dictGet, hk] at h
      exact List.mem_cons_of_mem _ (ih h)

theorem dictGet_dictSet_self {α : Type} (l : List (String × α)) (k : String)
    (v : α) : dictGet (dictSet l k v) k = some v := by
  induction l with
  | nil => simp [dictSet, dictGet]
  | cons p rest ih =>
    obtain ⟨k0, v0⟩ := p
    by_cases h : k0 = k
    · subst h; simp [dictSet, dictGet]
    · simp [dictSet, dictGet, h, ih]

theorem dictGet_dictSet_ne {α : Type} (l : List (String × α)) (k k2 : String)
    (v : α) (h : k2 ≠ k) : dictGet (dictSet l k v) k2 = dictGet l k2 := by
  induction l with
  | nil => simp [dictSet, dictGet, Ne.symm h]
  | cons p rest ih =>
    obtain ⟨k0, v0⟩ := p
    by_cases h0 : k0 = k
    · subst h0
      simp [dictSet, dictGet, Ne.symm h]
    · by_cases h2 : k0 = k2 <;> simp [dictSet, dictGet, h0, h2, ih, h]

theorem dictSet_eq_append {α : Type} {l : List (String × α)} {k : String}
    (v : α) (h : k ∉ l.map Prod.fst) : dictSet l k v = l ++ [(k, v)] := by
  induction l with
  | nil => simp [dictSet]
  | cons p rest ih =>
    obtain ⟨k0, v0⟩ := p
    simp only [List.map_cons, List.mem_cons] at h
    push_neg at h
    simp [dictSet, Ne.symm h.1, ih h.2]

theorem mem_dictSet {α : Type} {l : List (String × α)} {k : String} {v : α}
    {x : String × α} (h : x ∈ dictSet l k v) : x ∈ l ∨ x = (k, v) := by
  induction l with
  | nil => simp [dictSet] at h; simp [h]
  | cons p rest ih =>
    obtain ⟨k0, v0⟩ := p
    by_cases h0 : k0 = k
    · subst h0
      simp [dictSet] at h
      rcases h with h | h
      · exact Or.inr (by simp [h])
      · exact Or.inl (List.mem_cons_of_mem _ h)
    · simp [dictSet, h0] at h
      rcases h with h | h
      · exact Or.inl (by simp [h])
      · rcases ih h with h2 | h2
        · exact Or.inl (List.mem_cons_of_mem _ h2)
        · exact Or.inr h2

theorem map_fst_dictSet_mem {α : Type} {l : List (String × α)} {k : String}
    (v : α) (h : k ∈ l.map Prod.fst) :
    (dictSet l k v).map Prod.fst = l.map Prod.fst := by
  induction l with
  | nil => simp at h
  | cons p rest ih =>
    obtain ⟨k0, v0⟩ := p
    by_cases h0 : k0 = k
    · subst h0; simp [dictSet]
    · simp only [List.map_cons, List.mem_cons] at h
      rcases h with h | h
      · exact absurd h.symm h0
      · simp [dictSet, h0, ih h]

theorem sum_map_dictSet_get {α : Type} {M : Type} [AddCommGroup M]
    (g : String × α → M) {l : List (String × α)} {k : String} {v0 : α} (v : α)
    (h : dictGet l k = some v0) :
    ((dictSet l k v).map g).sum = (l.map g).sum - g (k, v0) + g (k, v) := by
  induction l with
  | nil => simp [dictGet] at h
  | cons p rest ih =>
    obtain ⟨k0, w⟩ := p
    by_cases h0 : k0 = k
    · subst h0
      simp [dictGet] at h
      subst h
      simp [dictSet]
      abel
    · simp [dictGet, h0] at h
      simp [dictSet, h0, ih h]
      abel

theorem map_fst_dictUpdate {α : Type} (l : List (String × α)) (k : String)
    (f : α → α) : (dictUpdate l k f).map Prod.fst = l.map Prod.fst := by
  induction l with
  | nil => simp [dictUpdate]
  | cons p rest ih =>
    obtain ⟨k0, v0⟩ := p
    by_cases h : k0 = k <;> simp [dictUpdate, h, ih]

theorem dictGet_dictUpdate_self {α : Type} (l : List (String × α)) (k : String)
    (f : α → α) : dictGet (dictUpdate l k f) k = (dictGet l k).map f := by
  induction l with
  | nil => simp [dictUpdate, dictGet]
  | cons p rest ih =>
    obtain ⟨k0, v0⟩ := p
    by_cases h : k0 = k
    · subst h; simp [dictUpdate, dictGet]
    · simp [dictUpdate, dictGet, h, ih]

theorem dictGet_dictUpdate_ne {α : Type} (l : List (String × α)) (k k2 : String)
    (f : α → α) (h : k2 ≠ k) :
    dictGet (dictUpdate l k f) k2 = dictGet l k2 := by
  induction l with
  | nil => simp [dictUpdate, dictGet]
  | cons p rest ih =>
    obtain ⟨k0, v0⟩ := p
    by_cases h0 : k0 = k
    · subst h0
      simp [dictUpdate, dictGet, Ne.symm h]
    · by_cases h2 : k0 = k2 <;> simp [dictUpdate, dictGet, h0, h2, ih, h]

theorem sum_map_dictUpdate {α : Type} {M : Type} [AddCommGroup M]
    (g : String × α → M) (l : List (String × α)) (k : String) (f : α → α)
    (hf : ∀ k0 v, g (k0, f v) = g (k0, v)) :
    ((dictUpdate l k f).map g).sum = (l.map g).sum := by
  induction l with
  | nil => simp [dictUpdate]
  | cons p rest ih =>
    obtain ⟨k0, v0⟩ := p
    by_cases h : k0 = k
    · subst h; simp [dictUpdate, hf]
    · simp [dictUpdate, h, ih]

theorem mem_dictUpdate {α : Type} {l : List (String × α)} {k : String}
    {f : α → α} {x : String × α} (h : x ∈ dictUpdate l k f) :
    x ∈ l ∨ ∃ v, x = (k, f v) ∧ (k, v) ∈ l := by
  induction l with
  | nil => simp [dictUpdate] at h
  | cons p rest ih =>
    obtain ⟨k0, v0⟩ := p
    by_cases h0 : k0 = k
    · subst h0
      simp [dictUpdate] at h
      rcases h with h | h
      · exact Or.inr ⟨v0, by simp [h]⟩
      · exact Or.inl (List.mem_cons_of_mem _ h)
    · simp [dictUpdate, h0] at h
      rcases h with h | h
      · exact Or.inl (by simp [h])
      · rcases ih h with h2 | h2
        · exact Or.inl (List.mem_cons_of_mem _ h2)
        · obtain ⟨v, hv1, hv2⟩ := h2
          exact Or.inr ⟨v, hv1, List.mem_cons_of_mem _ hv2⟩

/-! ## Lemmas about rounding -/

/-- The integer-division form of `roundHalfEven` agrees with the usual
floor-and-fraction case split. -/
theorem roundHalfEven_eq_cases (q : ℚ) :
    roundHalfEven q =
      if q - (⌊q⌋ : ℚ) < 1/2 then ⌊q⌋
      else if 1/2 < q - (⌊q⌋ : ℚ) then ⌊q⌋ + 1
      else if ⌊q⌋ % 2 = 0 then ⌊q⌋ else ⌊q⌋ + 1 := by
  have hf : q.num / (q.den : ℤ) = ⌊q⌋ := Rat.floor_def.symm
  have hden : (0 : ℚ) < (q.den : ℚ) := by exact_mod_cast q.den_pos
  have hne : ((q.den : ℚ)) ≠ 0 := ne_of_gt hden
  have hnum : (q.num : ℚ) = q * (q.den : ℚ) := by
    have h := Rat.num_div_den q
    rw [div_eq_iff hne] at h
    exact h
  have h1 : 2 * (q.num - ⌊q⌋ * (q.den : ℤ)) < (q.den : ℤ) ↔
      q - (⌊q⌋ : ℚ) < 1/2 := by
    constructor
    · intro h
      have h2 : ((2 * (q.num - ⌊q⌋ * (q.den : ℤ)) : ℤ) : ℚ) < ((q.den : ℤ) : ℚ) := by
        exact_mod_cast h
      push_cast at h2
      nlinarith [hnum]
    · intro h
      have h2 : ((2 * (q.num - ⌊q⌋ * (q.den : ℤ)) : ℤ) : ℚ) < ((q.den : ℤ) : ℚ) := by
        push_cast
        nlinarith [hnum]
      exact_mod_cast h2
  have h2 : (q.den : ℤ) < 2 * (q.num - ⌊q⌋ * (q.den : ℤ)) ↔
      (1 : ℚ)/2 < q - (⌊q⌋ : ℚ) := by
    constructor
    · intro h
      have h3 : (((q.den : ℤ)) : ℚ) < ((2 * (q.num - ⌊q⌋ * (q.den : ℤ)) : ℤ) : ℚ) := by
        exact_mod_cast h
      push_cast at h3
      nlinarith [hnum]
    · intro h
      have h3 : (((q.den : ℤ)) : ℚ) < ((2 * (q.num - ⌊q⌋ * (q.den : ℤ)) : ℤ) : ℚ) := by
        push_cast
        nlinarith [hnum]
      exact_mod_cast h3
  unfold roundHalfEven
  simp only [hf, h1, h2]

theorem roundHalfEven_nonneg {q : ℚ} (h : 0 ≤ q) : 0 ≤ roundHalfEven q := by
  have hf : (0 : ℤ) ≤ ⌊q⌋ := Int.floor_nonneg.mpr h
  rw [roundHalfEven_eq_cases]
  split
  · exact hf
  · split
    · omega
    · split
      · exact hf
      · omega

theorem roundHalfEven_le_ceil (q : ℚ) : roundHalfEven q ≤ ⌈q⌉ := by
  have hfc : ⌊q⌋ ≤ ⌈q⌉ := Int.floor_le_ceil q
  rw [roundHalfEven_eq_cases]
  split
  · exact hfc
  · rename_i h1
    push_neg at h1
    have hlt : (⌊q⌋ : ℚ) < q := by
      have : (0 : ℚ) < 1/2 := by norm_num
      nlinarith [Int.floor_le q]
    have : ⌊q⌋ < ⌈q⌉ := Int.lt_ceil.mpr hlt
    split
    · omega
    · split
      · omega
      · omega

theorem roundHalfEven_intCast (n : ℤ) : roundHalfEven (n : ℚ) = n := by
  rw [roundHalfEven_eq_cases]
  simp only [Int.floor_intCast]
  have : (n : ℚ) - n = 0 := by ring
  rw [this]
  norm_num

theorem pyRound_nonneg {q : ℚ} (n : ℕ) (h : 0 ≤ q) : 0 ≤ pyRound q n := by
  unfold pyRound
  have h1 : 0 ≤ roundHalfEven (q * 10 ^ n) := by
    apply roundHalfEven_nonneg
    positivity
  have h2 : (0 : ℚ) < 10 ^ n := by positivity
  positivity

/-- A rational with denominator 1 is its own numerator. -/
theorem den_one_eq_num {M : ℚ} (hM : M.den = 1) : M = (M.num : ℚ) := by
  have := Rat.num_div_den M
  rw [hM] at this
  simpa using this.symm

theorem pyRound_le_of_le {q M : ℚ} (n : ℕ) (hq : q ≤ M) (hM : M.den = 1) :
    pyRound q n ≤ M := by
  have hMnum : M = (M.num : ℚ) := den_one_eq_num hM
  have hceil : ⌈q * 10 ^ n⌉ ≤ M.num * 10 ^ n := by
    apply Int.ceil_le.mpr
    push_cast
    rw [← hMnum]
    have h2 : (0 : ℚ) < 10 ^ n := by positivity
    nlinarith
  have h1 : roundHalfEven (q * 10 ^ n) ≤ M.num * 10 ^ n :=
    le_trans (roundHalfEven_le_ceil _) hceil
  unfold pyRound
  rw [div_le_iff₀ (by positivity : (0 : ℚ) < 10 ^ n)]
  calc (roundHalfEven (q * 10 ^ n) : ℚ) ≤ ((M.num * 10 ^ n : ℤ) : ℚ) := by
        exact_mod_cast h1
    _ = M * 10 ^ n := by push_cast; rw [← hMnum]

/-- Rounding an integer-valued rational at any number of digits returns it. -/
theorem pyRound_intValue {q : ℚ} {m : ℤ} (n : ℕ) (h : q = (m : ℚ)) :
    pyRound q n = q := by
  subst h
  unfold pyRound
  have hc : ((m : ℚ)) * 10 ^ n = ((m * 10 ^ n : ℤ) : ℚ) := by push_cast; ring
  rw [hc, roundHalfEven_intCast]
  push_cast
  rw [mul_div_assoc]
  have : ((10 : ℚ) ^ n) / 10 ^ n = 1 := by
    apply div_self
    positivity
  rw [this, mul_one]

/-! ## Characterization of the MCQ option search -/

theorem isPreChar_not_option {c : Char} (h : isPreChar c = true) :
    isOptionLetter c = false := by
  have hc : c = '(' ∨ c = ' ' ∨ c = '\t' ∨ c = '\n' ∨ c = '\x0d' ∨
      c = '\x0b' ∨ c = '\x0c' := by
    simp only [isPreChar, isPyWs, Bool.or_eq_true, decide_eq_true_eq] at h
    tauto
  rcases hc with h | h | h | h | h | h | h <;> subst h <;> rfl

/-- The capture group returned by the MCQ search is the first option letter of
the string: the optional leading and trailing classes of the pattern never
change which letter is captured. -/
theorem mcqSearch_eq_find (l : List Char) :
    mcqSearch l = l.find? isOptionLetter := by
  induction l with
  | nil => rfl
  | cons c1 rest ih =>
    cases rest with
    | nil =>
      cases h : isOptionLetter c1 <;>
        simp [mcqSearch, mcqMatchAt, List.find?, h]
    | cons c2 rest2 =>
      by_cases h1 : isPreChar c1 = true
      · have hno : isOptionLetter c1 = false := isPreChar_not_option h1
        cases h2 : isOptionLetter c2
        · rw [List.find?_cons_of_neg _ (by simp [hno])]
          rw [← ih]
          simp [mcqSearch, mcqMatchAt, h1, h2]
        · rw [List.find?_cons_of_neg _ (by simp [hno]),
            List.find?_cons_of_pos _ (by simp [h2])]
          simp [mcqSearch, mcqMatchAt, h1, h2]
      · cases hc1 : isOptionLetter c1
        · rw [List.find?_cons_of_neg _ (by simp [hc1])]
          rw [← ih]
          simp [mcqSearch, mcqMatchAt, h1, hc1]
        · rw [List.find?_cons_of_pos _ (by simp [hc1])]
          simp [mcqSearch, mcqMatchAt, h1, hc1]

/-! ## Claim C10 -/

/-- Claim C10: for every MCQ question, the "no option identified" outcome
occurs exactly when the student text contains no character from A-D or a-d at
all; when such a character occurs, the first one is taken as the selected
option, the optional bracket, whitespace and dot parts of the pattern never
changing the captured letter. -/
theorem C10_mcq_option_extraction (s answer : String) (marks : ℚ) :
    mcqSearch s.data = s.data.find? isOptionLetter ∧
    (s.data.find? isOptionLetter = none →
      evaluate_mcq s answer marks =
        (0, "Could not identify a clear option selection. The correct answer is "
            ++ answer ++ ".")) ∧
    (∀ g, s.data.find? isOptionLetter = some g →
      evaluate_mcq s answer marks =
        (if String.mk [g.toUpper] = answer then marks else 0,
         if String.mk [g.toUpper] = answer then "Correct answer."
         else "Incorrect answer. You selected " ++ String.mk [g.toUpper] ++
              ", but the correct answer is " ++ answer ++ ".")) := by
  refine ⟨mcqSearch_eq_find _, ?_, ?_⟩
  · intro h
    simp [evaluate_mcq, mcqSearch_eq_find, h]
  · intro g h
    simp only [evaluate_mcq, mcqSearch_eq_find, h]
    by_cases hg : String.mk [g.toUpper] = answer <;> simp [hg]

theorem C10_witness :
    mcqSearch ("the cat").data = ("the cat").data.find? isOptionLetter ∧
    evaluate_mcq "the cat" "B" 2 =
      (0, "Incorrect answer. You selected C, but the correct answer is B.") := by
  have h := C10_mcq_option_extraction "the cat" "B" 2
  refine ⟨h.1, ?_⟩
  have h2 := h.2.2 'c' (by decide)
  rw [h2]
  decide

/-! ## Claim C5 -/

/-- Items collected by the first pass are empty when every question of the key
is an MCQ question: MCQ scoring never reaches the batched collaborator call. -/
theorem phase1_items_nil (sa : List (String × String))
    (qs : List (String × QData))
    (hkey : ∀ p ∈ qs, ∃ a m, p.2 = QData.mcq a m) (st0 : Phase1State) :
    (qs.foldl (phase1Step sa) st0).items = st0.items := by
  induction qs generalizing st0 with
  | nil => rfl
  | cons p rest ih =>
    have hp := hkey p (List.mem_cons_self _ _)
    obtain ⟨a, m, hm⟩ := hp
    have hrest : ∀ q ∈ rest, ∃ a m, q.2 = QData.mcq a m :=
      fun q hq => hkey q (List.mem_cons_of_mem _ hq)
    rw [List.foldl_cons, ih hrest]
    obtain ⟨q_num, q_data⟩ := p
    simp only at hm
    subst hm
    cases hsa : dictGet sa q_num <;> simp [phase1Step, hsa]

/-- Claim C5: MCQ questions are scored deterministically and never through the
grading collaborator: the first pattern-matched option letter is uppercased and
compared with the key; a match gives full marks with "Correct answer.", a
mismatch gives 0 naming both options, no match gives 0 with the
could-not-identify feedback, so the score is always 0 or the full marks; and
on an all-MCQ answer key the evaluation result does not depend on the
collaborator response at all. -/
theorem C5_mcq_deterministic (s answer : String) (marks : ℚ)
    (resp1 resp2 : BatchResponse) (sa : List (String × String))
    (key : AnswerKey)
    (hkey : ∀ p ∈ key.questions, ∃ a m, p.2 = QData.mcq a m) :
    ((evaluate_mcq s answer marks).1 = 0 ∨
      (evaluate_mcq s answer marks).1 = marks) ∧
    (∀ g, mcqSearch s.data = some g →
      evaluate_mcq s answer marks =
        (if String.mk [g.toUpper] = answer then marks else 0,
         if String.mk [g.toUpper] = answer then "Correct answer."
         else "Incorrect answer. You selected " ++ String.mk [g.toUpper] ++
              ", but the correct answer is " ++ answer ++ ".")) ∧
    (mcqSearch s.data = none →
      evaluate_mcq s answer marks =
        (0, "Could not identify a clear option selection. The correct answer is "
            ++ answer ++ ".")) ∧
    evaluate_answers resp1 sa key = evaluate_answers resp2 sa key := by
  refine ⟨?_, ?_, ?_, ?_⟩
  · unfold evaluate_mcq
    cases hs : mcqSearch s.data with
    | none => simp
    | some g => by_cases hg : String.mk [g.toUpper] = answer <;> simp [hg]
  · intro g h
    simp only [evaluate_mcq, h]
    by_cases hg : String.mk [g.toUpper] = answer <;> simp [hg]
  · intro h
    simp [evaluate_mcq, h]
  · unfold evaluate_answers
    have hitems : (key.questions.foldl (phase1Step sa) ⟨[], [], [], 0⟩).items = [] :=
      phase1_items_nil sa key.questions hkey _
    have hb : ∀ r : BatchResponse, batch_evaluate_descriptive r [] = [] :=
      fun r => by simp [batch_evaluate_descriptive]
    simp only [hitems, hb]

theorem C5_witness :
    evaluate_mcq "(B) because..." "B" 2 = (2, "Correct answer.") ∧
    evaluate_mcq "C" "B" 2 =
      (0, "Incorrect answer. You selected C, but the correct answer is B.") ∧
    evaluate_answers .exn [("1", "(B) yes")] ⟨[("1", .mcq "B" 7)], 7⟩ =
      evaluate_answers (.parsed []) [("1", "(B) yes")] ⟨[("1", .mcq "B" 7)], 7⟩ := by
  have h1 := C5_mcq_deterministic "(B) because..." "B" 2 .exn (.parsed [])
    [("1", "(B) yes")] ⟨[("1", .mcq "B" 7)], 7⟩
    (by intro p hp; simp at hp; subst hp; exact ⟨"B", 7, rfl⟩)
  have h2 := C5_mcq_deterministic "C" "B" 2 .exn (.parsed [])
    [("1", "(B) yes")] ⟨[("1", .mcq "B" 7)], 7⟩
    (by intro p hp; simp at hp; subst hp; exact ⟨"B", 7, rfl⟩)
  refine ⟨?_, ?_, h1.2.2.2⟩
  · have := h1.2.1 'B' (by decide)
    rw [this]
    decide
  · have := h2.2.1 'C' (by decide)
    rw [this]
    decide

/-! ## Claim C8 -/

/-- Claim C8: the heuristic scorer returns 0 with an explicit
unable-to-evaluate feedback when the derived key-point list is empty (no
division happens), and otherwise scores
`round((matched_points / total_points) * max_score, 1)`. -/
theorem C8_heuristic_formula (ans : String) (kd : KeyData) (max_score : ℚ) :
    (derivedKeyPoints kd = [] →
      estimate_score ans kd max_score =
        (0, "Unable to evaluate answer due to missing reference points.")) ∧
    (derivedKeyPoints kd ≠ [] →
      (estimate_score ans kd max_score).1 =
        pyRound ((matchedLoop (pyLower ans) (derivedKeyPoints kd) : ℚ) /
          ((derivedKeyPoints kd).length : ℚ) * max_score) 1) := by
  constructor
  · intro h
    simp [estimate_score, h]
  · intro h
    have h2 : (derivedKeyPoints kd).isEmpty = false := by
      cases hkp : derivedKeyPoints kd with
      | nil => exact absurd hkp h
      | cons a l => rfl
    simp [estimate_score, h2]

theorem C8_witness :
    estimate_score "anything" ⟨3, [], none⟩ 3 =
      (0, "Unable to evaluate answer due to missing reference points.") ∧
    (estimate_score "water evaporates quickly"
        ⟨4, ["water evaporates", "condensation"], none⟩ 4).1 =
      pyRound ((matchedLoop (pyLower "water evaporates quickly")
          (derivedKeyPoints ⟨4, ["water evaporates", "condensation"], none⟩) : ℚ) /
        ((derivedKeyPoints ⟨4, ["water evaporates", "condensation"], none⟩).length : ℚ)
          * 4) 1 :=
  ⟨(C8_heuristic_formula "anything" ⟨3, [], none⟩ 3).1 (by decide),
   (C8_heuristic_formula "water evaporates quickly"
      ⟨4, ["water evaporates", "condensation"], none⟩ 4).2 (by decide)⟩

/-! ## Claim C2 -/

/-- Alphabetic characters, for the claimed reading of "alphabetic tokens". -/
def isAlphaChar (c : Char) : Bool := ('a' ≤ c && c ≤ 'z') || ('A' ≤ c && c ≤ 'Z')

/-- Maximal alphabetic runs, accumulator form. -/
def alphaRunsAux : List Char → List Char → List (List Char)
  | [], acc => if acc.isEmpty then [] else [acc.reverse]
  | c :: rest, acc =>
    if isAlphaChar c then alphaRunsAux rest (c :: acc)
    else if acc.isEmpty then alphaRunsAux rest []
    else acc.reverse :: alphaRunsAux rest []

/-- Modelled from the claim wording (refinement comparison): the significant
words of a key point read as "the alphabetic tokens of length greater than 3",
lower-cased. -/
def specSignificantWords (point : String) : List String :=
  ((alphaRunsAux point.data []).filter (fun r => 3 < r.length)).map
    (fun r => String.mk (r.map Char.toLower))

/-- Modelled from the claim wording (refinement comparison): the number of
significant words of the point that appear as whole tokens (not mere
substrings of larger words) of the lower-cased student answer. -/
def specWholeTokenHits (ans point : String) : ℕ :=
  (specSignificantWords point).countP
    (fun k => (wordRuns (pyLower ans)).contains k.data)

/-- Claim C2 is false as stated: on the key point "cell wall" and the student
answer "excellently walled" the code scores the point as fully matched (both
keywords occur as substrings of larger words), although none of its
significant words occurs as a whole token; and on "gene2gene" the keyword list
of the code differs from the alphabetic tokens of length greater than 3. -/
theorem C2_counterexample :
    estimate_score "excellently walled" ⟨2, ["cell wall"], none⟩ 2 =
      (2, "Answer addresses all key points correctly.") ∧
    specWholeTokenHits "excellently walled" "cell wall" = 0 ∧
    2 * specWholeTokenHits "excellently walled" "cell wall" ≤
      (specSignificantWords "cell wall").length ∧
    keywordsOf "gene2gene" ≠ specSignificantWords "gene2gene" := by
  refine ⟨?_, by decide, by decide, by decide⟩
  have hkp : derivedKeyPoints ⟨2, ["cell wall"], none⟩ = ["cell wall"] := by
    decide
  have hml : matchedLoop (pyLower "excellently walled") ["cell wall"] = 1 := by
    decide
  simp only [estimate_score, hkp, hml]
  norm_num
  exact pyRound_intValue (m := 2) 1 (by norm_num)

theorem isPyWs_not_word {c : Char} (h : isPyWs c = true) :
    isWordChar c = false := by
  have hc : c = ' ' ∨ c = '\t' ∨ c = '\n' ∨ c = '\x0d' ∨ c = '\x0b' ∨
      c = '\x0c' := by
    simp only [isPyWs, Bool.or_eq_true, decide_eq_true_eq] at h
    tauto
  rcases hc with h | h | h | h | h | h <;> subst h <;> rfl

theorem wordRunsAux_mem_word {l acc r : List Char}
    (hacc : ∀ c ∈ acc, isWordChar c = true) (hr : r ∈ wordRunsAux l acc) :
    ∀ c ∈ r, isWordChar c = true := by
  induction l generalizing acc with
  | nil =>
    by_cases h : acc.isEmpty
    · simp [wordRunsAux, h] at hr
    · simp only [wordRunsAux, h, Bool.false_eq_true, if_false,
        List.mem_singleton] at hr
      subst hr
      intro c hc
      exact hacc c (List.mem_reverse.mp hc)
  | cons c0 rest ih =>
    by_cases hw : isWordChar c0 = true
    · simp only [wordRunsAux, hw, if_true] at hr
      refine ih ?_ hr
      intro c hc
      rcases List.mem_cons.mp hc with h | h
      · subst h; exact hw
      · exact hacc c h
    · simp only [wordRunsAux, hw, Bool.false_eq_true, if_false] at hr
      by_cases he : acc.isEmpty
      · simp only [he, if_true] at hr
        exact ih (by simp) hr
      · simp only [he, Bool.false_eq_true, if_false, List.mem_cons] at hr
        rcases hr with h | h
        · subst h
          intro c hc
          exact hacc c (List.mem_reverse.mp hc)
        · exact ih (by simp) h

theorem dropWhile_ws_of_word {r : List Char}
    (h : ∀ c ∈ r, isWordChar c = true) : List.dropWhile isPyWs r = r := by
  cases r with
  | nil => rfl
  | cons c rest =>
    have hc : isWordChar c = true := h c (List.mem_cons_self _ _)
    have : isPyWs c = false := by
      cases hp : isPyWs c
      · rfl
      · rw [isPyWs_not_word hp] at hc; exact absurd hc (by simp)
    simp [List.dropWhile_cons, this]

theorem pyStrip_of_word {r : List Char} (h : ∀ c ∈ r, isWordChar c = true) :
    pyStrip (String.mk r) = String.mk r := by
  unfold pyStrip pyStripL
  simp only [dropWhile_ws_of_word h]
  rw [dropWhile_ws_of_word (fun c hc => h c (List.mem_reverse.mp hc))]
  simp

/-- Claim C2, amended: the significant words of a key point are the maximal
word-character runs (letters, digits, underscore) of length greater than 3,
lower-cased; and a key point counts as matched exactly when it has at least
one significant word and strictly more than half of them occur as substrings
(not necessarily whole tokens) of the lower-cased student answer. -/
theorem C2_amended (point ans : String) (kps : List String) :
    keywordsOf point = ((wordRuns point).filter (fun r => 3 < r.length)).map
        (fun r => String.mk (r.map Char.toLower)) ∧
    matchedLoop ans kps = kps.countP (fun p => pointMatched ans p) ∧
    (pointMatched ans point = true ↔ keywordsOf point ≠ [] ∧
      (keywordsOf point).length <
        2 * (keywordsOf point).countP (fun k => strIn k ans)) := by
  refine ⟨?_, ?_, ?_⟩
  · unfold keywordsOf
    apply List.map_congr_left
    intro r hr
    have hrw : ∀ c ∈ r, isWordChar c = true :=
      wordRunsAux_mem_word (by simp) (List.mem_of_mem_filter hr)
    rw [pyStrip_of_word hrw]
    rfl
  · induction kps with
    | nil => rfl
    | cons p rest ih =>
      by_cases he : (keywordsOf p).isEmpty
      · have hpm : pointMatched ans p = false := by
          simp [pointMatched, he]
        simp [matchedLoop, he, List.countP_cons, hpm, ih]
      · by_cases hlt : (keywordsOf p).length <
            2 * ((keywordsOf p).countP (fun k => strIn k ans))
        · have hpm : pointMatched ans p = true := by
            simp [pointMatched, he, keywordHits, hlt]
          simp only [matchedLoop, he, Bool.false_eq_true, if_false, hlt,
            if_true, List.countP_cons, hpm]
          omega
        · have hpm : pointMatched ans p = false := by
            simp [pointMatched, keywordHits, hlt]
          simp only [matchedLoop, he, Bool.false_eq_true, if_false, hlt,
            if_false, List.countP_cons, hpm]
          simp [ih]
  · simp [pointMatched, keywordHits]

/-! ## Claim C6 -/

/-- Claim C6: the summary percentage is `round(total_score / total_possible *
100, 2)` when `total_possible` is positive and 0 when it is 0 (no division by
zero); 7 out of 10 gives 70.0; and `total_possible` always equals the answer
key total marks, whatever the submission and the collaborator response. -/
theorem C6_percentage (resp : BatchResponse) (sa : List (String × String))
    (key : AnswerKey) (r : EvalResults)
    (h : evaluate_answers resp sa key = some r) :
    r.total_possible = key.total_marks ∧
    (0 < r.total_possible →
      r.percentage = pyRound (r.total_score / r.total_possible * 100) 2) ∧
    (r.total_possible = 0 → r.percentage = 0) ∧
    pyRound ((7 : ℚ) / 10 * 100) 2 = 70 := by
  simp only [evaluate_answers] at h
  split at h
  · exact absurd h (by simp)
  · rename_i resultsQ1 total heq
    obtain rfl := Option.some_inj.mp h
    refine ⟨rfl, ?_, ?_, ?_⟩
    · intro hp
      simp only at hp ⊢
      rw [if_pos hp]
    · intro hp
      simp only at hp ⊢
      rw [if_neg]
      rw [hp]
      exact lt_irrefl 0
    · have h7 : ((7 : ℚ)/10*100) = ((70 : ℤ) : ℚ) := by norm_num
      rw [h7, pyRound_intValue 2 rfl]
      norm_num

theorem C6_witness :
    evaluate_answers .exn [("1", "(B) yes")]
        ⟨[("1", .mcq "B" 7), ("2", .descriptive ⟨3, ["some point here"], none⟩)],
          10⟩ =
      some ⟨[("2", ⟨0, 3, some "Question not attempted", "", none⟩),
             ("1", ⟨7, 7, some "Correct answer.", "(B) yes", none⟩)], 7, 10, 70⟩ ∧
    (70 : ℚ) = pyRound (7 / 10 * 100) 2 := by
  have hm : mcqSearch ("(B) yes").data = some 'B' := by decide
  have hB : String.mk ['B'.toUpper] = "B" := by decide
  have h7 : ((7 : ℚ)/10*100) = ((70 : ℤ) : ℚ) := by norm_num
  have hev : evaluate_answers .exn [("1", "(B) yes")]
      ⟨[("1", .mcq "B" 7), ("2", .descriptive ⟨3, ["some point here"], none⟩)],
        10⟩ =
      some ⟨[("2", ⟨0, 3, some "Question not attempted", "", none⟩),
             ("1", ⟨7, 7, some "Correct answer.", "(B) yes", none⟩)], 7, 10, 70⟩ := by
    simp +decide [evaluate_answers, phase1Step, dictGet, dictSet, evaluate_mcq,
      hm, hB, QData.maxMarks, batch_evaluate_descriptive, phase2Step]
    rw [h7, pyRound_intValue 2 rfl]
    norm_num
  have h := C6_percentage .exn [("1", "(B) yes")]
    ⟨[("1", .mcq "B" 7), ("2", .descriptive ⟨3, ["some point here"], none⟩)], 10⟩
    _ hev
  have hp := h.2.1 (by norm_num)
  exact ⟨hev, by simpa using hp⟩

/-! ## Lemmas about the batched evaluation folds -/

theorem foldl_dictSet_eq_append {β : Type} (f : DescItem → β)
    (qs : List DescItem) (init : List (String × β))
    (hfresh : ∀ q ∈ qs, q.qid ∉ init.map Prod.fst)
    (hnd : (qs.map DescItem.qid).Nodup) :
    qs.foldl (fun r q => dictSet r q.qid (f q)) init =
      init ++ qs.map (fun q => (q.qid, f q)) := by
  induction qs generalizing init with
  | nil => simp
  | cons q rest ih =>
    simp only [List.foldl_cons, List.map_cons]
    rw [dictSet_eq_append _ (hfresh q (List.mem_cons_self _ _))]
    simp only [List.map_cons, List.nodup_cons] at hnd
    rw [ih]
    · simp
    · intro q2 hq2
      simp only [List.map_append, List.map_cons, List.map_nil,
        List.mem_append, List.mem_singleton]
      push_neg
      refine ⟨hfresh q2 (List.mem_cons_of_mem _ hq2), ?_⟩
      intro hc
      exact hnd.1 (hc ▸ List.mem_map_of_mem DescItem.qid hq2)
    · exact hnd.2

/-- An aborted processing loop stays aborted. -/
theorem processParsed_none_foldl (ev : List (String × RespEntry))
    (qs : List DescItem) :
    qs.foldl (fun acc q =>
      match acc, parsedValue ev q with
      | some results, some v => some (dictSet results q.qid v)
      | _, _ => none) (none : Option (List (String × BRes))) = none := by
  induction qs with
  | nil => rfl
  | cons q rest ih =>
    simp only [List.foldl_cons]
    cases parsedValue ev q <;> exact ih

/-- Characterization of a successful processing loop: one entry per item, keys
in item order, each item looked up at its own computed value, and earlier
entries of the accumulator left untouched. -/
theorem processParsed_some_aux (ev : List (String × RespEntry))
    (qs : List DescItem) (init : List (String × BRes))
    (res : List (String × BRes))
    (hfresh : ∀ q ∈ qs, q.qid ∉ init.map Prod.fst)
    (hnd : (qs.map DescItem.qid).Nodup)
    (h : qs.foldl (fun acc q =>
      match acc, parsedValue ev q with
      | some results, some v => some (dictSet results q.qid v)
      | _, _ => none) (some init) = some res) :
    res.map Prod.fst = init.map Prod.fst ++ qs.map DescItem.qid ∧
    (∀ q ∈ qs, ∀ v, parsedValue ev q = some v →
      dictGet res q.qid = some v) ∧
    (∀ k, k ∈ init.map Prod.fst → dictGet res k = dictGet init k) := by
  induction qs generalizing init with
  | nil =>
    simp only [List.foldl_nil, Option.some_inj] at h
    subst h
    simp
  | cons q rest ih =>
    simp only [List.foldl_cons] at h
    cases hv : parsedValue ev q with
    | none =>
      rw [hv] at h
      rw [processParsed_none_foldl] at h
      exact absurd h (by simp)
    | some v0 =>
      rw [hv] at h
      simp only [List.map_cons, List.nodup_cons] at hnd
      have hfq : q.qid ∉ init.map Prod.fst := hfresh q (List.mem_cons_self _ _)
      have hfresh2 : ∀ q2 ∈ rest, q2.qid ∉ (dictSet init q.qid v0).map Prod.fst := by
        intro q2 hq2
        rw [dictSet_eq_append _ hfq]
        simp only [List.map_append, List.map_cons, List.map_nil,
          List.mem_append, List.mem_singleton]
        push_neg
        refine ⟨hfresh q2 (List.mem_cons_of_mem _ hq2), ?_⟩
        intro hc
        exact hnd.1 (hc ▸ List.mem_map_of_mem DescItem.qid hq2)
      obtain ⟨ha, hb, hc⟩ := ih (dictSet init q.qid v0) hfresh2 hnd.2 h
      refine ⟨?_, ?_, ?_⟩
      · rw [ha, dictSet_eq_append _ hfq]
        simp
      · intro q2 hq2 v hv2
        rcases List.mem_cons.mp hq2 with h2 | h2
        · subst h2
          rw [hv] at hv2
          have hvv : v0 = v := Option.some_inj.mp hv2
          subst hvv
          have hkm : q2.qid ∈ (dictSet init q2.qid v0).map Prod.fst := by
            rw [dictSet_eq_append _ hfq]
            simp
          rw [hc q2.qid hkm, dictGet_dictSet_self]
        · exact hb q2 h2 v hv2
      · intro k hk
        have hkset : k ∈ (dictSet init q.qid v0).map Prod.fst := by
          rw [dictSet_eq_append _ hfq]
          simp [hk]
        have hne : k ≠ q.qid := by
          intro hkk
          exact hfq (hkk ▸ hk)
        rw [hc k hkset, dictGet_dictSet_ne _ _ _ _ hne]

theorem dictGet_map_qid {β : Type} (f : DescItem → β) (qs : List DescItem)
    (hnd : (qs.map DescItem.qid).Nodup) {q : DescItem} (hq : q ∈ qs) :
    dictGet (qs.map (fun q2 => (q2.qid, f q2))) q.qid = some (f q) := by
  induction qs with
  | nil => simp at hq
  | cons q0 rest ih =>
    simp only [List.map_cons, List.nodup_cons] at hnd
    rcases List.mem_cons.mp hq with h | h
    · subst h
      simp [dictGet]
    · have hne : q0.qid ≠ q.qid := by
        intro hc
        exact hnd.1 (hc ▸ List.mem_map_of_mem DescItem.qid h)
      simp only [List.map_cons, dictGet, hne, if_false]
      exact ih hnd.2 h

/-! ## Claim C3 -/

/-- Claim C3: over a non-empty batch, a raising collaborator call, a missing
brace-delimited object, an unparseable object, and an object whose entries
lack the expected fields all lead to every submitted item being scored by the
heuristic fallback; if the object parses but an item id is absent from it,
that item alone is heuristic-scored; and for every response every submitted
item receives exactly one result (keys of the result dict are exactly the item
ids, in order), so no failure propagates to the caller. -/
theorem C3_batch_error_handling (qs : List DescItem) (hne : qs ≠ [])
    (hnd : (qs.map DescItem.qid).Nodup) :
    (batch_evaluate_descriptive .exn qs = fallback_individual_evaluation qs ∧
     batch_evaluate_descriptive .noJson qs = fallback_individual_evaluation qs ∧
     batch_evaluate_descriptive .badJson qs = fallback_individual_evaluation qs) ∧
    (∀ ev, processParsed ev qs = none →
      batch_evaluate_descriptive (.parsed ev) qs =
        fallback_individual_evaluation qs) ∧
    (fallback_individual_evaluation qs).map Prod.fst = qs.map DescItem.qid ∧
    (∀ q ∈ qs, dictGet (fallback_individual_evaluation qs) q.qid =
      some (estimate_score_with_result q.student_answer q.answer_key_data
        q.answer_key_data.marks)) ∧
    (∀ ev res, processParsed ev qs = some res →
      res.map Prod.fst = qs.map DescItem.qid ∧
      (∀ q ∈ qs, dictGet ev q.qid = none →
        dictGet res q.qid = some (estimate_score_with_result q.student_answer
          q.answer_key_data q.answer_key_data.marks))) ∧
    (∀ resp, (batch_evaluate_descriptive resp qs).map Prod.fst =
      qs.map DescItem.qid) := by
  have hq : qs.isEmpty = false := by
    cases qs with
    | nil => exact absurd rfl hne
    | cons a l => rfl
  have hfb : fallback_individual_evaluation qs =
      qs.map (fun q => (q.qid, estimate_score_with_result q.student_answer
        q.answer_key_data q.answer_key_data.marks)) := by
    unfold fallback_individual_evaluation
    rw [foldl_dictSet_eq_append _ qs [] (by simp) hnd]
    simp
  have hfbkeys : (fallback_individual_evaluation qs).map Prod.fst =
      qs.map DescItem.qid := by
    rw [hfb]
    simp
  have hparsed : ∀ ev res, processParsed ev qs = some res →
      res.map Prod.fst = qs.map DescItem.qid ∧
      (∀ q ∈ qs, dictGet ev q.qid = none →
        dictGet res q.qid = some (estimate_score_with_result q.student_answer
          q.answer_key_data q.answer_key_data.marks)) := by
    intro ev res h
    obtain ⟨ha, hb, _⟩ := processParsed_some_aux ev qs [] res (by simp) hnd h
    refine ⟨by simpa using ha, ?_⟩
    intro q hqm habs
    apply hb q hqm
    unfold parsedValue
    rw [habs]
  refine ⟨⟨?_, ?_, ?_⟩, ?_, hfbkeys, ?_, hparsed, ?_⟩
  · simp [batch_evaluate_descriptive, hq]
  · simp [batch_evaluate_descriptive, hq]
  · simp [batch_evaluate_descriptive, hq]
  · intro ev h
    simp [batch_evaluate_descriptive, hq, h]
  · intro q hqm
    rw [hfb]
    exact dictGet_map_qid _ qs hnd hqm
  · intro resp
    cases resp with
    | exn => simp [batch_evaluate_descriptive, hq, hfbkeys]
    | noJson => simp [batch_evaluate_descriptive, hq, hfbkeys]
    | badJson => simp [batch_evaluate_descriptive, hq, hfbkeys]
    | parsed ev =>
      simp only [batch_evaluate_descriptive, hq, Bool.false_eq_true, if_false]
      cases hp : processParsed ev qs with
      | none => simpa using hfbkeys
      | some res => exact (hparsed ev res hp).1

theorem C3_witness :
    batch_evaluate_descriptive .exn
        [⟨"1", none, "an answer", ⟨2, ["a point"], none⟩, false⟩] =
      fallback_individual_evaluation
        [⟨"1", none, "an answer", ⟨2, ["a point"], none⟩, false⟩] ∧
    (batch_evaluate_descriptive (.parsed [])
        [⟨"1", none, "an answer", ⟨2, ["a point"], none⟩, false⟩]).map Prod.fst =
      ["1"] := by
  have h := C3_batch_error_handling
    [⟨"1", none, "an answer", ⟨2, ["a point"], none⟩, false⟩]
    (by simp) (by simp)
  refine ⟨h.1.1, ?_⟩
  have h2 := h.2.2.2.2.2 (.parsed [])
  rw [h2]
  decide

/-! ## Characterization of the first pass of evaluate_answers -/

/-- Not-attempted result entries contributed by one answer-key question. -/
def unattOf (sa : List (String × String)) (p : String × QData) :
    List (String × QResult) :=
  match dictGet sa p.1 with
  | none => [(p.1, ⟨0, p.2.maxMarks, some "Question not attempted", "", none⟩)]
  | some _ => []

/-- MCQ result entries contributed by one answer-key question. -/
def mcqOf (sa : List (String × String)) (p : String × QData) :
    List (String × QResult) :=
  match dictGet sa p.1, p.2 with
  | some ans, .mcq answer marks =>
    [(p.1, ⟨(evaluate_mcq ans answer marks).1, marks,
      some (evaluate_mcq ans answer marks).2, ans, none⟩)]
  | _, _ => []

/-- Batch items contributed by one answer-key question. -/
def itemsOf (sa : List (String × String)) (p : String × QData) :
    List DescItem :=
  match dictGet sa p.1, p.2 with
  | some ans, .descriptive kd => [⟨p.1, none, ans, kd, false⟩]
  | some ans, .composite _ subs =>
    subs.map (fun sp => ⟨p.1, some sp.1,
      (dictGet (parse_subquestions ans) sp.1).getD ans, sp.2,
      (dictGet (parse_subquestions ans) sp.1).isNone⟩)
  | _, _ => []

/-- The first pass of `evaluate_answers` over a key with distinct question
numbers: unattempted entries, MCQ entries and batch items are exactly the
per-question contributions in order, and the running total is the sum of the
MCQ scores. -/
theorem phase1_characterization (sa : List (String × String))
    (qs : List (String × QData)) (st0 : Phase1State)
    (hfresh : ∀ p ∈ qs, p.1 ∉ st0.resultsQ.map Prod.fst ∧
      p.1 ∉ st0.mcq.map Prod.fst)
    (hnd : (qs.map Prod.fst).Nodup) :
    qs.foldl (phase1Step sa) st0 =
      ⟨st0.resultsQ ++ qs.flatMap (unattOf sa),
       st0.mcq ++ qs.flatMap (mcqOf sa),
       st0.items ++ qs.flatMap (itemsOf sa),
       st0.total + ((qs.flatMap (mcqOf sa)).map (fun p => p.2.score)).sum⟩ := by
  induction qs generalizing st0 with
  | nil =>
    simp only [List.foldl_nil, List.flatMap_nil, List.append_nil,
      List.map_nil, List.sum_nil, add_zero]
  | cons p rest ih =>
    obtain ⟨q_num, q_data⟩ := p
    simp only [List.map_cons, List.nodup_cons] at hnd
    have hf := hfresh (q_num, q_data) (List.mem_cons_self _ _)
    have hfr : ∀ p2 ∈ rest, p2.1 ∉ st0.resultsQ.map Prod.fst ∧
        p2.1 ∉ st0.mcq.map Prod.fst :=
      fun p2 hp2 => hfresh p2 (List.mem_cons_of_mem _ hp2)
    have hner : ∀ p2 ∈ rest, p2.1 ≠ q_num := by
      intro p2 hp2 hc
      exact hnd.1 (hc ▸ List.mem_map_of_mem Prod.fst hp2)
    simp only [List.foldl_cons, List.flatMap_cons]
    cases hsa : dictGet sa q_num with
    | none =>
      have hstep : phase1Step sa st0 (q_num, q_data) =
          { st0 with resultsQ := st0.resultsQ ++
              [(q_num, ⟨0, q_data.maxMarks, some "Question not attempted", "",
                none⟩)] } := by
        simp only [phase1Step, hsa]
        rw [dictSet_eq_append _ hf.1]
      rw [hstep, ih]
      · simp only [unattOf, hsa, mcqOf, itemsOf]
        simp [List.append_assoc]
      · intro p2 hp2
        simp only [List.map_append, List.map_cons, List.map_nil,
          List.mem_append, List.mem_singleton]
        constructor
        · push_neg
          exact ⟨(hfr p2 hp2).1, hner p2 hp2⟩
        · exact (hfr p2 hp2).2
      · exact hnd.2
    | some ans =>
      cases q_data with
      | mcq answer marks =>
        have hstep : phase1Step sa st0 (q_num, .mcq answer marks) =
            { st0 with
                mcq := st0.mcq ++ [(q_num,
                  ⟨(evaluate_mcq ans answer marks).1, marks,
                   some (evaluate_mcq ans answer marks).2, ans, none⟩)]
                total := st0.total + (evaluate_mcq ans answer marks).1 } := by
          simp only [phase1Step, hsa]
          rw [dictSet_eq_append _ hf.2]
        rw [hstep, ih]
        · simp only [unattOf, hsa, mcqOf, itemsOf]
          simp [List.append_assoc, add_assoc]
        · intro p2 hp2
          simp only [List.map_append, List.map_cons, List.map_nil,
            List.mem_append, List.mem_singleton]
          constructor
          · exact (hfr p2 hp2).1
          · push_neg
            exact ⟨(hfr p2 hp2).2, hner p2 hp2⟩
        · exact hnd.2
      | descriptive kd =>
        have hstep : phase1Step sa st0 (q_num, .descriptive kd) =
            { st0 with items := st0.items ++ [⟨q_num, none, ans, kd, false⟩] } := by
          simp only [phase1Step, hsa]
        rw [hstep, ih]
        · simp only [unattOf, hsa, mcqOf, itemsOf]
          simp [List.append_assoc]
        · exact hfr
        · exact hnd.2
      | composite marks subs =>
        have hstep : phase1Step sa st0 (q_num, .composite marks subs) =
            { st0 with items := st0.items ++ subs.map (fun sp =>
                ⟨q_num, some sp.1,
                 (dictGet (parse_subquestions ans) sp.1).getD ans, sp.2,
                 (dictGet (parse_subquestions ans) sp.1).isNone⟩) } := by
          simp only [phase1Step, hsa]
        rw [hstep, ih]
        · simp only [unattOf, hsa, mcqOf, itemsOf]
          simp [List.append_assoc]
        · exact hfr
        · exact hnd.2

/-! ## Lemmas for tracing entries through the second pass -/

theorem dictGet_append {α : Type} (a b : List (String × α)) (k : String) :
    dictGet (a ++ b) k =
      match dictGet a k with
      | some v => some v
      | none => dictGet b k := by
  induction a with
  | nil => simp [dictGet]
  | cons p rest ih =>
    obtain ⟨k0, v0⟩ := p
    by_cases h : k0 = k <;> simp [dictGet, h, ih]

/-- Looking up a question number in a per-question flat-mapped dict, when each
question contributes entries keyed only by its own number. -/
theorem dictGet_flatMap_perQ {γ : Type} (F : String × QData → List (String × γ))
    (hF : ∀ p x, x ∈ F p → x.1 = p.1)
    (qs : List (String × QData)) (hnd : (qs.map Prod.fst).Nodup)
    {q_num : String} {qd : QData} (hq : dictGet qs q_num = some qd) :
    dictGet (qs.flatMap F) q_num = dictGet (F (q_num, qd)) q_num := by
  induction qs with
  | nil => simp [dictGet] at hq
  | cons p rest ih =>
    obtain ⟨k0, v0⟩ := p
    simp only [List.map_cons, List.nodup_cons] at hnd
    simp only [List.flatMap_cons]
    rw [dictGet_append]
    by_cases h : k0 = q_num
    · subst h
      simp only [dictGet, if_pos rfl] at hq
      obtain rfl := Option.some_inj.mp hq
      have hrest : dictGet (rest.flatMap F) k0 = none := by
        rw [dictGet_eq_none]
        intro hc
        rcases List.mem_map.mp hc with ⟨x, hx1, hx2⟩
        rcases List.mem_flatMap.mp hx1 with ⟨p2, hp2, hxin⟩
        have hx3 : x.1 = p2.1 := hF p2 x hxin
        apply hnd.1
        rw [← hx2, hx3]
        exact List.mem_map_of_mem Prod.fst hp2
      cases hFv : dictGet (F (k0, v0)) k0 with
      | some v => simp [hFv]
      | none => simp [hFv, hrest]
    · have hF0 : dictGet (F (k0, v0)) q_num = none := by
        rw [dictGet_eq_none]
        intro hc
        rcases List.mem_map.mp hc with ⟨x, hx1, hx2⟩
        have hx3 : x.1 = k0 := hF (k0, v0) x hx1
        apply h
        rw [← hx3, hx2]
      simp only [dictGet, h, if_false] at hq
      rw [hF0]
      exact ih hnd.2 hq

/-- Keys produced by the fallback fold come from the submitted items. -/
theorem fallback_keys_from_items (qs : List DescItem) :
    ∀ x ∈ fallback_individual_evaluation qs, ∃ q ∈ qs, x.1 = q.qid := by
  unfold fallback_individual_evaluation
  suffices h : ∀ (qs2 : List DescItem) (init : List (String × BRes)),
      (∀ q ∈ qs2, q ∈ qs) → (∀ x ∈ init, ∃ q ∈ qs, x.1 = q.qid) →
      ∀ x ∈ qs2.foldl (fun results q => dictSet results q.qid
        (estimate_score_with_result q.student_answer q.answer_key_data
          q.answer_key_data.marks)) init, ∃ q ∈ qs, x.1 = q.qid by
    exact h qs [] (fun q hq => hq) (by simp)
  intro qs2
  induction qs2 with
  | nil => intro init _ hinit x hx; exact hinit x hx
  | cons q rest ih =>
    intro init hsub hinit x hx
    simp only [List.foldl_cons] at hx
    refine ih _ (fun q2 hq2 => hsub q2 (List.mem_cons_of_mem _ hq2)) ?_ x hx
    intro y hy
    rcases mem_dictSet hy with h2 | h2
    · exact hinit y h2
    · exact ⟨q, hsub q (List.mem_cons_self _ _), by rw [h2]⟩

/-- Keys produced by a successful parsed-processing fold come from the
submitted items. -/
theorem processParsed_keys_from_items (ev : List (String × RespEntry))
    (qs : List DescItem) (res : List (String × BRes))
    (h : processParsed ev qs = some res) :
    ∀ x ∈ res, ∃ q ∈ qs, x.1 = q.qid := by
  unfold processParsed at h
  suffices hgen : ∀ (qs2 : List DescItem) (init : List (String × BRes)),
      (∀ q ∈ qs2, q ∈ qs) → (∀ x ∈ init, ∃ q ∈ qs, x.1 = q.qid) →
      qs2.foldl (fun acc q =>
        match acc, parsedValue ev q with
        | some results, some v => some (dictSet results q.qid v)
        | _, _ => none) (some init) = some res →
      ∀ x ∈ res, ∃ q ∈ qs, x.1 = q.qid by
    exact hgen qs [] (fun q hq => hq) (by simp) h
  intro qs2
  induction qs2 with
  | nil =>
    intro init _ hinit h2 x hx
    simp only [List.foldl_nil, Option.some_inj] at h2
    subst h2
    exact hinit x hx
  | cons q rest ih =>
    intro init hsub hinit h2 x hx
    simp only [List.foldl_cons] at h2
    cases hv : parsedValue ev q with
    | none =>
      rw [hv] at h2
      rw [processParsed_none_foldl] at h2
      exact absurd h2 (by simp)
    | some v0 =>
      rw [hv] at h2
      refine ih _ (fun q2 hq2 => hsub q2 (List.mem_cons_of_mem _ hq2)) ?_ h2 x hx
      intro y hy
      rcases mem_dictSet hy with h3 | h3
      · exact hinit y h3
      · exact ⟨q, hsub q (List.mem_cons_self _ _), by rw [h3]⟩

/-- Keys of any batch result come from the submitted items. -/
theorem batch_keys_from_items (resp : BatchResponse) (qs : List DescItem) :
    ∀ x ∈ batch_evaluate_descriptive resp qs, ∃ q ∈ qs, x.1 = q.qid := by
  unfold batch_evaluate_descriptive
  by_cases hq : qs.isEmpty
  · simp [hq]
  · simp only [hq, Bool.false_eq_true, if_false]
    cases resp with
    | exn => exact fallback_keys_from_items qs
    | noJson => exact fallback_keys_from_items qs
    | badJson => exact fallback_keys_from_items qs
    | parsed ev =>
      cases hp : processParsed ev qs with
      | none =>
        simp only [hp]
        exact fallback_keys_from_items qs
      | some res =>
        simp only [hp]
        exact processParsed_keys_from_items ev qs res hp

/-- A composite sub-question id contains an underscore. -/
theorem hasUnderscore_encode (a b : String) :
    hasUnderscore (a ++ "_" ++ b) = true := by
  unfold hasUnderscore
  have hdata : (a ++ "_" ++ b).data = a.data ++ '_' :: b.data := by
    simp [String.data_append]
  rw [hdata]
  simp

/-- Every batch item of the first pass concerns an attempted question, and an
item id without an underscore is the question number of an attempted flat
descriptive question. -/
theorem itemsOf_flat_attempted (sa : List (String × String))
    (qs : List (String × QData)) (it : DescItem)
    (hit : it ∈ qs.flatMap (itemsOf sa))
    (hflat : hasUnderscore it.qid = false) :
    it.qid = it.q_num ∧ dictGet sa it.q_num ≠ none := by
  rcases List.mem_flatMap.mp hit with ⟨p, hp, hin⟩
  unfold itemsOf at hin
  cases hsa : dictGet sa p.1 with
  | none => rw [hsa] at hin; cases p.2 <;> simp at hin
  | some ans =>
    rw [hsa] at hin
    cases hpd : p.2 with
    | mcq answer marks => rw [hpd] at hin; simp at hin
    | descriptive kd =>
      rw [hpd] at hin
      simp only [List.mem_singleton] at hin
      subst hin
      exact ⟨rfl, by simp [hsa]⟩
    | composite marks subs =>
      rw [hpd] at hin
      rcases List.mem_map.mp hin with ⟨sp, _, hsp⟩
      subst hsp
      rw [show (⟨p.1, some sp.1, (dictGet (parse_subquestions ans) sp.1).getD ans,
        sp.2, (dictGet (parse_subquestions ans) sp.1).isNone⟩ : DescItem).qid =
          p.1 ++ "_" ++ sp.1 from rfl] at hflat
      rw [hasUnderscore_encode] at hflat
      exact absurd hflat (by simp)

/-- An aborted second pass stays aborted. -/
theorem phase2_none_foldl (sa : List (String × String))
    (dres : List (String × BRes)) :
    dres.foldl (phase2Step sa) none = none := by
  induction dres with
  | nil => rfl
  | cons p rest ih =>
    simp only [List.foldl_cons]
    rw [show phase2Step sa none p = none from rfl]
    exact ih

/-- The second pass leaves an entry with no `subquestions` key untouched, as
long as no flat batch id collides with its key: a sub-result aimed at it would
raise (and the pass would not return a value at all). -/
theorem phase2_preserves_entry (sa : List (String × String))
    (dres : List (String × BRes)) (qs0 : List (String × QResult)) (total0 : ℚ)
    (out : List (String × QResult) × ℚ) (q_num : String) (E : QResult)
    (hE : dictGet qs0 q_num = some E)
    (hsub : E.subquestions = none)
    (hflat : ∀ p ∈ dres, hasUnderscore p.1 = false → p.1 ≠ q_num)
    (h : dres.foldl (phase2Step sa) (some (qs0, total0)) = some out) :
    dictGet out.1 q_num = some E := by
  induction dres generalizing qs0 total0 with
  | nil =>
    simp only [List.foldl_nil, Option.some_inj] at h
    rw [← h]
    exact hE
  | cons p rest ih =>
    obtain ⟨id, er⟩ := p
    simp only [List.foldl_cons] at h
    cases hu : hasUnderscore id with
    | false =>
      have hne : id ≠ q_num := hflat (id, er) (List.mem_cons_self _ _) hu
      rw [show phase2Step sa (some (qs0, total0)) (id, er) =
          some (dictSet qs0 id ⟨er.score, er.max_score, some er.feedback,
            er.answer_text, none⟩, total0 + er.score) by
        simp [phase2Step, hu]] at h
      refine ih _ _ ?_ ?_ h
      · rw [dictGet_dictSet_ne _ _ _ _ (Ne.symm hne)]
        exact hE
      · exact fun p2 hp2 => hflat p2 (List.mem_cons_of_mem _ hp2)
    | true =>
      simp only [phase2Step, hu, eq_self_iff_true, if_true] at h
      cases hsp : pySplitUnderscore id with
      | nil =>
        simp only [hsp] at h
        rw [phase2_none_foldl] at h
        exact absurd h (by simp)
      | cons m1 t1 =>
        cases t1 with
        | nil =>
          simp only [hsp] at h
          rw [phase2_none_foldl] at h
          exact absurd h (by simp)
        | cons m2 t2 =>
          cases t2 with
          | nil =>
            simp only [hsp] at h
            cases hm : dictGet qs0 m1 with
            | some e =>
              simp only [hm] at h
              by_cases hmq : m1 = q_num
              · subst hmq
                rw [hE] at hm
                obtain rfl := Option.some_inj.mp hm
                simp only [hsub] at h
                rw [phase2_none_foldl] at h
                exact absurd h (by simp)
              · cases hes : e.subquestions with
                | none =>
                  simp only [hes] at h
                  rw [phase2_none_foldl] at h
                  exact absurd h (by simp)
                | some sl =>
                  simp only [hes] at h
                  refine ih _ _ ?_ ?_ h
                  · rw [dictGet_dictSet_ne _ _ _ _ (Ne.symm hmq)]
                    exact hE
                  · exact fun p2 hp2 => hflat p2 (List.mem_cons_of_mem _ hp2)
            | none =>
              simp only [hm] at h
              have hmq : m1 ≠ q_num := by
                intro hc
                rw [hc, hE] at hm
                exact absurd hm (by simp)
              cases hsa0 : dictGet sa m1 with
              | none =>
                simp only [hsa0] at h
                rw [phase2_none_foldl] at h
                exact absurd h (by simp)
              | some sa0 =>
                simp only [hsa0] at h
                refine ih _ _ ?_ ?_ h
                · rw [dictGet_dictSet_ne _ _ _ _ (Ne.symm hmq),
                    dictGet_dictSet_ne _ _ _ _ (Ne.symm hmq)]
                  exact hE
                · exact fun p2 hp2 => hflat p2 (List.mem_cons_of_mem _ hp2)
          | cons m3 t3 =>
            simp only [hsp] at h
            rw [phase2_none_foldl] at h
            exact absurd h (by simp)

/-- Appending the MCQ results leaves entries at other keys untouched. -/
theorem mcq_fold_preserves (ms : List (String × QResult))
    (qs1 : List (String × QResult)) (q_num : String)
    (hne : ∀ p ∈ ms, p.1 ≠ q_num) :
    dictGet (ms.foldl (fun acc p => dictSet acc p.1 p.2) qs1) q_num =
      dictGet qs1 q_num := by
  induction ms generalizing qs1 with
  | nil => rfl
  | cons p rest ih =>
    simp only [List.foldl_cons]
    rw [ih _ (fun p2 hp2 => hne p2 (List.mem_cons_of_mem _ hp2)),
      dictGet_dictSet_ne _ _ _ _ (Ne.symm (hne p (List.mem_cons_self _ _)))]

/-! ## Claim C7 -/

theorem unattOf_keys (sa : List (String × String)) (p : String × QData) :
    ∀ x ∈ unattOf sa p, x.1 = p.1 := by
  intro x hx
  unfold unattOf at hx
  cases hsa : dictGet sa p.1 with
  | none =>
    rw [hsa] at hx
    simp only [List.mem_singleton] at hx
    rw [hx]
  | some v =>
    rw [hsa] at hx
    simp at hx

theorem mcqOf_attempted (sa : List (String × String)) (qs : List (String × QData)) :
    ∀ x ∈ qs.flatMap (mcqOf sa), dictGet sa x.1 ≠ none := by
  intro x hx
  rcases List.mem_flatMap.mp hx with ⟨p, _, hin⟩
  unfold mcqOf at hin
  cases hsa : dictGet sa p.1 with
  | none =>
    rw [hsa] at hin
    cases hp2 : p.2 <;> rw [hp2] at hin <;> simp at hin
  | some ans =>
    rw [hsa] at hin
    cases hp2 : p.2 with
    | mcq answer marks =>
      rw [hp2] at hin
      simp only [List.mem_singleton] at hin
      rw [hin]
      simp [hsa]
    | descriptive kd => rw [hp2] at hin; simp at hin
    | composite marks subs => rw [hp2] at hin; simp at hin

/-- Claim C7: a question present in the answer key but absent from the
submission gets a result entry with score 0, feedback "Question not
attempted", empty answer text, and max score equal to the sum of sub-marks
for a composite question or the flat marks otherwise. -/
theorem C7_unattempted (resp : BatchResponse) (sa : List (String × String))
    (key : AnswerKey) (r : EvalResults) (q_num : String) (qd : QData)
    (hnd : (key.questions.map Prod.fst).Nodup)
    (hq : dictGet key.questions q_num = some qd)
    (habs : dictGet sa q_num = none)
    (h : evaluate_answers resp sa key = some r) :
    dictGet r.questions q_num =
      some ⟨0, qd.maxMarks, some "Question not attempted", "", none⟩ := by
  simp only [evaluate_answers,
    phase1_characterization sa key.questions ⟨[], [], [], 0⟩ (by simp) hnd,
    List.nil_append, zero_add] at h
  split at h
  · exact absurd h (by simp)
  · rename_i resultsQ1 total1 heq
    obtain rfl := Option.some_inj.mp h
    simp only
    have hE : dictGet (key.questions.flatMap (unattOf sa)) q_num =
        some ⟨0, qd.maxMarks, some "Question not attempted", "", none⟩ := by
      rw [dictGet_flatMap_perQ (unattOf sa) (unattOf_keys sa) key.questions hnd hq]
      simp [unattOf, habs, dictGet]
    have hflat : ∀ p ∈ batch_evaluate_descriptive resp
        (key.questions.flatMap (itemsOf sa)),
        hasUnderscore p.1 = false → p.1 ≠ q_num := by
      intro p hp hu
      rcases batch_keys_from_items resp _ p hp with ⟨it, hit, hpq⟩
      have h2 := itemsOf_flat_attempted sa key.questions it hit (by rw [← hpq]; exact hu)
      intro hc
      apply h2.2
      rw [← h2.1, ← hpq, hc]
      exact habs
    have hq1 : dictGet resultsQ1 q_num =
        some ⟨0, qd.maxMarks, some "Question not attempted", "", none⟩ :=
      phase2_preserves_entry sa _ _ _ (resultsQ1, total1) q_num _ hE rfl hflat heq
    rw [mcq_fold_preserves _ _ _ ?_]
    · exact hq1
    · intro p hp hc
      apply mcqOf_attempted sa key.questions p hp
      rw [hc]
      exact habs

theorem C7_witness :
    (evaluate_answers .exn []
        ⟨[("1", .composite 0 [("a", ⟨2, [], none⟩), ("b", ⟨3, [], none⟩)])],
          5⟩).map (fun r => dictGet r.questions "1") =
      some (some ⟨0, 5, some "Question not attempted", "", none⟩) := by
  have hz : ((0 : ℚ)/5*100) = ((0 : ℤ) : ℚ) := by norm_num
  have hev : evaluate_answers .exn []
      ⟨[("1", .composite 0 [("a", ⟨2, [], none⟩), ("b", ⟨3, [], none⟩)])], 5⟩ =
      some ⟨[("1", ⟨0, 5, some "Question not attempted", "", none⟩)], 0, 5, 0⟩ := by
    simp +decide [evaluate_answers, phase1Step, dictGet, dictSet,
      QData.maxMarks, batch_evaluate_descriptive]
    constructor
    · norm_num
    · exact pyRound_intValue (m := 0) 2 (by norm_num)
  have h := C7_unattempted .exn []
    ⟨[("1", .composite 0 [("a", ⟨2, [], none⟩), ("b", ⟨3, [], none⟩)])], 5⟩
    ⟨[("1", ⟨0, 5, some "Question not attempted", "", none⟩)], 0, 5, 0⟩
    "1" (.composite 0 [("a", ⟨2, [], none⟩), ("b", ⟨3, [], none⟩)])
    (by simp) rfl rfl hev
  rw [hev]
  simp only [Option.map_some']
  rw [h]
  have hmm : (QData.composite 0 [("a", ⟨2, [], none⟩),
      ("b", ⟨3, [], none⟩)]).maxMarks = 5 := by
    simp [QData.maxMarks]
    norm_num
  rw [hmm]

/-! ## Claim C1 -/

/-- Claim C1 is false as stated: the boundary where the untrusted batched
response is consumed only clamps from above (`min(float(score), max_score)`),
so a negative supplied score flows into the results unchanged. -/
theorem C1_counterexample :
    (evaluate_answers (.parsed [("1", ⟨some (-3), some "bad"⟩)])
        [("1", "answer")]
        ⟨[("1", .descriptive ⟨5, ["some keypoint"], none⟩)], 5⟩).map
      (fun r => dictGet r.questions "1") =
      some (some ⟨-3, 5, some "bad", "answer", none⟩) ∧
    ¬ (0 : ℚ) ≤ -3 := by
  have hmin : min (-3 : ℚ) 5 = -3 := by norm_num
  have hp : ((-3 : ℚ))/5*100 = ((-60 : ℤ) : ℚ) := by norm_num
  have hev : evaluate_answers (.parsed [("1", ⟨some (-3), some "bad"⟩)])
      [("1", "answer")]
      ⟨[("1", .descriptive ⟨5, ["some keypoint"], none⟩)], 5⟩ =
      some ⟨[("1", ⟨-3, 5, some "bad", "answer", none⟩)], -3, 5, -60⟩ := by
    simp +decide [evaluate_answers, phase1Step, dictGet, dictSet,
      batch_evaluate_descriptive, processParsed, parsedValue, DescItem.qid,
      phase2Step, hasUnderscore, hmin]
    rw [hp, pyRound_intValue 2 rfl]
    norm_num
  rw [hev]
  refine ⟨by simp [dictGet], by norm_num⟩

/-- Nonnegative integer-valued marks, as the answer-key parser produces. -/
def natLike (q : ℚ) : Prop := 0 ≤ q ∧ q.den = 1

/-- All mark allocations of a question are nonnegative integers. -/
def QData.marksNatLike : QData → Prop
  | .mcq _ m => natLike m
  | .descriptive kd => natLike kd.marks
  | .composite _ subs => ∀ sp ∈ subs, natLike sp.2.marks

/-- Score bounds of one result entry: the entry and each of its sub-question
entries score between 0 and their respective maxima. -/
def QResult.inRange (e : QResult) : Prop :=
  0 ≤ e.score ∧ e.score ≤ e.max_score ∧
  ∀ sp ∈ e.subquestions.getD [], 0 ≤ sp.2.score ∧ sp.2.score ≤ sp.2.max_score

theorem matchedLoop_le (a : String) (l : List String) :
    matchedLoop a l ≤ l.length := by
  induction l with
  | nil => simp [matchedLoop]
  | cons p rest ih =>
    simp only [matchedLoop, List.length_cons]
    split
    · omega
    · split <;> omega

theorem estimate_score_range (ans : String) (kd : KeyData) {M : ℚ}
    (hM : 0 ≤ M) (hden : M.den = 1) :
    0 ≤ (estimate_score ans kd M).1 ∧ (estimate_score ans kd M).1 ≤ M := by
  unfold estimate_score
  by_cases he : (derivedKeyPoints kd).isEmpty
  · simp only [he, if_true]
    exact ⟨le_refl 0, hM⟩
  · simp only [he, Bool.false_eq_true, if_false]
    have hmn : matchedLoop (pyLower ans) (derivedKeyPoints kd) ≤
        (derivedKeyPoints kd).length := matchedLoop_le _ _
    have hn : 0 < (derivedKeyPoints kd).length := by
      cases hkp : derivedKeyPoints kd with
      | nil => rw [hkp] at he; simp at he
      | cons a l => simp
    have hx0 : 0 ≤ ((matchedLoop (pyLower ans) (derivedKeyPoints kd) : ℚ) /
        ((derivedKeyPoints kd).length : ℚ)) * M := by
      have h1 : (0 : ℚ) < ((derivedKeyPoints kd).length : ℚ) := by
        exact_mod_cast hn
      positivity
    have hx1 : ((matchedLoop (pyLower ans) (derivedKeyPoints kd) : ℚ) /
        ((derivedKeyPoints kd).length : ℚ)) * M ≤ M := by
      have h1 : (0 : ℚ) < ((derivedKeyPoints kd).length : ℚ) := by
        exact_mod_cast hn
      have h2 : (matchedLoop (pyLower ans) (derivedKeyPoints kd) : ℚ) /
          ((derivedKeyPoints kd).length : ℚ) ≤ 1 := by
        rw [div_le_one h1]
        exact_mod_cast hmn
      nlinarith
    exact ⟨pyRound_nonneg _ hx0, pyRound_le_of_le _ hx1 hden⟩

/-- Every entry of a fallback evaluation is the heuristic result of one of the
submitted items. -/
theorem fallback_mem (qs : List DescItem) :
    ∀ x ∈ fallback_individual_evaluation qs, ∃ q ∈ qs,
      x = (q.qid, estimate_score_with_result q.student_answer
        q.answer_key_data q.answer_key_data.marks) := by
  unfold fallback_individual_evaluation
  suffices h : ∀ (qs2 : List DescItem) (init : List (String × BRes)),
      (∀ q ∈ qs2, q ∈ qs) →
      (∀ x ∈ init, ∃ q ∈ qs, x = (q.qid, estimate_score_with_result
        q.student_answer q.answer_key_data q.answer_key_data.marks)) →
      ∀ x ∈ qs2.foldl (fun results q => dictSet results q.qid
        (estimate_score_with_result q.student_answer q.answer_key_data
          q.answer_key_data.marks)) init, ∃ q ∈ qs,
        x = (q.qid, estimate_score_with_result q.student_answer
          q.answer_key_data q.answer_key_data.marks) by
    exact h qs [] (fun q hq => hq) (by simp)
  intro qs2
  induction qs2 with
  | nil => intro init _ hinit x hx; exact hinit x hx
  | cons q rest ih =>
    intro init hsub hinit x hx
    simp only [List.foldl_cons] at hx
    refine ih _ (fun q2 hq2 => hsub q2 (List.mem_cons_of_mem _ hq2)) ?_ x hx
    intro y hy
    rcases mem_dictSet hy with h2 | h2
    · exact hinit y h2
    · exact ⟨q, hsub q (List.mem_cons_self _ _), h2⟩

/-- Every entry of a successful parsed processing comes from one submitted
item through `parsedValue`. -/
theorem processParsed_mem (ev : List (String × RespEntry)) (qs : List DescItem)
    (res : List (String × BRes)) (h : processParsed ev qs = some res) :
    ∀ x ∈ res, ∃ q ∈ qs, x.1 = q.qid ∧ parsedValue ev q = some x.2 := by
  unfold processParsed at h
  suffices hgen : ∀ (qs2 : List DescItem) (init : List (String × BRes)),
      (∀ q ∈ qs2, q ∈ qs) →
      (∀ x ∈ init, ∃ q ∈ qs, x.1 = q.qid ∧ parsedValue ev q = some x.2) →
      qs2.foldl (fun acc q =>
        match acc, parsedValue ev q with
        | some results, some v => some (dictSet results q.qid v)
        | _, _ => none) (some init) = some res →
      ∀ x ∈ res, ∃ q ∈ qs, x.1 = q.qid ∧ parsedValue ev q = some x.2 by
    exact hgen qs [] (fun q hq => hq) (by simp) h
  intro qs2
  induction qs2 with
  | nil =>
    intro init _ hinit h2 x hx
    simp only [List.foldl_nil, Option.some_inj] at h2
    subst h2
    exact hinit x hx
  | cons q rest ih =>
    intro init hsub hinit h2 x hx
    simp only [List.foldl_cons] at h2
    cases hv : parsedValue ev q with
    | none =>
      rw [hv] at h2
      rw [processParsed_none_foldl] at h2
      exact absurd h2 (by simp)
    | some v0 =>
      rw [hv] at h2
      refine ih _ (fun q2 hq2 => hsub q2 (List.mem_cons_of_mem _ hq2)) ?_ h2 x hx
      intro y hy
      rcases mem_dictSet hy with h3 | h3
      · exact hinit y h3
      · subst h3
        exact ⟨q, hsub q (List.mem_cons_self _ _), rfl, hv⟩

/-- The per-item value taken from a parsed response is clamped above by the
item maximum, and stays nonnegative whenever the supplied score is. -/
theorem parsedValue_range (ev : List (String × RespEntry)) (q : DescItem)
    {v : BRes} (hv : parsedValue ev q = some v)
    (hm : natLike q.answer_key_data.marks)
    (hresp : ∀ e ∈ ev, ∀ s, e.2.score = some s → 0 ≤ s) :
    0 ≤ v.score ∧ v.score ≤ v.max_score := by
  unfold parsedValue at hv
  cases hg : dictGet ev q.qid with
  | some e =>
    simp only [hg] at hv
    cases hs : e.score with
    | none =>
      simp only [hs] at hv
      exact absurd hv (by simp)
    | some s =>
      simp only [hs] at hv
      cases hf : e.feedback with
      | none => simp only [hf] at hv; simp at hv
      | some fb =>
        simp only [hf, Option.some_inj] at hv
        subst hv
        have hs0 : 0 ≤ s := hresp (q.qid, e) (dictGet_mem hg) s hs
        constructor
        · exact le_min hs0 hm.1
        · exact min_le_right _ _
  | none =>
    rw [hg] at hv
    simp only [Option.some_inj] at hv
    subst hv
    have := estimate_score_range q.student_answer q.answer_key_data hm.1 hm.2
    exact ⟨this.1, this.2⟩

/-- Every value in a batch result is clamped into range, whatever the
response shape, provided the item maxima are nonnegative integers and any
parsed scores are nonnegative. -/
theorem batch_values_range (resp : BatchResponse) (qs : List DescItem)
    (hm : ∀ q ∈ qs, natLike q.answer_key_data.marks)
    (hresp : ∀ ev, resp = .parsed ev → ∀ e ∈ ev, ∀ s, e.2.score = some s → 0 ≤ s) :
    ∀ x ∈ batch_evaluate_descriptive resp qs,
      0 ≤ x.2.score ∧ x.2.score ≤ x.2.max_score := by
  have hfb : ∀ x ∈ fallback_individual_evaluation qs,
      0 ≤ x.2.score ∧ x.2.score ≤ x.2.max_score := by
    intro x hx
    rcases fallback_mem qs x hx with ⟨q, hq, hxe⟩
    subst hxe
    have hq2 := hm q hq
    have := estimate_score_range q.student_answer q.answer_key_data hq2.1 hq2.2
    exact ⟨this.1, this.2⟩
  unfold batch_evaluate_descriptive
  by_cases he : qs.isEmpty
  · simp [he]
  · simp only [he, Bool.false_eq_true, if_false]
    cases resp with
    | exn => exact hfb
    | noJson => exact hfb
    | badJson => exact hfb
    | parsed ev =>
      cases hp : processParsed ev qs with
      | none =>
        simp only [hp]
        exact hfb
      | some res =>
        simp only [hp]
        intro x hx
        rcases processParsed_mem ev qs res hp x hx with ⟨q, hq, _, hv⟩
        exact parsedValue_range ev q hv (hm q hq) (hresp ev rfl)

/-- Preservation of a pointwise property through a plain dict-set fold. -/
theorem foldl_dictSet_forall {α : Type} (P : String × α → Prop)
    (ms : List (String × α)) (init : List (String × α))
    (hinit : ∀ x ∈ init, P x) (hms : ∀ p ∈ ms, P p) :
    ∀ x ∈ ms.foldl (fun acc p => dictSet acc p.1 p.2) init, P x := by
  induction ms generalizing init with
  | nil => exact hinit
  | cons p rest ih =>
    simp only [List.foldl_cons]
    refine ih _ ?_ (fun p2 hp2 => hms p2 (List.mem_cons_of_mem _ hp2))
    intro y hy
    rcases mem_dictSet hy with h2 | h2
    · exact hinit y h2
    · rw [h2]
      exact hms p (List.mem_cons_self _ _)

/-- Sums of per-sub-question marks of a well-marked question are nonnegative. -/
theorem maxMarks_nonneg {qd : QData} (h : qd.marksNatLike) : 0 ≤ qd.maxMarks := by
  cases qd with
  | mcq answer marks => exact h.1
  | descriptive kd => exact h.1
  | composite marks subs =>
    unfold QData.maxMarks
    apply List.sum_nonneg
    intro x hx
    rcases List.mem_map.mp hx with ⟨sp, hsp, hx2⟩
    rw [← hx2]
    exact (h sp hsp).1

/-- All entries produced by the first pass are in range. -/
theorem phase1_inRange (sa : List (String × String))
    (qs : List (String × QData)) (st0 : Phase1State)
    (hmarks : ∀ p ∈ qs, QData.marksNatLike p.2)
    (hr0 : ∀ x ∈ st0.resultsQ, x.2.inRange)
    (hm0 : ∀ x ∈ st0.mcq, x.2.inRange) :
    (∀ x ∈ (qs.foldl (phase1Step sa) st0).resultsQ, x.2.inRange) ∧
    (∀ x ∈ (qs.foldl (phase1Step sa) st0).mcq, x.2.inRange) := by
  induction qs generalizing st0 with
  | nil => exact ⟨hr0, hm0⟩
  | cons p rest ih =>
    obtain ⟨q_num, q_data⟩ := p
    have hmp := hmarks (q_num, q_data) (List.mem_cons_self _ _)
    have hmr : ∀ p2 ∈ rest, QData.marksNatLike p2.2 :=
      fun p2 hp2 => hmarks p2 (List.mem_cons_of_mem _ hp2)
    simp only [List.foldl_cons]
    cases hsa : dictGet sa q_num with
    | none =>
      refine ih _ hmr ?_ ?_
      · simp only [phase1Step, hsa]
        intro x hx
        rcases mem_dictSet hx with h2 | h2
        · exact hr0 x h2
        · rw [h2]
          refine ⟨le_refl 0, maxMarks_nonneg hmp, ?_⟩
          simp
      · simp only [phase1Step, hsa]
        exact hm0
    | some ans =>
      cases q_data with
      | mcq answer marks =>
        refine ih _ hmr ?_ ?_
        · simp only [phase1Step, hsa]
          exact hr0
        · simp only [phase1Step, hsa]
          intro x hx
          rcases mem_dictSet hx with h2 | h2
          · exact hm0 x h2
          · rw [h2]
            have hsc : (evaluate_mcq ans answer marks).1 = 0 ∨
                (evaluate_mcq ans answer marks).1 = marks := by
              unfold evaluate_mcq
              cases mcqSearch ans.data with
              | none => simp
              | some g =>
                by_cases hg : String.mk [g.toUpper] = answer <;> simp [hg]
            rcases hsc with h3 | h3
            · refine ⟨?_, ?_, by simp⟩
              · show (0 : ℚ) ≤ (evaluate_mcq ans answer marks).1
                simp [h3]
              · show (evaluate_mcq ans answer marks).1 ≤ marks
                rw [h3]
                exact hmp.1
            · refine ⟨?_, ?_, by simp⟩
              · show (0 : ℚ) ≤ (evaluate_mcq ans answer marks).1
                rw [h3]
                exact hmp.1
              · show (evaluate_mcq ans answer marks).1 ≤ marks
                simp [h3]
      | descriptive kd =>
        refine ih _ hmr ?_ ?_ <;> simp only [phase1Step, hsa]
        · exact hr0
        · exact hm0
      | composite marks subs =>
        refine ih _ hmr ?_ ?_ <;> simp only [phase1Step, hsa]
        · exact hr0
        · exact hm0

/-- Items of the first pass either predate the pass or come from one key
question. -/
theorem phase1_items_mem (sa : List (String × String))
    (qs : List (String × QData)) (st0 : Phase1State) :
    ∀ it ∈ (qs.foldl (phase1Step sa) st0).items,
      it ∈ st0.items ∨ ∃ p ∈ qs, it ∈ itemsOf sa p := by
  induction qs generalizing st0 with
  | nil => exact fun it hit => Or.inl hit
  | cons p rest ih =>
    obtain ⟨q_num, q_data⟩ := p
    intro it hit
    simp only [List.foldl_cons] at hit
    rcases ih _ it hit with h2 | h2
    · cases hsa : dictGet sa q_num with
      | none =>
        simp only [phase1Step, hsa] at h2
        exact Or.inl h2
      | some ans =>
        cases q_data with
        | mcq answer marks =>
          simp only [phase1Step, hsa] at h2
          exact Or.inl h2
        | descriptive kd =>
          simp only [phase1Step, hsa] at h2
          rcases List.mem_append.mp h2 with h3 | h3
          · exact Or.inl h3
          · refine Or.inr ⟨(q_num, .descriptive kd), List.mem_cons_self _ _, ?_⟩
            simp only [itemsOf, hsa]
            exact h3
        | composite marks subs =>
          simp only [phase1Step, hsa] at h2
          rcases List.mem_append.mp h2 with h3 | h3
          · exact Or.inl h3
          · refine Or.inr ⟨(q_num, .composite marks subs),
              List.mem_cons_self _ _, ?_⟩
            simp only [itemsOf, hsa]
            exact h3
    · obtain ⟨p2, hp2, hin⟩ := h2
      exact Or.inr ⟨p2, List.mem_cons_of_mem _ hp2, hin⟩

/-- Marks of an item taken from a well-marked question are a nonnegative
integer. -/
theorem itemsOf_marks (sa : List (String × String)) {p : String × QData}
    (hp : p.2.marksNatLike) {it : DescItem} (hit : it ∈ itemsOf sa p) :
    natLike it.answer_key_data.marks := by
  unfold itemsOf at hit
  cases hsa : dictGet sa p.1 with
  | none =>
    rw [hsa] at hit
    cases hp2 : p.2 <;> rw [hp2] at hit <;> simp at hit
  | some ans =>
    rw [hsa] at hit
    cases hp2 : p.2 with
    | mcq answer marks => rw [hp2] at hit; simp at hit
    | descriptive kd =>
      rw [hp2] at hit
      simp only [List.mem_singleton] at hit
      subst hit
      rw [hp2] at hp
      exact hp
    | composite marks subs =>
      rw [hp2] at hit
      rcases List.mem_map.mp hit with ⟨sp, hsp, hit2⟩
      subst hit2
      rw [hp2] at hp
      exact hp sp hsp

/-- All entries stay in range through the second pass, given in-range batch
values. -/
theorem phase2_inRange (sa : List (String × String))
    (dres : List (String × BRes)) (qs0 : List (String × QResult)) (total0 : ℚ)
    (out : List (String × QResult) × ℚ)
    (hqs0 : ∀ x ∈ qs0, x.2.inRange)
    (hdres : ∀ p ∈ dres, 0 ≤ p.2.score ∧ p.2.score ≤ p.2.max_score)
    (h : dres.foldl (phase2Step sa) (some (qs0, total0)) = some out) :
    ∀ x ∈ out.1, x.2.inRange := by
  induction dres generalizing qs0 total0 with
  | nil =>
    simp only [List.foldl_nil, Option.some_inj] at h
    rw [← h]
    exact hqs0
  | cons p rest ih =>
    obtain ⟨id, er⟩ := p
    have her := hdres (id, er) (List.mem_cons_self _ _)
    have hdr : ∀ p2 ∈ rest, 0 ≤ p2.2.score ∧ p2.2.score ≤ p2.2.max_score :=
      fun p2 hp2 => hdres p2 (List.mem_cons_of_mem _ hp2)
    simp only [List.foldl_cons] at h
    cases hu : hasUnderscore id with
    | false =>
      rw [show phase2Step sa (some (qs0, total0)) (id, er) =
          some (dictSet qs0 id ⟨er.score, er.max_score, some er.feedback,
            er.answer_text, none⟩, total0 + er.score) by
        simp [phase2Step, hu]] at h
      refine ih _ _ ?_ hdr h
      intro x hx
      rcases mem_dictSet hx with h2 | h2
      · exact hqs0 x h2
      · rw [h2]
        exact ⟨her.1, her.2, by simp⟩
    | true =>
      simp only [phase2Step, hu, eq_self_iff_true, if_true] at h
      cases hsp : pySplitUnderscore id with
      | nil =>
        simp only [hsp] at h
        rw [phase2_none_foldl] at h
        exact absurd h (by simp)
      | cons m1 t1 =>
        cases t1 with
        | nil =>
          simp only [hsp] at h
          rw [phase2_none_foldl] at h
          exact absurd h (by simp)
        | cons m2 t2 =>
          cases t2 with
          | nil =>
            simp only [hsp] at h
            cases hm : dictGet qs0 m1 with
            | some e =>
              simp only [hm] at h
              have he : e.inRange := hqs0 (m1, e) (dictGet_mem hm)
              cases hes : e.subquestions with
              | none =>
                simp only [hes] at h
                rw [phase2_none_foldl] at h
                exact absurd h (by simp)
              | some sl =>
                simp only [hes] at h
                refine ih _ _ ?_ hdr h
                intro x hx
                rcases mem_dictSet hx with h2 | h2
                · exact hqs0 x h2
                · rw [h2]
                  refine ⟨add_nonneg he.1 her.1,
                    add_le_add he.2.1 her.2, ?_⟩
                  intro sp hsp2
                  simp only [Option.getD_some] at hsp2
                  rcases mem_dictSet hsp2 with h3 | h3
                  · have := he.2.2 sp
                    rw [hes] at this
                    exact this (by simpa using h3)
                  · rw [h3]
                    exact ⟨her.1, her.2⟩
            | none =>
              simp only [hm] at h
              cases hsa0 : dictGet sa m1 with
              | none =>
                simp only [hsa0] at h
                rw [phase2_none_foldl] at h
                exact absurd h (by simp)
              | some sa0 =>
                simp only [hsa0] at h
                refine ih _ _ ?_ hdr h
                intro x hx
                rcases mem_dictSet hx with h2 | h2
                · rcases mem_dictSet h2 with h3 | h3
                  · exact hqs0 x h3
                  · rw [h3]
                    exact ⟨le_refl 0, le_refl 0, by simp⟩
                · rw [h2]
                  have hb1 : (0 : ℚ) ≤ 0 + er.score := by simpa using her.1
                  have hb2 : (0 : ℚ) + er.score ≤ 0 + er.max_score :=
                    add_le_add (le_refl (0 : ℚ)) her.2
                  refine ⟨hb1, hb2, ?_⟩
                  intro sp hsp2
                  simp only [Option.getD_some] at hsp2
                  rcases mem_dictSet hsp2 with h3 | h3
                  · simp at h3
                  · rw [h3]
                    exact ⟨her.1, her.2⟩
          | cons m3 t3 =>
            simp only [hsp] at h
            rw [phase2_none_foldl] at h
            exact absurd h (by simp)

/-- Claim C1, amended: the consumption boundary clamps the untrusted score
only from above (`min` with the maximum), so the two-sided invariant holds
provided the supplied scores are nonnegative; under that proviso (and with
the parser-produced nonnegative integer marks) every leaf score and every
rolled-up composite score lies between 0 and its maximum, whatever else the
response contains. -/
theorem C1_score_range (resp : BatchResponse) (sa : List (String × String))
    (key : AnswerKey) (r : EvalResults)
    (hmarks : ∀ p ∈ key.questions, QData.marksNatLike p.2)
    (hresp : ∀ ev, resp = .parsed ev → ∀ e ∈ ev, ∀ s, e.2.score = some s → 0 ≤ s)
    (h : evaluate_answers resp sa key = some r) :
    ∀ x ∈ r.questions, x.2.inRange := by
  simp only [evaluate_answers] at h
  split at h
  · exact absurd h (by simp)
  · rename_i resultsQ1 total1 heq
    obtain rfl := Option.some_inj.mp h
    simp only
    have h1 := phase1_inRange sa key.questions ⟨[], [], [], 0⟩ hmarks
      (by simp) (by simp)
    have hitems : ∀ q ∈ (key.questions.foldl (phase1Step sa)
        ⟨[], [], [], 0⟩).items, natLike q.answer_key_data.marks := by
      intro q hq
      rcases phase1_items_mem sa key.questions ⟨[], [], [], 0⟩ q hq with h2 | h2
      · simp at h2
      · obtain ⟨p, hp, hin⟩ := h2
        exact itemsOf_marks sa (hmarks p hp) hin
    have hbatch := batch_values_range resp _ hitems hresp
    have h2 := phase2_inRange sa _ _ _ (resultsQ1, total1) h1.1 hbatch heq
    exact foldl_dictSet_forall
      (fun x : String × QResult => x.2.inRange) _ _ h2 h1.2

theorem C1_witness :
    evaluate_answers (.parsed [("1", ⟨some 99, some "generous"⟩)])
        [("1", "answer")]
        ⟨[("1", .descriptive ⟨5, ["some keypoint"], none⟩)], 5⟩ =
      some ⟨[("1", ⟨5, 5, some "generous", "answer", none⟩)], 5, 5, 100⟩ ∧
    (0 : ℚ) ≤ 5 ∧ (5 : ℚ) ≤ 5 := by
  have hmin : min (99 : ℚ) 5 = 5 := by norm_num
  have hp : ((5 : ℚ))/5*100 = ((100 : ℤ) : ℚ) := by norm_num
  have hev : evaluate_answers (.parsed [("1", ⟨some 99, some "generous"⟩)])
      [("1", "answer")]
      ⟨[("1", .descriptive ⟨5, ["some keypoint"], none⟩)], 5⟩ =
      some ⟨[("1", ⟨5, 5, some "generous", "answer", none⟩)], 5, 5, 100⟩ := by
    simp +decide [evaluate_answers, phase1Step, dictGet, dictSet,
      batch_evaluate_descriptive, processParsed, parsedValue, DescItem.qid,
      phase2Step, hasUnderscore, hmin]
    exact pyRound_intValue (m := 100) 2 (by norm_num)
  have h := C1_score_range (.parsed [("1", ⟨some 99, some "generous"⟩)])
    [("1", "answer")] ⟨[("1", .descriptive ⟨5, ["some keypoint"], none⟩)], 5⟩
    ⟨[("1", ⟨5, 5, some "generous", "answer", none⟩)], 5, 5, 100⟩
    (by
      intro p hp2
      simp only [List.mem_singleton] at hp2
      subst hp2
      exact ⟨by norm_num, by norm_num⟩)
    (by
      intro ev hev2 e he s hs
      injection hev2 with h3
      subst h3
      simp only [List.mem_singleton] at he
      subst he
      simp only at hs
      have h4 : (99 : ℚ) = s := Option.some_inj.mp hs
      rw [← h4]
      norm_num)
    hev
  have h2 := h ("1", ⟨5, 5, some "generous", "answer", none⟩) (by simp)
  exact ⟨hev, h2.1, h2.2.1⟩

/-! ## Claim C9: string encoding of composite sub-question ids -/

/-- Splitting at the unique occurrence of an element. -/
theorem append_cons_inj {α : Type} [DecidableEq α] {x : α}
    {l1 r1 l2 r2 : List α} (h : l1 ++ x :: r1 = l2 ++ x :: r2)
    (h1 : x ∉ l1) (h2 : x ∉ l2) : l1 = l2 ∧ r1 = r2 := by
  induction l1 generalizing l2 with
  | nil =>
    cases l2 with
    | nil => simpa using h
    | cons c t =>
      simp only [List.nil_append, List.cons_append, List.cons.injEq] at h
      exact absurd (h.1 ▸ List.mem_cons_self _ _) h2
  | cons c1 t1 ih =>
    cases l2 with
    | nil =>
      simp only [List.cons_append, List.nil_append, List.cons.injEq] at h
      exact absurd (h.1.symm ▸ List.mem_cons_self _ _) h1
    | cons c2 t2 =>
      simp only [List.cons_append, List.cons.injEq] at h
      have := ih h.2 (fun hc => h1 (List.mem_cons_of_mem _ hc))
        (fun hc => h2 (List.mem_cons_of_mem _ hc))
      exact ⟨by rw [h.1, this.1], this.2⟩

theorem hasUnderscore_data (s : String) :
    hasUnderscore s = false ↔ '_' ∉ s.data := by
  unfold hasUnderscore
  simp

/-- The composite id encoding is injective on underscore-free components. -/
theorem encode_inj {m1 s1 m2 s2 : String}
    (hm1 : hasUnderscore m1 = false) (hm2 : hasUnderscore m2 = false)
    (h : m1 ++ "_" ++ s1 = m2 ++ "_" ++ s2) : m1 = m2 ∧ s1 = s2 := by
  have hd : m1.data ++ '_' :: s1.data = m2.data ++ '_' :: s2.data := by
    have := congrArg String.data h
    simpa [String.data_append] using this
  have h2 := append_cons_inj hd ((hasUnderscore_data m1).mp hm1)
    ((hasUnderscore_data m2).mp hm2)
  exact ⟨String.ext h2.1, String.ext h2.2⟩

theorem pySplitUAux_noU {l : List Char} (h : '_' ∉ l) (acc : List Char) :
    pySplitUAux l acc = [String.mk (acc.reverse ++ l)] := by
  induction l generalizing acc with
  | nil => simp [pySplitUAux]
  | cons c rest ih =>
    have hc : c ≠ '_' := fun hc => h (hc ▸ List.mem_cons_self _ _)
    have hr : '_' ∉ rest := fun hr => h (List.mem_cons_of_mem _ hr)
    simp only [pySplitUAux, hc, if_false]
    rw [ih hr]
    simp

/-- Splitting an underscore-free string returns it alone. -/
theorem pySplit_noU {s : String} (h : hasUnderscore s = false) :
    pySplitUnderscore s = [s] := by
  unfold pySplitUnderscore
  rw [pySplitUAux_noU ((hasUnderscore_data s).mp h)]
  simp

theorem pySplitUAux_append {l1 l2 : List Char} (h : '_' ∉ l1) (acc : List Char) :
    pySplitUAux (l1 ++ '_' :: l2) acc =
      String.mk (acc.reverse ++ l1) :: pySplitUAux l2 [] := by
  induction l1 generalizing acc with
  | nil => simp [pySplitUAux]
  | cons c rest ih =>
    have hc : c ≠ '_' := fun hc => h (hc ▸ List.mem_cons_self _ _)
    have hr : '_' ∉ rest := fun hr => h (List.mem_cons_of_mem _ hr)
    simp only [List.cons_append, pySplitUAux, hc, if_false, List.append_eq]
    rw [ih hr]
    simp

/-- Splitting a clean composite id recovers its two components. -/
theorem pySplit_encode {m s : String} (hm : hasUnderscore m = false)
    (hs : hasUnderscore s = false) :
    pySplitUnderscore (m ++ "_" ++ s) = [m, s] := by
  unfold pySplitUnderscore
  have hd : (m ++ "_" ++ s).data = m.data ++ '_' :: s.data := by
    simp [String.data_append]
  rw [hd, pySplitUAux_append ((hasUnderscore_data m).mp hm)]
  rw [pySplitUAux_noU ((hasUnderscore_data s).mp hs)]
  simp

/-- With distinct keys, a key determines its value. -/
theorem nodup_key_value_unique {α : Type} {l : List (String × α)}
    (hnd : (l.map Prod.fst).Nodup) {k : String} {a b : α}
    (ha : (k, a) ∈ l) (hb : (k, b) ∈ l) : a = b := by
  induction l with
  | nil => simp at ha
  | cons p rest ih =>
    simp only [List.map_cons, List.nodup_cons] at hnd
    rcases List.mem_cons.mp ha with h1 | h1 <;>
      rcases List.mem_cons.mp hb with h2 | h2
    · exact congrArg Prod.snd (h1.trans h2.symm)
    · exfalso
      apply hnd.1
      have hk : p.1 = k := (congrArg Prod.fst h1).symm
      rw [hk]
      exact List.mem_map_of_mem Prod.fst h2
    · exfalso
      apply hnd.1
      have hk : p.1 = k := (congrArg Prod.fst h2).symm
      rw [hk]
      exact List.mem_map_of_mem Prod.fst h1
    · exact ih hnd.2 h1 h2

/-- Well-formed answer key for id bookkeeping: distinct question numbers, no
underscore in any question number, and per composite question distinct,
underscore-free sub-question letters. -/
def cleanKey (key : AnswerKey) : Prop :=
  (key.questions.map Prod.fst).Nodup ∧
  ∀ p ∈ key.questions, hasUnderscore p.1 = false ∧
    ∀ m subs, p.2 = QData.composite m subs →
      (subs.map Prod.fst).Nodup ∧ ∀ sp ∈ subs, hasUnderscore sp.1 = false

/-- Shape analysis of one batch item: it concerns an attempted question and is
either the flat id of a descriptive question or the encoded id of one
composite sub-question. -/
theorem itemsOf_qid_cases (sa : List (String × String)) (p : String × QData)
    (it : DescItem) (hit : it ∈ itemsOf sa p) :
    dictGet sa p.1 ≠ none ∧ it.q_num = p.1 ∧
    ((it.qid = p.1 ∧ ∃ kd, p.2 = QData.descriptive kd) ∨
     (∃ s m subs, it.qid = p.1 ++ "_" ++ s ∧ p.2 = QData.composite m subs ∧
       s ∈ subs.map Prod.fst)) := by
  unfold itemsOf at hit
  cases hsa : dictGet sa p.1 with
  | none =>
    rw [hsa] at hit
    cases hp2 : p.2 <;> rw [hp2] at hit <;> simp at hit
  | some ans =>
    rw [hsa] at hit
    cases hp2 : p.2 with
    | mcq answer marks => rw [hp2] at hit; simp at hit
    | descriptive kd =>
      rw [hp2] at hit
      simp only [List.mem_singleton] at hit
      subst hit
      exact ⟨by simp [hsa], rfl, Or.inl ⟨rfl, kd, rfl⟩⟩
    | composite marks subs =>
      rw [hp2] at hit
      rcases List.mem_map.mp hit with ⟨sp, hsp, hit2⟩
      subst hit2
      refine ⟨by simp [hsa], rfl, Or.inr ⟨sp.1, marks, subs, rfl, rfl, ?_⟩⟩
      exact List.mem_map_of_mem Prod.fst hsp

/-- Ids contributed by one key question. -/
theorem itemsOf_qids (sa : List (String × String)) (p : String × QData) :
    (itemsOf sa p).map DescItem.qid = [] ∨
    ((itemsOf sa p).map DescItem.qid = [p.1] ∧ dictGet sa p.1 ≠ none ∧
      ∃ kd, p.2 = QData.descriptive kd) ∨
    (∃ m subs, p.2 = QData.composite m subs ∧ dictGet sa p.1 ≠ none ∧
      (itemsOf sa p).map DescItem.qid =
        subs.map (fun sp => p.1 ++ "_" ++ sp.1)) := by
  unfold itemsOf
  cases hsa : dictGet sa p.1 with
  | none =>
    cases hp2 : p.2 <;> simp
  | some ans =>
    cases hp2 : p.2 with
    | mcq answer marks => simp
    | descriptive kd =>
      refine Or.inr (Or.inl ⟨by simp [DescItem.qid], by simp [hsa], kd, rfl⟩)
    | composite marks subs =>
      refine Or.inr (Or.inr ⟨marks, subs, rfl, by simp [hsa], ?_⟩)
      simp [DescItem.qid, Function.comp]

/-- With a clean key, the batch item ids are pairwise distinct. -/
theorem items_qids_nodup (sa : List (String × String)) (key : AnswerKey)
    (hc : cleanKey key) :
    ((key.questions.flatMap (itemsOf sa)).map DescItem.qid).Nodup := by
  obtain ⟨hnd, hcl⟩ := hc
  suffices main : ∀ qs : List (String × QData), (∀ p ∈ qs, p ∈ key.questions) →
      (qs.map Prod.fst).Nodup →
      ((qs.flatMap (itemsOf sa)).map DescItem.qid).Nodup by
    exact main key.questions (fun p hp => hp) hnd
  intro qs
  induction qs with
  | nil => intro _ _; simp
  | cons p rest ih =>
    intro hsub hnd2
    simp only [List.map_cons, List.nodup_cons] at hnd2
    simp only [List.flatMap_cons, List.map_append]
    rw [List.nodup_append]
    have hpwf := hcl p (hsub p (List.mem_cons_self _ _))
    refine ⟨?_, ih (fun q hq => hsub q (List.mem_cons_of_mem _ hq)) hnd2.2, ?_⟩
    · rcases itemsOf_qids sa p with h1 | h1 | h1
      · rw [h1]; exact List.nodup_nil
      · rw [h1.1]; simp
      · obtain ⟨m, subs, hp2, _, hq⟩ := h1
        rw [hq]
        have hsubnd := (hpwf.2 m subs hp2).1
        have heq : subs.map (fun sp => p.1 ++ "_" ++ sp.1) =
            (subs.map Prod.fst).map (fun s => p.1 ++ "_" ++ s) := by
          rw [List.map_map]
          rfl
        rw [heq]
        refine List.Nodup.map_on ?_ hsubnd
        intro s1 _ s2 _ hss
        exact (encode_inj hpwf.1 hpwf.1 hss).2
    · intro a ha hb
      rcases List.mem_map.mp hb with ⟨it2, hit2, hq2⟩
      rcases List.mem_flatMap.mp hit2 with ⟨p2, hp2, hin2⟩
      have hcase2 := itemsOf_qid_cases sa p2 it2 hin2
      have hpwf2 := hcl p2 (hsub p2 (List.mem_cons_of_mem _ hp2))
      have hkey2 : p2.1 ∈ rest.map Prod.fst := List.mem_map_of_mem Prod.fst hp2
      rcases itemsOf_qids sa p with h1 | h1 | h1
      · rw [h1] at ha; simp at ha
      · rw [h1.1] at ha
        simp only [List.mem_singleton] at ha
        subst ha
        rcases hcase2.2.2 with h2 | h2
        · obtain ⟨hq2e, _⟩ := h2
          apply hnd2.1
          rw [show p.1 = p2.1 from by rw [← hq2, hq2e]]
          exact hkey2
        · obtain ⟨s, m, subs, hq2e, _, _⟩ := h2
          have hhu : hasUnderscore p.1 = true := by
            rw [← hq2, hq2e]
            exact hasUnderscore_encode _ _
          rw [hpwf.1] at hhu
          exact absurd hhu (by simp)
      · obtain ⟨m, subs, hp2e, _, hq⟩ := h1
        rw [hq] at ha
        rcases List.mem_map.mp ha with ⟨sp, _, hae⟩
        rcases hcase2.2.2 with h2 | h2
        · obtain ⟨hq2e, _⟩ := h2
          have hhu : hasUnderscore a = true := by
            rw [← hae]
            exact hasUnderscore_encode _ _
          have hhu2 : hasUnderscore a = false := by
            rw [← hq2, hq2e]
            exact hpwf2.1
          rw [hhu] at hhu2
          exact absurd hhu2 (by simp)
        · obtain ⟨s, m2, subs2, hq2e, _, _⟩ := h2
          have henc : p.1 ++ "_" ++ sp.1 = p2.1 ++ "_" ++ s := by
            rw [hae, ← hq2, hq2e]
          apply hnd2.1
          rw [(encode_inj hpwf.1 hpwf2.1 henc).1]
          exact hkey2

/-- With distinct item ids, every batch response yields exactly the item ids
as result keys, in order. -/
theorem batch_keys_eq (resp : BatchResponse) (qs : List DescItem)
    (hnd : (qs.map DescItem.qid).Nodup) :
    (batch_evaluate_descriptive resp qs).map Prod.fst = qs.map DescItem.qid := by
  have hfb : (fallback_individual_evaluation qs).map Prod.fst =
      qs.map DescItem.qid := by
    unfold fallback_individual_evaluation
    rw [foldl_dictSet_eq_append _ qs [] (by simp) hnd]
    simp
  unfold batch_evaluate_descriptive
  by_cases he : qs.isEmpty
  · cases qs with
    | nil => simp
    | cons a l => simp at he
  · simp only [he, Bool.false_eq_true, if_false]
    cases resp with
    | exn => exact hfb
    | noJson => exact hfb
    | badJson => exact hfb
    | parsed ev =>
      cases hp : processParsed ev qs with
      | none => simp only [hp]; exact hfb
      | some res =>
        simp only [hp]
        have := processParsed_some_aux ev qs [] res (by simp) hnd hp
        simpa using this.1

/-- Keys of the not-attempted entries are not-attempted question numbers. -/
theorem unattOf_not_attempted (sa : List (String × String))
    (qs : List (String × QData)) :
    ∀ x ∈ qs.flatMap (unattOf sa), dictGet sa x.1 = none := by
  intro x hx
  rcases List.mem_flatMap.mp hx with ⟨p, _, hin⟩
  unfold unattOf at hin
  cases hsa : dictGet sa p.1 with
  | none =>
    rw [hsa] at hin
    simp only [List.mem_singleton] at hin
    rw [hin]
    exact hsa
  | some v => rw [hsa] at hin; simp at hin

/-- The not-attempted entries carry no `subquestions` key. -/
theorem unattOf_no_subs (sa : List (String × String))
    (qs : List (String × QData)) :
    ∀ x ∈ qs.flatMap (unattOf sa), x.2.subquestions = none ∧ x.2.score = 0 := by
  intro x hx
  rcases List.mem_flatMap.mp hx with ⟨p, _, hin⟩
  unfold unattOf at hin
  cases hsa : dictGet sa p.1 with
  | none =>
    rw [hsa] at hin
    simp only [List.mem_singleton] at hin
    rw [hin]
    exact ⟨rfl, rfl⟩
  | some v => rw [hsa] at hin; simp at hin

/-- Shape of the MCQ result entries: each one is keyed by an attempted MCQ
question of the key and carries no `subquestions` key. -/
theorem mcqOf_shape (sa : List (String × String)) (qs : List (String × QData)) :
    ∀ x ∈ qs.flatMap (mcqOf sa), x.2.subquestions = none ∧
      ∃ p ∈ qs, x.1 = p.1 ∧ dictGet sa p.1 ≠ none ∧
        ∃ a m, p.2 = QData.mcq a m := by
  intro x hx
  rcases List.mem_flatMap.mp hx with ⟨p, hp, hin⟩
  unfold mcqOf at hin
  cases hsa : dictGet sa p.1 with
  | none =>
    rw [hsa] at hin
    cases hp2 : p.2 <;> rw [hp2] at hin <;> simp at hin
  | some ans =>
    rw [hsa] at hin
    cases hp2 : p.2 with
    | mcq answer marks =>
      rw [hp2] at hin
      simp only [List.mem_singleton] at hin
      subst hin
      exact ⟨rfl, p, hp, rfl, by simp [hsa], answer, marks, hp2⟩
    | descriptive kd => rw [hp2] at hin; simp at hin
    | composite marks subs => rw [hp2] at hin; simp at hin

/-- MCQ result keys are a sublist of the question numbers. -/
theorem mcqOf_keys_sublist (sa : List (String × String))
    (qs : List (String × QData)) :
    ((qs.flatMap (mcqOf sa)).map Prod.fst).Sublist (qs.map Prod.fst) := by
  induction qs with
  | nil => simp
  | cons p rest ih =>
    simp only [List.flatMap_cons, List.map_append, List.map_cons]
    unfold mcqOf
    cases hsa : dictGet sa p.1 with
    | none =>
      cases hp2 : p.2 <;> simpa using List.Sublist.cons p.1 ih
    | some ans =>
      cases hp2 : p.2 with
      | mcq answer marks => simpa using List.Sublist.cons₂ p.1 ih
      | descriptive kd => simpa using List.Sublist.cons p.1 ih
      | composite marks subs => simpa using List.Sublist.cons p.1 ih

/-- Generic append form of a dict-set fold over fresh, distinct keys. -/
theorem foldl_dictSet_pairs_append {α : Type} (ms : List (String × α))
    (init : List (String × α))
    (hfresh : ∀ p ∈ ms, p.1 ∉ init.map Prod.fst)
    (hnd : (ms.map Prod.fst).Nodup) :
    ms.foldl (fun acc p => dictSet acc p.1 p.2) init = init ++ ms := by
  induction ms generalizing init with
  | nil => simp
  | cons p rest ih =>
    simp only [List.foldl_cons]
    simp only [List.map_cons, List.nodup_cons] at hnd
    rw [dictSet_eq_append _ (hfresh p (List.mem_cons_self _ _))]
    rw [ih]
    · simp
    · intro p2 hp2
      simp only [List.map_append, List.map_cons, List.map_nil,
        List.mem_append, List.mem_singleton]
      push_neg
      refine ⟨hfresh p2 (List.mem_cons_of_mem _ hp2), ?_⟩
      intro hc
      exact hnd.1 (hc ▸ List.mem_map_of_mem Prod.fst hp2)
    · exact hnd.2

/-- Keys present after the second pass: either an original key, a flat batch
id, or the main part of a split batch id. -/
theorem phase2_keys (sa : List (String × String)) (dres : List (String × BRes))
    (qs0 : List (String × QResult)) (total0 : ℚ)
    (out : List (String × QResult) × ℚ)
    (h : dres.foldl (phase2Step sa) (some (qs0, total0)) = some out) :
    ∀ k ∈ out.1.map Prod.fst, k ∈ qs0.map Prod.fst ∨
      ∃ p ∈ dres, k = p.1 ∨ k = (pySplitUnderscore p.1).headD "" := by
  induction dres generalizing qs0 total0 with
  | nil =>
    simp only [List.foldl_nil, Option.some_inj] at h
    rw [← h]
    exact fun k hk => Or.inl hk
  | cons p rest ih =>
    obtain ⟨id, er⟩ := p
    simp only [List.foldl_cons] at h
    have hkeys : ∀ (qs1 : List (String × QResult)) (t1 : ℚ),
        rest.foldl (phase2Step sa) (some (qs1, t1)) = some out →
        (∀ k2 ∈ qs1.map Prod.fst, k2 ∈ qs0.map Prod.fst ∨ k2 = id ∨
          k2 = (pySplitUnderscore id).headD "") →
        ∀ k ∈ out.1.map Prod.fst, k ∈ qs0.map Prod.fst ∨
          ∃ p2 ∈ (id, er) :: rest, k = p2.1 ∨
            k = (pySplitUnderscore p2.1).headD "" := by
      intro qs1 t1 hfold hsubkeys k hk
      rcases ih _ _ hfold k hk with h2 | h2
      · rcases hsubkeys k h2 with h3 | h3 | h3
        · exact Or.inl h3
        · exact Or.inr ⟨(id, er), List.mem_cons_self _ _, Or.inl h3⟩
        · exact Or.inr ⟨(id, er), List.mem_cons_self _ _, Or.inr h3⟩
      · obtain ⟨p2, hp2, h3⟩ := h2
        exact Or.inr ⟨p2, List.mem_cons_of_mem _ hp2, h3⟩
    have hsetkeys : ∀ (l : List (String × QResult)) (k0 : String) (v : QResult),
        ∀ k2 ∈ (dictSet l k0 v).map Prod.fst,
          k2 ∈ l.map Prod.fst ∨ k2 = k0 := by
      intro l k0 v k2 hk2
      rcases List.mem_map.mp hk2 with ⟨x, hx, hxe⟩
      rcases mem_dictSet hx with h3 | h3
      · exact Or.inl (hxe ▸ List.mem_map_of_mem Prod.fst h3)
      · rw [← hxe, h3]
        exact Or.inr rfl
    cases hu : hasUnderscore id with
    | false =>
      rw [show phase2Step sa (some (qs0, total0)) (id, er) =
          some (dictSet qs0 id ⟨er.score, er.max_score, some er.feedback,
            er.answer_text, none⟩, total0 + er.score) by
        simp [phase2Step, hu]] at h
      refine hkeys _ _ h ?_
      intro k2 hk2
      rcases hsetkeys _ _ _ k2 hk2 with h3 | h3
      · exact Or.inl h3
      · exact Or.inr (Or.inl h3)
    | true =>
      simp only [phase2Step, hu, eq_self_iff_true, if_true] at h
      cases hsp : pySplitUnderscore id with
      | nil =>
        simp only [hsp] at h
        rw [phase2_none_foldl] at h
        exact absurd h (by simp)
      | cons m1 t1 =>
        cases t1 with
        | nil =>
          simp only [hsp] at h
          rw [phase2_none_foldl] at h
          exact absurd h (by simp)
        | cons m2 t2 =>
          cases t2 with
          | nil =>
            simp only [hsp] at h
            have hm1 : m1 = (pySplitUnderscore id).headD "" := by
              rw [hsp]
              rfl
            cases hm : dictGet qs0 m1 with
            | some e =>
              simp only [hm] at h
              cases hes : e.subquestions with
              | none =>
                simp only [hes] at h
                rw [phase2_none_foldl] at h
                exact absurd h (by simp)
              | some sl =>
                simp only [hes] at h
                refine hkeys _ _ h ?_
                intro k2 hk2
                rcases hsetkeys _ _ _ k2 hk2 with h3 | h3
                · exact Or.inl h3
                · exact Or.inr (Or.inr (h3.trans hm1))
            | none =>
              simp only [hm] at h
              cases hsa0 : dictGet sa m1 with
              | none =>
                simp only [hsa0] at h
                rw [phase2_none_foldl] at h
                exact absurd h (by simp)
              | some sa0 =>
                simp only [hsa0] at h
                refine hkeys _ _ h ?_
                intro k2 hk2
                rcases hsetkeys _ _ _ k2 hk2 with h3 | h3
                · rcases hsetkeys _ _ _ k2 h3 with h4 | h4
                  · exact Or.inl h4
                  · exact Or.inr (Or.inr (h4.trans hm1))
                · exact Or.inr (Or.inr (h3.trans hm1))
          | cons m3 t3 =>
            simp only [hsp] at h
            rw [phase2_none_foldl] at h
            exact absurd h (by simp)

theorem dictGet_append_fresh {α : Type} {l : List (String × α)} {k : String}
    (v : α) (h : dictGet l k = none) : dictGet (l ++ [(k, v)]) k = some v := by
  rw [dictGet_append, h]
  simp [dictGet]

/-- Accounting through the second pass: with distinct batch ids, flat ids
fresh for the result dict, sub ids cleanly decomposable and fresh within
their composite container, and no flat id equal to a sub main, the running
total stays equal to the MCQ total plus the sum of the entry scores, and
every entry with a `subquestions` key scores the sum of its sub-scores. -/
theorem phase2_accounting (sa : List (String × String))
    (dres : List (String × BRes)) (qs0 : List (String × QResult))
    (total0 mcqT : ℚ) (out : List (String × QResult) × ℚ)
    (hids : (dres.map Prod.fst).Nodup)
    (hflat : ∀ p ∈ dres, hasUnderscore p.1 = false → dictGet qs0 p.1 = none)
    (hsubh : ∀ p ∈ dres, hasUnderscore p.1 = true → ∃ m s,
      hasUnderscore m = false ∧ hasUnderscore s = false ∧ p.1 = m ++ "_" ++ s ∧
      ∀ e sl, dictGet qs0 m = some e → e.subquestions = some sl →
        dictGet sl s = none)
    (hcross : ∀ p1 ∈ dres, ∀ p2 ∈ dres, hasUnderscore p1.1 = false →
      hasUnderscore p2.1 = true → ∀ m s, p2.1 = m ++ "_" ++ s →
      hasUnderscore m = false → p1.1 ≠ m)
    (hinv1 : total0 = mcqT + (qs0.map (fun x => x.2.score)).sum)
    (hinv2 : ∀ x ∈ qs0, ∀ sl, x.2.subquestions = some sl →
      x.2.score = (sl.map (fun sp => sp.2.score)).sum)
    (h : dres.foldl (phase2Step sa) (some (qs0, total0)) = some out) :
    out.2 = mcqT + (out.1.map (fun x => x.2.score)).sum ∧
    ∀ x ∈ out.1, ∀ sl, x.2.subquestions = some sl →
      x.2.score = (sl.map (fun sp => sp.2.score)).sum := by
  induction dres generalizing qs0 total0 with
  | nil =>
    simp only [List.foldl_nil, Option.some_inj] at h
    rw [← h]
    exact ⟨hinv1, hinv2⟩
  | cons p rest ih =>
    obtain ⟨id, er⟩ := p
    simp only [List.map_cons, List.nodup_cons] at hids
    have hrest_mem : ∀ p2 ∈ rest, p2 ∈ (id, er) :: rest :=
      fun p2 hp2 => List.mem_cons_of_mem _ hp2
    have hcross2 : ∀ p1 ∈ rest, ∀ p2 ∈ rest, hasUnderscore p1.1 = false →
        hasUnderscore p2.1 = true → ∀ m s, p2.1 = m ++ "_" ++ s →
        hasUnderscore m = false → p1.1 ≠ m :=
      fun p1 hp1 p2 hp2 => hcross p1 (hrest_mem p1 hp1) p2 (hrest_mem p2 hp2)
    simp only [List.foldl_cons] at h
    cases hu : hasUnderscore id with
    | false =>
      have hfr : dictGet qs0 id = none :=
        hflat (id, er) (List.mem_cons_self _ _) hu
      have hkeys : id ∉ qs0.map Prod.fst := dictGet_eq_none.mp hfr
      rw [show phase2Step sa (some (qs0, total0)) (id, er) =
          some (dictSet qs0 id ⟨er.score, er.max_score, some er.feedback,
            er.answer_text, none⟩, total0 + er.score) by
        simp [phase2Step, hu]] at h
      refine ih _ _ hids.2 ?_ ?_ hcross2 ?_ ?_ h
      · intro p2 hp2 hu2
        rw [dictGet_dictSet_ne _ _ _ _ ?_]
        · exact hflat p2 (hrest_mem p2 hp2) hu2
        · intro hc
          exact hids.1 (hc ▸ List.mem_map_of_mem Prod.fst hp2)
      · intro p2 hp2 hu2
        obtain ⟨m, s, hm0, hs0, hpe, hinner⟩ :=
          hsubh p2 (hrest_mem p2 hp2) hu2
        refine ⟨m, s, hm0, hs0, hpe, ?_⟩
        intro e sl hge hes
        have hne : m ≠ id :=
          (hcross (id, er) (List.mem_cons_self _ _) p2 (hrest_mem p2 hp2)
            hu hu2 m s hpe hm0).symm
        rw [dictGet_dictSet_ne _ _ _ _ hne] at hge
        exact hinner e sl hge hes
      · rw [dictSet_eq_append _ hkeys]
        simp only [List.map_append, List.map_cons, List.map_nil,
          List.sum_append, List.sum_cons, List.sum_nil]
        rw [hinv1]
        ring
      · intro x hx sl hsl
        rcases mem_dictSet hx with h2 | h2
        · exact hinv2 x h2 sl hsl
        · rw [h2] at hsl
          simp at hsl
    | true =>
      obtain ⟨m, s, hm0, hs0, hpe, hinner⟩ :=
        hsubh (id, er) (List.mem_cons_self _ _) hu
      have hideq : id = m ++ "_" ++ s := hpe
      have hsplit : pySplitUnderscore id = [m, s] := by
        rw [hideq]
        exact pySplit_encode hm0 hs0
      simp only [phase2Step, hu, eq_self_iff_true, if_true, hsplit] at h
      have hsub_ne : ∀ p2 ∈ rest, hasUnderscore p2.1 = true →
          ∀ m2 s2, hasUnderscore m2 = false → hasUnderscore s2 = false →
          p2.1 = m2 ++ "_" ++ s2 → m2 = m → s2 ≠ s := by
        intro p2 hp2 hu2 m2 s2 hm2 hs2 hq2 hmm hss
        apply hids.1
        have hpid : p2.1 = id := by
          rw [hq2, hmm, hss]
          exact hideq.symm
        exact hpid ▸ List.mem_map_of_mem Prod.fst hp2
      cases hm : dictGet qs0 m with
      | some e =>
        simp only [hm] at h
        cases hes : e.subquestions with
        | none =>
          simp only [hes] at h
          rw [phase2_none_foldl] at h
          exact absurd h (by simp)
        | some sl =>
          simp only [hes] at h
          have hfresh_s : dictGet sl s = none := hinner e sl hm hes
          have hskeys : s ∉ sl.map Prod.fst := dictGet_eq_none.mp hfresh_s
          have hescore : e.score = (sl.map (fun sp => sp.2.score)).sum :=
            hinv2 (m, e) (dictGet_mem hm) sl hes
          refine ih _ _ hids.2 ?_ ?_ hcross2 ?_ ?_ h
          · intro p2 hp2 hu2
            have hne : p2.1 ≠ m :=
              hcross p2 (hrest_mem p2 hp2) (id, er) (List.mem_cons_self _ _)
                hu2 hu m s hpe hm0
            rw [dictGet_dictSet_ne _ _ _ _ hne]
            exact hflat p2 (hrest_mem p2 hp2) hu2
          · intro p2 hp2 hu2
            obtain ⟨m2, s2, hm20, hs20, hpe2, hinner2⟩ :=
              hsubh p2 (hrest_mem p2 hp2) hu2
            refine ⟨m2, s2, hm20, hs20, hpe2, ?_⟩
            intro e3 sl3 hge3 hes3
            by_cases hmm : m2 = m
            · subst hmm
              rw [dictGet_dictSet_self] at hge3
              obtain rfl := Option.some_inj.mp hge3
              simp only at hes3
              obtain rfl := Option.some_inj.mp hes3
              have hs2ne : s2 ≠ s :=
                hsub_ne p2 hp2 hu2 m2 s2 hm20 hs20 hpe2 rfl
              rw [dictGet_dictSet_ne _ _ _ _ hs2ne]
              exact hinner2 e sl hm hes
            · rw [dictGet_dictSet_ne _ _ _ _ hmm] at hge3
              exact hinner2 e3 sl3 hge3 hes3
          · rw [sum_map_dictSet_get (fun x => x.2.score) _ hm]
            simp only
            rw [hinv1]
            ring
          · intro x hx sl2 hsl2
            rcases mem_dictSet hx with h2 | h2
            · exact hinv2 x h2 sl2 hsl2
            · rw [h2] at hsl2 ⊢
              simp only at hsl2
              obtain rfl := Option.some_inj.mp hsl2
              simp only
              rw [dictSet_eq_append _ hskeys]
              simp only [List.map_append, List.map_cons, List.map_nil,
                List.sum_append, List.sum_cons, List.sum_nil]
              rw [hescore]
              ring
      | none =>
        simp only [hm] at h
        have hmkeys : m ∉ qs0.map Prod.fst := dictGet_eq_none.mp hm
        cases hsa0 : dictGet sa m with
        | none =>
          simp only [hsa0] at h
          rw [phase2_none_foldl] at h
          exact absurd h (by simp)
        | some sa0 =>
          simp only [hsa0] at h
          have hcont : dictGet (dictSet qs0 m
              (⟨0, 0, none, sa0, some []⟩ : QResult)) m =
              some ⟨0, 0, none, sa0, some []⟩ := dictGet_dictSet_self _ _ _
          refine ih _ _ hids.2 ?_ ?_ hcross2 ?_ ?_ h
          · intro p2 hp2 hu2
            have hne : p2.1 ≠ m :=
              hcross p2 (hrest_mem p2 hp2) (id, er) (List.mem_cons_self _ _)
                hu2 hu m s hpe hm0
            rw [dictGet_dictSet_ne _ _ _ _ hne, dictGet_dictSet_ne _ _ _ _ hne]
            exact hflat p2 (hrest_mem p2 hp2) hu2
          · intro p2 hp2 hu2
            obtain ⟨m2, s2, hm20, hs20, hpe2, hinner2⟩ :=
              hsubh p2 (hrest_mem p2 hp2) hu2
            refine ⟨m2, s2, hm20, hs20, hpe2, ?_⟩
            intro e3 sl3 hge3 hes3
            by_cases hmm : m2 = m
            · subst hmm
              rw [dictGet_dictSet_self] at hge3
              obtain rfl := Option.some_inj.mp hge3
              simp only at hes3
              obtain rfl := Option.some_inj.mp hes3
              have hs2ne : s2 ≠ s :=
                hsub_ne p2 hp2 hu2 m2 s2 hm20 hs20 hpe2 rfl
              rw [dictGet_dictSet_ne _ _ _ _ hs2ne]
              rfl
            · rw [dictGet_dictSet_ne _ _ _ _ hmm,
                dictGet_dictSet_ne _ _ _ _ hmm] at hge3
              exact hinner2 e3 sl3 hge3 hes3
          · rw [sum_map_dictSet_get (fun x => x.2.score) _ hcont]
            rw [dictSet_eq_append _ hmkeys]
            simp only [List.map_append, List.map_cons, List.map_nil,
              List.sum_append, List.sum_cons, List.sum_nil]
            rw [hinv1]
            ring
          · intro x hx sl2 hsl2
            rcases mem_dictSet hx with h2 | h2
            · rcases mem_dictSet h2 with h3 | h3
              · exact hinv2 x h3 sl2 hsl2
              · rw [h3] at hsl2 ⊢
                simp only at hsl2
                obtain rfl := Option.some_inj.mp hsl2
                simp
            · rw [h2] at hsl2 ⊢
              simp only at hsl2
              obtain rfl := Option.some_inj.mp hsl2
              simp [dictSet]

/-- Claim C9: for every evaluation result produced by `evaluate_answers` over
a well-formed answer key (distinct, underscore-free question numbers and,
per composite question, distinct underscore-free sub-question letters, as the
key extractor produces), `summary.total_score` equals the sum of the `score`
fields over all top-level entries of the results dict, and every entry
carrying a `subquestions` key scores exactly the sum of its sub-question
scores (unattempted questions contribute 0). -/
theorem C9_total_additivity (resp : BatchResponse)
    (sa : List (String × String)) (key : AnswerKey) (r : EvalResults)
    (hc : cleanKey key) (h : evaluate_answers resp sa key = some r) :
    r.total_score = (r.questions.map (fun x => x.2.score)).sum ∧
    ∀ x ∈ r.questions, ∀ sl, x.2.subquestions = some sl →
      x.2.score = (sl.map (fun sp => sp.2.score)).sum := by
  simp only [evaluate_answers,
    phase1_characterization sa key.questions ⟨[], [], [], 0⟩ (by simp) hc.1,
    List.nil_append, zero_add] at h
  split at h
  · exact absurd h (by simp)
  · rename_i resultsQ1 total1 heq
    obtain rfl := Option.some_inj.mp h
    have hqnd := items_qids_nodup sa key hc
    have hbk : (batch_evaluate_descriptive resp
        (key.questions.flatMap (itemsOf sa))).map Prod.fst =
        (key.questions.flatMap (itemsOf sa)).map DescItem.qid :=
      batch_keys_eq resp _ hqnd
    have hids : ((batch_evaluate_descriptive resp
        (key.questions.flatMap (itemsOf sa))).map Prod.fst).Nodup := by
      rw [hbk]
      exact hqnd
    have hU0 : ((key.questions.flatMap (unattOf sa)).map
        (fun x => x.2.score)).sum = 0 := by
      apply List.sum_eq_zero
      intro q hq
      rcases List.mem_map.mp hq with ⟨x, hx, hxe⟩
      rw [← hxe, (unattOf_no_subs sa key.questions x hx).2]
    have hflat2 : ∀ p ∈ batch_evaluate_descriptive resp
        (key.questions.flatMap (itemsOf sa)), hasUnderscore p.1 = false →
        dictGet (key.questions.flatMap (unattOf sa)) p.1 = none := by
      intro p hp hu
      rcases batch_keys_from_items resp _ p hp with ⟨it, hit, hpq⟩
      have hfa := itemsOf_flat_attempted sa key.questions it hit
        (by rw [← hpq]; exact hu)
      have hp1 : p.1 = it.q_num := hpq.trans hfa.1
      cases hg : dictGet (key.questions.flatMap (unattOf sa)) p.1 with
      | none => rfl
      | some v =>
        have hmem := dictGet_mem hg
        have hna := unattOf_not_attempted sa key.questions (p.1, v) hmem
        rw [show ((p.1, v) : String × QResult).1 = p.1 from rfl, hp1] at hna
        exact absurd hna hfa.2
    have hsubh2 : ∀ p ∈ batch_evaluate_descriptive resp
        (key.questions.flatMap (itemsOf sa)), hasUnderscore p.1 = true →
        ∃ m s, hasUnderscore m = false ∧ hasUnderscore s = false ∧
          p.1 = m ++ "_" ++ s ∧
          ∀ e sl, dictGet (key.questions.flatMap (unattOf sa)) m = some e →
            e.subquestions = some sl → dictGet sl s = none := by
      intro p hp hu
      rcases batch_keys_from_items resp _ p hp with ⟨it, hit, hpq⟩
      rcases List.mem_flatMap.mp hit with ⟨pq, hpqmem, hin⟩
      have hcase := itemsOf_qid_cases sa pq it hin
      have hpwf := hc.2 pq hpqmem
      rcases hcase.2.2 with hf | hs
      · exfalso
        rw [hpq, hf.1, hpwf.1] at hu
        exact absurd hu (by simp)
      · obtain ⟨s, m0, subs, hqe, hpq2c, hsmem⟩ := hs
        refine ⟨pq.1, s, hpwf.1, ?_, by rw [hpq, hqe], ?_⟩
        · rcases List.mem_map.mp hsmem with ⟨sp, hsp, hse⟩
          rw [← hse]
          exact (hpwf.2 m0 subs hpq2c).2 sp hsp
        · intro e sl hge hes
          have hmem := dictGet_mem hge
          have hnone := (unattOf_no_subs sa key.questions (pq.1, e) hmem).1
          rw [show ((pq.1, e) : String × QResult).2 = e from rfl] at hnone
          rw [hnone] at hes
          exact absurd hes (by simp)
    have hcross2 : ∀ p1 ∈ batch_evaluate_descriptive resp
        (key.questions.flatMap (itemsOf sa)),
        ∀ p2 ∈ batch_evaluate_descriptive resp
          (key.questions.flatMap (itemsOf sa)),
        hasUnderscore p1.1 = false → hasUnderscore p2.1 = true →
        ∀ m s, p2.1 = m ++ "_" ++ s → hasUnderscore m = false →
        p1.1 ≠ m := by
      intro p1 hp1 p2 hp2 hu1 hu2 m s hpe hm0
      rcases batch_keys_from_items resp _ p1 hp1 with ⟨it1, hit1, hq1⟩
      rcases List.mem_flatMap.mp hit1 with ⟨pq1, hpq1m, hin1⟩
      have hcase1 := itemsOf_qid_cases sa pq1 it1 hin1
      rcases hcase1.2.2 with hf1 | hs1
      · obtain ⟨hqe1, kd1, hd1⟩ := hf1
        rcases batch_keys_from_items resp _ p2 hp2 with ⟨it2, hit2, hq2⟩
        rcases List.mem_flatMap.mp hit2 with ⟨pq2, hpq2m, hin2⟩
        have hcase2 := itemsOf_qid_cases sa pq2 it2 hin2
        have hpwf2 := hc.2 pq2 hpq2m
        rcases hcase2.2.2 with hf2 | hs2
        · exfalso
          rw [hq2, hf2.1, hpwf2.1] at hu2
          exact absurd hu2 (by simp)
        · obtain ⟨s2, m2, subs2, hqe2, hc2, _⟩ := hs2
          have henc : pq2.1 ++ "_" ++ s2 = m ++ "_" ++ s := by
            rw [← hqe2, ← hq2, hpe]
          have hmeq : pq2.1 = m := (encode_inj hpwf2.1 hm0 henc).1
          intro hc3
          have hkk : pq1.1 = pq2.1 :=
            ((hq1.trans hqe1).symm.trans hc3).trans hmeq.symm
          have hm2m : (pq1.1, pq2.2) ∈ key.questions := by
            rw [hkk]
            exact hpq2m
          have hval := nodup_key_value_unique hc.1
            (show (pq1.1, pq1.2) ∈ key.questions from hpq1m) hm2m
          rw [hd1, hc2] at hval
          exact QData.noConfusion hval
      · obtain ⟨s1, m1, subs1, hqe1, _, _⟩ := hs1
        exfalso
        rw [hq1, hqe1, hasUnderscore_encode] at hu1
        exact absurd hu1 (by simp)
    have hinv2a : ∀ x ∈ key.questions.flatMap (unattOf sa),
        ∀ sl : List (String × SubRes), x.2.subquestions = some sl →
        x.2.score = (sl.map (fun sp => sp.2.score)).sum := by
      intro x hx sl hsl
      rw [(unattOf_no_subs sa key.questions x hx).1] at hsl
      exact absurd hsl (by simp)
    have hacc := phase2_accounting sa
      (batch_evaluate_descriptive resp (key.questions.flatMap (itemsOf sa)))
      (key.questions.flatMap (unattOf sa))
      ((key.questions.flatMap (mcqOf sa)).map (fun p => p.2.score)).sum
      ((key.questions.flatMap (mcqOf sa)).map (fun p => p.2.score)).sum
      (resultsQ1, total1) hids hflat2 hsubh2 hcross2
      (by rw [hU0, add_zero]) hinv2a heq
    have hacc1 : total1 =
        ((key.questions.flatMap (mcqOf sa)).map (fun p => p.2.score)).sum +
        (resultsQ1.map (fun x => x.2.score)).sum := hacc.1
    have hacc2 : ∀ x ∈ resultsQ1, ∀ sl : List (String × SubRes),
        x.2.subquestions = some sl →
        x.2.score = (sl.map (fun sp => sp.2.score)).sum := hacc.2
    have hndM : ((key.questions.flatMap (mcqOf sa)).map Prod.fst).Nodup :=
      (mcqOf_keys_sublist sa key.questions).nodup hc.1
    have hfreshM : ∀ p ∈ key.questions.flatMap (mcqOf sa),
        p.1 ∉ resultsQ1.map Prod.fst := by
      intro p hp hmem
      obtain ⟨hsubn, pq1, hpq1m, hke, hatt, a0, m0, hmcq⟩ :=
        mcqOf_shape sa key.questions p hp
      have hcontra : ∀ pq2 ∈ key.questions, pq1.1 = pq2.1 →
          (∃ kd, pq2.2 = QData.descriptive kd) ∨
          (∃ mm ss, pq2.2 = QData.composite mm ss) → False := by
        intro pq2 hpq2m hkk hshape
        have hm2m : (pq1.1, pq2.2) ∈ key.questions := by
          rw [hkk]
          exact hpq2m
        have hval := nodup_key_value_unique hc.1
          (show (pq1.1, pq1.2) ∈ key.questions from hpq1m) hm2m
        rcases hshape with ⟨kd, he⟩ | ⟨mm, ss, he⟩ <;> rw [hmcq, he] at hval <;>
          exact QData.noConfusion hval
      rcases phase2_keys sa _ _ _ (resultsQ1, total1) heq p.1 hmem with
        hA | ⟨pb, hpb, hBC⟩
      · rcases List.mem_map.mp hA with ⟨x, hx, hxe⟩
        have hna := unattOf_not_attempted sa key.questions x hx
        rw [hxe, hke] at hna
        exact hatt hna
      · rcases batch_keys_from_items resp _ pb hpb with ⟨it2, hit2, hq2⟩
        rcases List.mem_flatMap.mp hit2 with ⟨pq2, hpq2m, hin2⟩
        have hcase2 := itemsOf_qid_cases sa pq2 it2 hin2
        have hpwf2 := hc.2 pq2 hpq2m
        rcases hBC with hB | hC
        · rcases hcase2.2.2 with hf2 | hs2
          · obtain ⟨hqe2, kd2, hd2⟩ := hf2
            exact hcontra pq2 hpq2m (by rw [← hke, hB, hq2]; exact hqe2)
              (Or.inl ⟨kd2, hd2⟩)
          · obtain ⟨s2, m2, subs2, hqe2, hc2, _⟩ := hs2
            have hu1 : hasUnderscore p.1 = true := by
              rw [hB, hq2, hqe2]
              exact hasUnderscore_encode _ _
            have hu0 : hasUnderscore p.1 = false := by
              rw [hke]
              exact (hc.2 pq1 hpq1m).1
            rw [hu1] at hu0
            exact absurd hu0 (by simp)
        · rcases hcase2.2.2 with hf2 | hs2
          · obtain ⟨hqe2, kd2, hd2⟩ := hf2
            have hnu : hasUnderscore pb.1 = false := by
              rw [hq2, hqe2]
              exact hpwf2.1
            have hspu : pySplitUnderscore pb.1 = [pb.1] := pySplit_noU hnu
            refine hcontra pq2 hpq2m ?_ (Or.inl ⟨kd2, hd2⟩)
            rw [← hke, hC, hspu, List.headD_cons, hq2]
            exact hqe2
          · obtain ⟨s2, m2, subs2, hqe2, hc2, hsmem2⟩ := hs2
            have hs20 : hasUnderscore s2 = false := by
              rcases List.mem_map.mp hsmem2 with ⟨sp, hsp, hse⟩
              rw [← hse]
              exact (hpwf2.2 m2 subs2 hc2).2 sp hsp
            have hspu : pySplitUnderscore pb.1 = [pq2.1, s2] := by
              rw [hq2, hqe2]
              exact pySplit_encode hpwf2.1 hs20
            refine hcontra pq2 hpq2m ?_ (Or.inr ⟨m2, subs2, hc2⟩)
            rw [← hke, hC, hspu, List.headD_cons]
    have hM := foldl_dictSet_pairs_append (key.questions.flatMap (mcqOf sa))
      resultsQ1 hfreshM hndM
    constructor
    · show total1 = (((key.questions.flatMap (mcqOf sa)).foldl
        (fun acc p => dictSet acc p.1 p.2) resultsQ1).map
          (fun x => x.2.score)).sum
      rw [hM, hacc1]
      simp only [List.map_append, List.sum_append]
      ring
    · show ∀ x ∈ (key.questions.flatMap (mcqOf sa)).foldl
        (fun acc p => dictSet acc p.1 p.2) resultsQ1,
        ∀ sl, x.2.subquestions = some sl →
          x.2.score = (sl.map (fun sp => sp.2.score)).sum
      rw [hM]
      intro x hx sl hsl
      rcases List.mem_append.mp hx with h2 | h2
      · exact hacc2 x h2 sl hsl
      · rw [(mcqOf_shape sa key.questions x h2).1] at hsl
        exact absurd hsl (by simp)

theorem C9_witness :
    cleanKey ⟨[("1", QData.descriptive ⟨5, [], none⟩)], 5⟩ ∧
    (4 : ℚ) = ([("1", (⟨4, 5, some "good", "answer", none⟩ : QResult))].map
      (fun x => x.2.score)).sum := by
  have hck : cleanKey ⟨[("1", QData.descriptive ⟨5, [], none⟩)], 5⟩ := by
    refine ⟨by decide, ?_⟩
    intro p hp
    simp only [List.mem_singleton] at hp
    subst hp
    refine ⟨by decide, ?_⟩
    intro m subs hcomp
    exact absurd hcomp (by simp)
  have hmin : min (4 : ℚ) 5 = 4 := by norm_num
  have hp80 : ((4 : ℚ))/5*100 = ((80 : ℤ) : ℚ) := by norm_num
  have hev : evaluate_answers (.parsed [("1", ⟨some 4, some "good"⟩)])
      [("1", "answer")] ⟨[("1", QData.descriptive ⟨5, [], none⟩)], 5⟩ =
      some ⟨[("1", ⟨4, 5, some "good", "answer", none⟩)], 4, 5, 80⟩ := by
    simp +decide [evaluate_answers, phase1Step, dictGet, dictSet,
      batch_evaluate_descriptive, processParsed, parsedValue, DescItem.qid,
      phase2Step, hasUnderscore, hmin]
    rw [hp80, pyRound_intValue 2 rfl]
    norm_num
  have h9 := C9_total_additivity (.parsed [("1", ⟨some 4, some "good"⟩)])
    [("1", "answer")] ⟨[("1", QData.descriptive ⟨5, [], none⟩)], 5⟩
    ⟨[("1", ⟨4, 5, some "good", "answer", none⟩)], 4, 5, 80⟩ hck hev
  exact ⟨hck, h9.1⟩

/-! ## Accounting for `_parse_answer_key` (claim C4) -/

/-- Marks accounted inside one parsed entry: its own `marks` field plus the
marks of its sub-questions.  The running `total_marks` of the parser tracks
the sum of this quantity over the dict. -/
def PQuestion.accMarks (q : PQuestion) : ℤ :=
  q.marks + ((q.subquestions.getD []).map (fun sp => sp.2.marks)).sum

/-- Sum of the accounted marks over a parsed questions dict. -/
def accSum (qs : List (String × PQuestion)) : ℤ :=
  (qs.map (fun p => p.2.accMarks)).sum

/-- Shape invariant of a parsed entry: a composite entry has zeroed marks and
a `subquestions` key, any other entry has none. -/
def PQuestion.wfShape (q : PQuestion) : Prop :=
  if q.qtype = "composite" then q.marks = 0 ∧ q.subquestions ≠ none
  else q.subquestions = none

theorem accMarks_eq_leafMarks {q : PQuestion} (h : q.wfShape) :
    q.accMarks = q.leafMarks := by
  unfold PQuestion.wfShape at h
  unfold PQuestion.accMarks PQuestion.leafMarks
  by_cases hc : q.qtype = "composite"
  · rw [if_pos hc] at h ⊢
    rw [h.1, zero_add]
  · rw [if_neg hc] at h ⊢
    rw [h]
    simp

theorem accSum_eq_leafSum {qs : List (String × PQuestion)}
    (h : ∀ p ∈ qs, p.2.wfShape) : accSum qs = leafSum qs := by
  unfold accSum leafSum
  induction qs with
  | nil => rfl
  | cons p rest ih =>
    simp only [List.map_cons, List.sum_cons]
    rw [accMarks_eq_leafMarks (h p (List.mem_cons_self _ _)),
      ih (fun q hq => h q (List.mem_cons_of_mem _ hq))]

theorem map_snd_dictUpdate {α β : Type} (l : List (String × α)) (k : String)
    (f : α → α) (g : α → β) (hf : ∀ v, g (f v) = g v) :
    (dictUpdate l k f).map (fun p => g p.2) = l.map (fun p => g p.2) := by
  induction l with
  | nil => rfl
  | cons p rest ih =>
    obtain ⟨k0, v0⟩ := p
    by_cases h : k0 = k <;> simp [dictUpdate, h, ih, hf]

/-- A question transformation that only rewrites answer texts: marks, type,
sub keys and sub marks are untouched, and the presence of the `subquestions`
key is preserved. -/
def textOnly (f : PQuestion → PQuestion) : Prop :=
  ∀ e, (f e).marks = e.marks ∧ (f e).qtype = e.qtype ∧
    ((f e).subquestions.getD []).map Prod.fst =
      (e.subquestions.getD []).map Prod.fst ∧
    ((f e).subquestions.getD []).map (fun sp => sp.2.marks) =
      (e.subquestions.getD []).map (fun sp => sp.2.marks) ∧
    ((f e).subquestions = none ↔ e.subquestions = none)

theorem textOnly_setAnswer (t : String) :
    textOnly (fun e => { e with answer_text := some t }) :=
  fun _ => ⟨rfl, rfl, rfl, rfl, Iff.rfl⟩

theorem textOnly_setSubAnswer (cs : String) (t : String) :
    textOnly (fun e => { e with subquestions := e.subquestions.map (fun sl =>
      dictUpdate sl cs (fun sub => { sub with answer_text := some t })) }) := by
  intro e
  cases hs : e.subquestions with
  | none =>
    refine ⟨rfl, rfl, ?_, ?_, ?_⟩ <;> simp [hs]
  | some sl =>
    refine ⟨rfl, rfl, ?_, ?_, ?_⟩
    · simp only [hs, Option.map_some', Option.getD_some]
      exact map_fst_dictUpdate sl cs _
    · simp only [hs, Option.map_some', Option.getD_some]
      exact map_snd_dictUpdate sl cs _ (fun v => v.marks) (fun v => rfl)
    · simp [hs]

theorem accMarks_textOnly {f : PQuestion → PQuestion} (hf : textOnly f)
    (e : PQuestion) : (f e).accMarks = e.accMarks := by
  unfold PQuestion.accMarks
  rw [(hf e).1, (hf e).2.2.2.1]

theorem wfShape_textOnly {f : PQuestion → PQuestion} (hf : textOnly f)
    {e : PQuestion} (he : e.wfShape) : (f e).wfShape := by
  unfold PQuestion.wfShape at he ⊢
  rw [(hf e).2.1]
  by_cases hc : e.qtype = "composite"
  · rw [if_pos hc] at he ⊢
    refine ⟨(hf e).1.trans he.1, ?_⟩
    intro hn
    exact he.2 ((hf e).2.2.2.2.mp hn)
  · rw [if_neg hc] at he ⊢
    exact (hf e).2.2.2.2.mpr he

/-- State of the overwrite checker: question numbers introduced so far, the
current question, and the sub letters already attached to it. -/
structure ScanSt where
  seen : List String
  cur : Option String
  curSubs : List String
  deriving DecidableEq

/-- One line of the overwrite checker: a question or MCQ line must introduce a
fresh question number, a sub-question line (with a current question) a fresh
sub letter; any other line passes unchanged. -/
def scanLine (sc : ScanSt) (line : String) : Option ScanSt :=
  match mcqLineMatch line.data with
  | some (q_num, _, _) =>
    if q_num ∈ sc.seen then none
    else some ⟨sc.seen ++ [q_num], some q_num, []⟩
  | none =>
    match questionLineMatch line.data with
    | some (q_num, _) =>
      if q_num ∈ sc.seen then none
      else some ⟨sc.seen ++ [q_num], some q_num, []⟩
    | none =>
      match subLineMatch line.data, sc.cur with
      | some (subLetter, _), some _ =>
        if String.mk [subLetter] ∈ sc.curSubs then none
        else some ⟨sc.seen, sc.cur, sc.curSubs ++ [String.mk [subLetter]]⟩
      | _, _ => some sc

/-- The checker over the prepared lines of a key text: `true` when no question
number and no sub letter is ever written twice. -/
def parseScanOK (text : String) : Bool :=
  ((prepLines text).foldl (fun acc l => acc.bind (fun sc => scanLine sc l))
    (some ⟨[], none, []⟩)).isSome

/-- Invariant tying the parser state to the checker state: the dict keys are
the seen question numbers, the current questions agree, the running total is
the accounted sum, all entries are well-shaped, and the current question's sub
letters are exactly the tracked ones. -/
structure ParseInv (st : PState) (sc : ScanSt) : Prop where
  keys : st.questions.map Prod.fst = sc.seen
  cur : st.current_question = sc.cur
  total : st.total_marks = accSum st.questions
  shape : ∀ p ∈ st.questions, p.2.wfShape
  subs : ∀ cq, sc.cur = some cq → ∃ e, dictGet st.questions cq = some e ∧
    ((e.subquestions.getD []).map Prod.fst) = sc.curSubs

theorem ParseInv_dictUpdate {st : PState} {sc : ScanSt} (hinv : ParseInv st sc)
    (k : String) {f : PQuestion → PQuestion} (hf : textOnly f) :
    ParseInv { st with questions := dictUpdate st.questions k f } sc := by
  refine ⟨(map_fst_dictUpdate _ _ _).trans hinv.keys, hinv.cur, ?_, ?_, ?_⟩
  · show st.total_marks = accSum (dictUpdate st.questions k f)
    rw [hinv.total]
    unfold accSum
    exact (sum_map_dictUpdate (fun p => p.2.accMarks) st.questions k f
      (fun k0 v => accMarks_textOnly hf v)).symm
  · intro p hp
    rcases mem_dictUpdate hp with h2 | h2
    · exact hinv.shape p h2
    · obtain ⟨v, hv1, hv2⟩ := h2
      rw [hv1]
      exact wfShape_textOnly hf (hinv.shape (k, v) hv2)
  · intro cq hcq
    obtain ⟨e, hg, hk⟩ := hinv.subs cq hcq
    by_cases hkq : cq = k
    · subst hkq
      refine ⟨f e, ?_, ?_⟩
      · rw [dictGet_dictUpdate_self, hg, Option.map_some']
      · exact ((hf e).2.2.1).trans hk
    · exact ⟨e, (dictGet_dictUpdate_ne _ _ _ _ hkq).trans hg, hk⟩

theorem scan_none_foldl (lines : List String) :
    lines.foldl (fun acc l => acc.bind (fun sc => scanLine sc l)) none =
      none := by
  induction lines with
  | nil => rfl
  | cons l rest ih => simpa using ih

theorem textOnly_setSubAnswer2 (cs t : String) :
    textOnly (fun e => match e.subquestions with
      | some sl => { e with subquestions := some (dictUpdate sl cs (fun sub =>
          { sub with answer_text := some t })) }
      | none => e) := by
  intro e
  cases hs : e.subquestions with
  | none =>
    refine ⟨by simp [hs], by simp [hs], by simp [hs], by simp [hs],
      by simp [hs]⟩
  | some sl =>
    refine ⟨by simp [hs], by simp [hs], ?_, ?_, by simp [hs]⟩
    · simp only [hs, Option.getD_some]
      exact map_fst_dictUpdate sl cs _
    · simp only [hs, Option.getD_some]
      exact map_snd_dictUpdate sl cs _ (fun v => v.marks) (fun v => rfl)

theorem accSum_append_one (qs : List (String × PQuestion)) (k : String)
    (e : PQuestion) : accSum (qs ++ [(k, e)]) = accSum qs + e.accMarks := by
  unfold accSum
  simp

theorem accMarks_no_subs (e : PQuestion) (h : e.subquestions = none) :
    e.accMarks = e.marks := by
  unfold PQuestion.accMarks
  rw [h]
  simp

theorem ParseInv_flushBuffer {st : PState} {sc : ScanSt}
    (h : ParseInv st sc) : ParseInv (flushBuffer st) sc := by
  unfold flushBuffer
  split
  · exact h
  · split
    · split
      · exact h
      · split
        · split
          · exact ParseInv_dictUpdate h _
              (textOnly_setSubAnswer _ (joinLines st.buffer))
          · exact h
        · exact ParseInv_dictUpdate h _ (textOnly_setAnswer (joinLines st.buffer))
    · exact h

theorem ParseInv_flushFinal {st : PState} {sc : ScanSt}
    (h : ParseInv st sc) : ParseInv (flushFinal st) sc := by
  unfold flushFinal
  split
  · exact h
  · split
    · split
      · exact h
      · split
        · exact ParseInv_dictUpdate h _
            (textOnly_setSubAnswer _ (joinLines st.buffer))
        · exact ParseInv_dictUpdate h _ (textOnly_setAnswer (joinLines st.buffer))
    · exact h

theorem ParseInv_subStep (st1 : PState) (sc : ScanSt) (cq : String)
    (e1 nE : PQuestion) (m tq : ℤ) (letter : String) (buf : List String)
    (hinv1 : ParseInv st1 sc) (hcur : sc.cur = some cq)
    (hg1 : dictGet st1.questions cq = some e1)
    (hshape : nE.wfShape)
    (hsubkeys : (nE.subquestions.getD []).map Prod.fst =
      sc.curSubs ++ [letter])
    (hacc : nE.accMarks =
      ((e1.subquestions.getD []).map (fun sp => sp.2.marks)).sum + m) :
    ParseInv ⟨dictSet st1.questions cq nE, tq,
      st1.total_marks + m - e1.marks, st1.current_question, some letter, buf⟩
      ⟨sc.seen, some cq, sc.curSubs ++ [letter]⟩ := by
  refine ⟨(map_fst_dictSet_mem nE
      (List.mem_map_of_mem Prod.fst (dictGet_mem hg1))).trans hinv1.keys,
    hinv1.cur.trans hcur, ?_, ?_, ?_⟩
  · show st1.total_marks + m - e1.marks = accSum (dictSet st1.questions cq nE)
    rw [hinv1.total]
    unfold accSum
    rw [sum_map_dictSet_get (fun p => p.2.accMarks) nE hg1]
    simp only []
    rw [hacc]
    unfold PQuestion.accMarks
    ring
  · intro p hp
    rcases mem_dictSet hp with h2 | h2
    · exact hinv1.shape p h2
    · rw [h2]
      exact hshape
  · intro cq2 hcq2
    have he : cq2 = cq := (Option.some_inj.mp hcq2).symm
    subst he
    exact ⟨nE, dictGet_dictSet_self _ _ _, hsubkeys⟩

theorem parseSubCont_inv (st1 : PState) (sc : ScanSt) (line : String)
    (cq : String) (subLetter : Char) (restRaw : String)
    (hinv1 : ParseInv st1 sc) (hcur : sc.cur = some cq)
    (hmem : String.mk [subLetter] ∉ sc.curSubs) :
    ParseInv
      (match dictGet st1.questions cq with
       | none => st1
       | some entry =>
         let entry1 :=
           match entry.subquestions with
           | none => { entry with subquestions := some [], qtype := "composite" }
           | some _ => entry
         { questions := dictSet st1.questions cq
             { entry1 with
                 subquestions := some (dictSet (entry1.subquestions.getD [])
                   (String.mk [subLetter])
                   ⟨marksOf (pyStrip restRaw), [], line, none⟩),
                 marks := 0 }
           total_questions := st1.total_questions
           total_marks := st1.total_marks + marksOf (pyStrip restRaw) -
             entry.marks
           current_question := st1.current_question
           current_subquestion := some (String.mk [subLetter])
           buffer := [pyStrip restRaw] })
      ⟨sc.seen, some cq, sc.curSubs ++ [String.mk [subLetter]]⟩ := by
  obtain ⟨e1, hg1, hk1⟩ := hinv1.subs cq hcur
  simp only [hg1]
  cases hes : e1.subquestions with
  | none =>
    simp only [hes]
    have hsubnil : sc.curSubs = [] := by
      rw [← hk1, hes]
      rfl
    refine ParseInv_subStep st1 sc cq e1 _ (marksOf (pyStrip restRaw))
      st1.total_questions (String.mk [subLetter]) [pyStrip restRaw] hinv1 hcur
      hg1 ?_ ?_ ?_
    · simp [PQuestion.wfShape]
    · simp [hsubnil, dictSet]
    · simp [PQuestion.accMarks, hes, dictSet]
  | some sl =>
    simp only [hes]
    have hk1g : sl.map Prod.fst = sc.curSubs := by
      rw [← hk1, hes]
      rfl
    have hfr : String.mk [subLetter] ∉ sl.map Prod.fst := by
      rw [hk1g]
      exact hmem
    have hwf1 : e1.wfShape := hinv1.shape (cq, e1) (dictGet_mem hg1)
    have hq1 : e1.qtype = "composite" := by
      unfold PQuestion.wfShape at hwf1
      by_cases hq : e1.qtype = "composite"
      · exact hq
      · rw [if_neg hq, hes] at hwf1
        exact absurd hwf1 (by simp)
    refine ParseInv_subStep st1 sc cq e1 _ (marksOf (pyStrip restRaw))
      st1.total_questions (String.mk [subLetter]) [pyStrip restRaw] hinv1 hcur
      hg1 ?_ ?_ ?_
    · simp [PQuestion.wfShape, hq1]
    · simp only [Option.getD_some]
      rw [dictSet_eq_append _ hfr, List.map_append, hk1g]
      rfl
    · simp only [PQuestion.accMarks, Option.getD_some]
      rw [dictSet_eq_append _ hfr]
      simp only [hes, Option.getD_some, List.map_append, List.sum_append,
        List.map_cons, List.map_nil, List.sum_cons, List.sum_nil]
      ring

theorem wfShape_of_plain {q : PQuestion} (h1 : ¬ q.qtype = "composite")
    (h2 : q.subquestions = none) : q.wfShape := by
  unfold PQuestion.wfShape
  rw [if_neg h1]
  exact h2

/-- One line of the parsing loop preserves the invariant whenever the checker
accepts the line. -/
theorem parseLine_inv (st : PState) (sc : ScanSt) (line : String)
    (hinv : ParseInv st sc) (sc2 : ScanSt)
    (h : scanLine sc line = some sc2) :
    ParseInv (parseLine st line) sc2 := by
  obtain ⟨qs0, tq0, tm0, cq0, cs0, buf0⟩ := st
  have hkeys0 : qs0.map Prod.fst = sc.seen := hinv.keys
  have htot0 : tm0 = accSum qs0 := hinv.total
  unfold scanLine at h
  unfold parseLine
  cases hm : mcqLineMatch line.data with
  | some t =>
    obtain ⟨q_num, answer, explRaw⟩ := t
    simp only [hm] at h ⊢
    by_cases hseen : q_num ∈ sc.seen
    · rw [if_pos hseen] at h
      exact absurd h (by simp)
    · rw [if_neg hseen] at h
      obtain rfl := Option.some_inj.mp h
      have hfresh : q_num ∉ qs0.map Prod.fst := by
        rw [hkeys0]
        exact hseen
      refine ⟨?_, rfl, ?_, ?_, ?_⟩
      · show (dictSet qs0 q_num
            ⟨"mcq", some answer, marksOf (pyStrip explRaw), [], line, none,
              none⟩).map Prod.fst = sc.seen ++ [q_num]
        rw [dictSet_eq_append _ hfresh, List.map_append, hkeys0]
        rfl
      · show tm0 + marksOf (pyStrip explRaw) = accSum (dictSet
            qs0 q_num ⟨"mcq", some answer, marksOf (pyStrip explRaw),
              [], line, none, none⟩)
        rw [dictSet_eq_append _ hfresh, accSum_append_one,
          accMarks_no_subs _ rfl, htot0]
      · intro p hp
        rcases mem_dictSet hp with h2 | h2
        · exact hinv.shape p h2
        · rw [h2]
          exact wfShape_of_plain (by simp) rfl
      · intro cq hcq
        obtain rfl := Option.some_inj.mp hcq
        exact ⟨_, dictGet_dictSet_self _ _ _, rfl⟩
  | none =>
    simp only [hm] at h ⊢
    cases hq : questionLineMatch line.data with
    | some t =>
      obtain ⟨q_num, restRaw⟩ := t
      simp only [hq] at h ⊢
      by_cases hseen : q_num ∈ sc.seen
      · rw [if_pos hseen] at h
        exact absurd h (by simp)
      · rw [if_neg hseen] at h
        obtain rfl := Option.some_inj.mp h
        have hinv1 : ParseInv (flushBuffer ⟨qs0, tq0, tm0, cq0, cs0, buf0⟩)
            sc := ParseInv_flushBuffer hinv
        have hfresh : q_num ∉
            (flushBuffer ⟨qs0, tq0, tm0, cq0, cs0, buf0⟩).questions.map
              Prod.fst := by
          rw [hinv1.keys]
          exact hseen
        refine ⟨?_, rfl, ?_, ?_, ?_⟩
        · show (dictSet (flushBuffer ⟨qs0, tq0, tm0, cq0, cs0, buf0⟩).questions
              q_num ⟨"descriptive", none, marksOf (pyStrip restRaw), [], line,
                none, none⟩).map Prod.fst = sc.seen ++ [q_num]
          rw [dictSet_eq_append _ hfresh, List.map_append, hinv1.keys]
          rfl
        · show (flushBuffer ⟨qs0, tq0, tm0, cq0, cs0, buf0⟩).total_marks +
            marksOf (pyStrip restRaw) = accSum (dictSet
              (flushBuffer ⟨qs0, tq0, tm0, cq0, cs0, buf0⟩).questions q_num
              ⟨"descriptive", none, marksOf (pyStrip restRaw), [], line, none,
                none⟩)
          rw [dictSet_eq_append _ hfresh, accSum_append_one,
            accMarks_no_subs _ rfl, hinv1.total]
        · intro p hp
          rcases mem_dictSet hp with h2 | h2
          · exact hinv1.shape p h2
          · rw [h2]
            exact wfShape_of_plain (by simp) rfl
        · intro cq hcq
          obtain rfl := Option.some_inj.mp hcq
          exact ⟨_, dictGet_dictSet_self _ _ _, rfl⟩
    | none =>
      simp only [hq] at h ⊢
      cases hs : subLineMatch line.data with
      | none =>
        simp only [hs] at h ⊢
        obtain rfl := Option.some_inj.mp h
        cases cq0 with
        | some c => exact ⟨hinv.keys, hinv.cur, hinv.total, hinv.shape,
            hinv.subs⟩
        | none => exact hinv
      | some t =>
        obtain ⟨subLetter, restRaw⟩ := t
        simp only [hs] at h ⊢
        cases hcur : sc.cur with
        | none =>
          simp only [hcur] at h
          obtain rfl := Option.some_inj.mp h
          have hstc : cq0 = none := by
            rw [show cq0 = sc.cur from hinv.cur, hcur]
          subst hstc
          exact hinv
        | some cq =>
          simp only [hcur] at h
          by_cases hmem : String.mk [subLetter] ∈ sc.curSubs
          · rw [if_pos hmem] at h
            exact absurd h (by simp)
          · rw [if_neg hmem] at h
            obtain rfl := Option.some_inj.mp h
            have hstc : cq0 = some cq := by
              rw [show cq0 = sc.cur from hinv.cur, hcur]
            subst hstc
            cases cs0 with
            | none =>
              exact parseSubCont_inv _ sc line cq subLetter restRaw hinv hcur
                hmem
            | some cs =>
              by_cases hbuf : buf0 ≠ []
              · simp only [if_pos hbuf]
                exact parseSubCont_inv _ sc line cq subLetter restRaw
                  (ParseInv_dictUpdate hinv cq
                    (textOnly_setSubAnswer2 cs (joinLines buf0))) hcur hmem
              · simp only [if_neg hbuf]
                exact parseSubCont_inv _ sc line cq subLetter restRaw hinv
                  hcur hmem

theorem parse_fold_inv (lines : List String) (st : PState) (sc sc2 : ScanSt)
    (hinv : ParseInv st sc)
    (h : lines.foldl (fun acc l => acc.bind (fun s => scanLine s l)) (some sc) =
      some sc2) :
    ParseInv (lines.foldl parseLine st) sc2 := by
  induction lines generalizing st sc with
  | nil =>
    simp only [List.foldl_nil, Option.some_inj] at h
    subst h
    exact hinv
  | cons l rest ih =>
    simp only [List.foldl_cons, Option.some_bind] at h
    cases hsl : scanLine sc l with
    | none =>
      rw [hsl, scan_none_foldl] at h
      exact absurd h (by simp)
    | some sc1 =>
      rw [hsl] at h
      exact ih _ _ (parseLine_inv st sc l hinv sc1 hsl) h

/-- The key-point extraction pass does not change any leaf marks. -/
theorem leafSum_extract (qs : List (String × PQuestion)) :
    leafSum (extract_key_points qs) = leafSum qs := by
  unfold leafSum extract_key_points
  rw [List.map_map]
  apply congrArg
  apply List.map_congr_left
  intro p _
  simp only [Function.comp]
  by_cases h1 : p.2.qtype = "mcq"
  · rw [if_pos h1]
  · rw [if_neg h1]
    by_cases h2 : p.2.qtype = "descriptive"
    · rw [if_pos h2]
      cases hat : p.2.answer_text with
      | none => rfl
      | some t =>
        show PQuestion.leafMarks _ = PQuestion.leafMarks p.2
        unfold PQuestion.leafMarks
        rfl
    · rw [if_neg h2]
      by_cases h3 : p.2.qtype = "composite"
      · rw [if_pos h3]
        show PQuestion.leafMarks _ = PQuestion.leafMarks p.2
        unfold PQuestion.leafMarks
        cases hqs : p.2.subquestions with
        | none => rfl
        | some sl =>
          rw [if_pos (show (({ p.2 with subquestions := (p.2.subquestions.map
              (fun sl => sl.map (fun sp => match sp.2.answer_text with
                | some t => (sp.1, { sp.2 with
                    key_points := extractPoints t })
                | none => sp))) }) : PQuestion).qtype = "composite" from h3),
            if_pos h3]
          simp only [Option.map_some', Option.getD_some, List.map_map]
          apply congrArg
          apply List.map_congr_left
          intro sp _
          simp only [Function.comp]
          cases hsa : sp.2.answer_text <;> rfl
      · rw [if_neg h3]

/-- Claim C4 is false as stated: the key text whose two lines reuse question
number 1 has the second entry overwrite the first, yet both lines' marks are
added to `metadata.total_marks`: the total is 5 while the surviving leaf
marks sum to 3. -/
theorem C4_counterexample :
    (parse_answer_key ("1. x (2)" ++ "\n" ++ "1. y (3)")).total_marks = 5 ∧
    leafSum (parse_answer_key ("1. x (2)" ++ "\n" ++ "1. y (3)")).questions =
      3 := by
  constructor <;> decide

/-- Claim C4, amended: whenever no question number is introduced twice and no
sub letter is attached twice to the same question (`parseScanOK`), the parsed
`metadata.total_marks` equals the sum of leaf-level marks (MCQ marks,
descriptive marks, and sub-question marks of composite questions): the
composite parent's marks are zeroed on its first sub-question and the total is
adjusted by (new sub marks - old question marks), so the parent's original
mark is never double-counted.  Texts that overwrite an entry break the
equality, as the counterexample shows. -/
theorem C4_total_marks (text : String) (h : parseScanOK text = true) :
    (parse_answer_key text).total_marks =
      leafSum (parse_answer_key text).questions := by
  unfold parseScanOK at h
  cases hres : (prepLines text).foldl
      (fun acc l => acc.bind (fun sc => scanLine sc l))
      (some ⟨[], none, []⟩) with
  | none =>
    rw [hres] at h
    simp at h
  | some sc2 =>
    have hinv0 : ParseInv ⟨[], 0, 0, none, none, []⟩ ⟨[], none, []⟩ := by
      refine ⟨rfl, rfl, rfl, ?_, ?_⟩
      · intro p hp
        simp at hp
      · intro cq hcq
        simp at hcq
    have hinvF := ParseInv_flushFinal
      (parse_fold_inv (prepLines text) _ _ _ hinv0 hres)
    show (flushFinal ((prepLines text).foldl parseLine
        ⟨[], 0, 0, none, none, []⟩)).total_marks =
      leafSum (extract_key_points (flushFinal ((prepLines text).foldl parseLine
        ⟨[], 0, 0, none, none, []⟩)).questions)
    rw [leafSum_extract, hinvF.total]
    exact accSum_eq_leafSum hinvF.shape

theorem C4_witness :
    parseScanOK ("1. define osmosis (2)" ++ "\n" ++ "a) first part (1)" ++
      "\n" ++ "b) second part (2)" ++ "\n" ++ "2. B (correct (1))") = true ∧
    (parse_answer_key ("1. define osmosis (2)" ++ "\n" ++ "a) first part (1)"
      ++ "\n" ++ "b) second part (2)" ++ "\n" ++
      "2. B (correct (1))")).total_marks =
      leafSum (parse_answer_key ("1. define osmosis (2)" ++ "\n" ++
        "a) first part (1)" ++ "\n" ++ "b) second part (2)" ++ "\n" ++
        "2. B (correct (1))")).questions :=
  ⟨by decide, C4_total_marks _ (by decide)⟩
